import Mathlib

/-!
# Raft peer of `src/raft/raft.go`: a shallow embedding

Every region of the Go code that runs under the peer mutex `rf.mu` is embedded
as one function on the record `Raft` of the fields that the region reads and
writes.  Conventions:

* Go `int` is embedded as `Int`.  The one addition on a term, `rf.currentTerm += 1`
  of the election timer, wraps at `2^63` as the 64-bit `int` does (`wrapInt`);
  every other term is a copy of a term.  Log indices are sums of a base index
  and a slice length, and are not wrapped.
* A Go slice is a `List`; a slice read `s[i]` outside `0 ≤ i < len(s)` is a
  run-time panic and is embedded as `none`, so every region that reads a slice
  returns an `Option`.
* `interface{}` payloads are `Cmd`: the nil interface, or a value named by a
  code.  `[]byte` is a list of byte codes.
* A send on `rf.commitChan` is embedded as an element of the list of `ApplyMsg`
  that the region returns, in sending order.  Debug printing is dropped.
* A reply struct is filled in by the handler starting from Go's zero value, as
  the RPC layer allocates it.

The definitions for the primary-backup replica of `src/simplepb/server.go` follow
those of the Raft peer; the theorems on both come behind all definitions.
-/

namespace raft

/-- The constants `FOLLOWER`, `CANDIDATE`, `LEADER` of the `iota` block. -/
inductive Role where
  | FOLLOWER
  | CANDIDATE
  | LEADER
deriving DecidableEq, Repr

/-- An `interface{}` command: `none` is the nil interface. -/
abbrev Cmd := Option Nat

/-- A `[]byte` value. -/
abbrev Bytes := List Nat

/-- Go `type Entry struct { Command interface{}; Term int }`. -/
structure Entry where
  Command : Cmd
  Term : Int
deriving DecidableEq, Repr

/-- Go `type ApplyMsg struct`. -/
structure ApplyMsg where
  Index : Int
  Command : Cmd
  UseSnapshot : Bool
  Snapshot : Bytes
deriving DecidableEq, Repr

/-- The four values that `persist()` encodes, in encoding order. -/
structure RaftState where
  currentTerm : Int
  votedFor : Int
  log : List Entry
  firstIndex : Int
deriving DecidableEq, Repr

/-- Modelled from the spec: the `Persister` type (persister.go is not among the
sources).  The Durable State Store holds "a serialized snapshot of persistent
variables plus an optional application snapshot blob"; `raftstate` is what
`SaveRaftState` last stored (`none` before the first save) and `snapshot` what
`SaveSnapshot` last stored (empty before the first save). -/
structure Persister where
  raftstate : Option RaftState
  snapshot : Bytes
deriving DecidableEq, Repr

/-- Go `type Raft struct`, without the mutex, the channels and the debug flag;
`nPeers` is `len(rf.peers)`. -/
structure Raft where
  nPeers : Nat
  persister : Persister
  me : Int
  state : Role
  currentTerm : Int
  votedFor : Int
  log : List Entry
  firstIndex : Int
  commitIndex : Int
  lastApplied : Int
  lastNewEntry : Int
  nextIndex : List Int
  matchIndex : List Int
  updateSnap : Bool
deriving DecidableEq, Repr

/-- Go `type RequestVoteArgs struct`. -/
structure RequestVoteArgs where
  Term : Int
  CandidateId : Int
  LastLogIndex : Int
  LastLogTerm : Int
deriving DecidableEq, Repr

/-- Go `type RequestVoteReply struct`. -/
structure RequestVoteReply where
  Term : Int
  VoteGranted : Bool
deriving DecidableEq, Repr

/-- Go `type AppendEntriesArgs struct`; `Entries = none` is the nil slice. -/
structure AppendEntriesArgs where
  Term : Int
  LeaderId : Int
  PrevLogIndex : Int
  PrevLogTerm : Int
  Entries : Option (List Entry)
  LeaderCommit : Int
deriving DecidableEq, Repr

/-- Go `type AppendEntriesReply struct`. -/
structure AppendEntriesReply where
  Term : Int
  Success : Bool
  ConflictIndex : Int
deriving DecidableEq, Repr

/-- Go `type InstallSnapshotArgs struct`. -/
structure InstallSnapshotArgs where
  Term : Int
  LeaderId : Int
  LastIncludedIndex : Int
  LastIncludedTerm : Int
  Data : Bytes
deriving DecidableEq, Repr

/-- Go `type InstallSnapshotReply struct`. -/
structure InstallSnapshotReply where
  Term : Int
deriving DecidableEq, Repr

/-- Go `func min(x,y int) int`. -/
def min (x y : Int) : Int := if x < y then x else y

/-- Go `func max(x,y int) int`. -/
def max (x y : Int) : Int := if x > y then x else y

/-- The slice read `s[i]` with an `int` index: `none` is the index-out-of-range
panic. -/
def index {α : Type} (s : List α) (i : Int) : Option α :=
  if i < 0 then none else s[i.toNat]?

/-- The slice expression `s[i:]`: `none` is the bounds panic. -/
def sliceFrom {α : Type} (s : List α) (i : Int) : Option (List α) :=
  if i < 0 ∨ (s.length : Int) < i then none else some (s.drop i.toNat)

/-- Go `func (rf *Raft) persist()`: stores the encoding of `currentTerm`,
`votedFor`, `log`, `firstIndex`. -/
def persist (rf : Raft) : Raft :=
  { rf with persister :=
      { rf.persister with
        raftstate := some ⟨rf.currentTerm, rf.votedFor, rf.log, rf.firstIndex⟩ } }

/-- Go `func (rf *Raft) GetState() (int, bool)`. -/
def GetState (rf : Raft) : Int × Bool :=
  (rf.currentTerm, if rf.state = Role.LEADER then true else false)

/-- Go `func (rf *Raft) RequestVote(args, reply)`. -/
def RequestVote (rf : Raft) (args : RequestVoteArgs) : Option (Raft × RequestVoteReply) :=
  -- Step Down
  let rf1 : Raft :=
    if args.Term > rf.currentTerm then
      persist { rf with currentTerm := args.Term, votedFor := -1, state := Role.FOLLOWER }
    else rf
  if args.Term < rf1.currentTerm then
    some (rf1, { Term := rf1.currentTerm, VoteGranted := false })
  else
    match index rf1.log ((rf1.log.length : Int) - 1) with
    | none => none
    | some last =>
      let lastLogTerm := last.Term
      let lastLogIndex := (rf1.log.length : Int) - 1 + rf1.firstIndex
      if (rf1.votedFor = -1 ∨ rf1.votedFor = args.CandidateId) ∧
          (args.LastLogTerm > lastLogTerm ∨
            (args.LastLogTerm = lastLogTerm ∧ args.LastLogIndex ≥ lastLogIndex)) then
        some (persist { rf1 with votedFor := args.CandidateId },
              { Term := rf1.currentTerm, VoteGranted := true })
      else
        some (rf1, { Term := 0, VoteGranted := false })

/-- The walk-back loop of `AppendEntries`,
`for ; i >= 0; i-- { if rf.log[i].Term != outTerm { break } }`, as a function of
`i + 1`; the result is the value of `i` when the loop is left. -/
def walkBack (log : List Entry) (outTerm : Int) : Nat → Option Int
  | 0 => some (-1)
  | n + 1 =>
    match index log (n : Int) with
    | none => none
    | some e => if e.Term ≠ outTerm then some (n : Int) else walkBack log outTerm n

/-- The first loop of the merge in `AppendEntries`,
`for idx := 0; idx < min(len(rf.log)-baseIndex, len(args.Entries)); idx++`, run
from the loop variable `idx` on the entries `args.Entries[idx:]` still to be
compared; the result is `rf.log` when the loop is left. -/
def truncateConflict (log : List Entry) (baseIndex : Int) : List Entry → Int → Option (List Entry)
  | [], _ => some log
  | e :: rest, idx =>
    if idx < (log.length : Int) - baseIndex then
      match index log (idx + baseIndex) with
      | none => none
      | some x =>
        if x.Term ≠ e.Term then
          if idx + baseIndex < 0 then none else some (log.take (idx + baseIndex).toNat)
        else truncateConflict log baseIndex rest (idx + 1)
    else some log

/-- The second loop of the merge in `AppendEntries`,
`for i := idx; i < len(args.Entries); i++`, run from the loop variable `i` on the
entries `args.Entries[i:]` still to be written. -/
def overwriteAppend (baseIndex : Int) : List Entry → Int → List Entry → Option (List Entry)
  | [], _, log => some log
  | e :: rest, i, log =>
    if i + baseIndex ≥ (log.length : Int) then
      overwriteAppend baseIndex rest (i + 1) (log ++ [e])
    else if i + baseIndex < 0 then none
    else overwriteAppend baseIndex rest (i + 1) (log.set (i + baseIndex).toNat e)

/-- The merge block of `AppendEntries` (both loops).  The loop variable of the
first loop is declared by `for idx := 0`, which shadows the `var idx int` of the
block, so the second loop starts from the outer `idx`, which is still `0`. -/
def mergeEntries (log : List Entry) (baseIndex : Int) (entries : List Entry) :
    Option (List Entry) :=
  match truncateConflict log baseIndex entries 0 with
  | none => none
  | some log1 => overwriteAppend baseIndex entries 0 log1

/-- A delivery loop `for i := from; i <= to; i++ { rf.commitChan <-
ApplyMsg{Index: i, Command: rf.log[i-rf.firstIndex].Command} }`, as a function of
the current `i` and the number of iterations left. -/
def applyLoop (log : List Entry) (firstIndex : Int) : Int → Nat → Option (List ApplyMsg)
  | _, 0 => some []
  | i, n + 1 =>
    match index log (i - firstIndex) with
    | none => none
    | some e =>
      match applyLoop log firstIndex (i + 1) n with
      | none => none
      | some ms =>
        some ({ Index := i, Command := e.Command, UseSnapshot := false, Snapshot := [] } :: ms)

/-- The block `// For non-HeartBeat only` of `AppendEntries`: the merge of
`args.Entries` into the log and the update of `lastNewEntry`. -/
def mergeBlock (rf : Raft) (args : AppendEntriesArgs) : Option Raft :=
  match args.Entries with
  | none => some rf
  | some entries =>
    if args.PrevLogIndex ≥ rf.firstIndex then
      let baseIndex := args.PrevLogIndex + 1 - rf.firstIndex
      match mergeEntries rf.log baseIndex entries with
      | none => none
      | some log2 =>
        some { rf with
          log := log2
          lastNewEntry :=
            if baseIndex + (entries.length : Int) - 1 > rf.lastNewEntry then
              baseIndex + (entries.length : Int) - 1
            else rf.lastNewEntry }
    else some rf

/-- The part of `AppendEntries` behind the predecessor check: the merge, the
commit-index update, the delivery loop and the reply. -/
def appendEntriesAccept (rf : Raft) (args : AppendEntriesArgs) :
    Option (Raft × AppendEntriesReply × List ApplyMsg) :=
  match mergeBlock rf args with
  | none => none
  | some rf2 =>
    -- Update commitIndex
    let rf3 : Raft :=
      if args.LeaderCommit > rf2.commitIndex then
        { rf2 with
          commitIndex := min args.LeaderCommit (rf2.firstIndex + (rf2.log.length : Int) - 1) }
      else rf2
    -- Apply commands
    if rf3.commitIndex > rf3.lastApplied then
      match applyLoop rf3.log rf3.firstIndex (rf3.lastApplied + 1)
          (rf3.commitIndex - rf3.lastApplied).toNat with
      | none => none
      | some msgs =>
        let rf4 : Raft := { rf3 with lastApplied := rf3.commitIndex }
        some (persist rf4, { Term := rf4.currentTerm, Success := true, ConflictIndex := 0 },
              msgs)
    else
      some (persist rf3, { Term := rf3.currentTerm, Success := true, ConflictIndex := 0 }, [])

/-- The part of `AppendEntries` from the predecessor check (`// Log Inconsistent`)
to the reply, run on the state `rf` left by the term update. -/
def appendEntriesLog (rf : Raft) (args : AppendEntriesArgs) :
    Option (Raft × AppendEntriesReply × List ApplyMsg) :=
  if args.PrevLogIndex ≥ rf.firstIndex then
    if args.PrevLogIndex ≥ (rf.log.length : Int) + rf.firstIndex then
      some (persist rf,
            { Term := rf.currentTerm, Success := false,
              ConflictIndex := (rf.log.length : Int) + rf.firstIndex }, [])
    else
      match index rf.log (args.PrevLogIndex - rf.firstIndex) with
      | none => none
      | some e =>
        if e.Term ≠ args.PrevLogTerm then
          -- outTerm := e.Term; i := args.PrevLogIndex-rf.firstIndex
          match walkBack rf.log e.Term (args.PrevLogIndex - rf.firstIndex + 1).toNat with
          | none => none
          | some i =>
            some (persist rf,
                  { Term := rf.currentTerm, Success := false,
                    ConflictIndex := i + 1 + rf.firstIndex }, [])
        else appendEntriesAccept rf args
  else appendEntriesAccept rf args

/-- The term update of `AppendEntries`, `if args.Term >= rf.currentTerm { ... }`,
the first statement after the mutex is taken again behind the timer reset
`rf.timerChan <- true`. -/
def adoptTerm (rf : Raft) (args : AppendEntriesArgs) : Raft :=
  if args.Term ≥ rf.currentTerm then
    { rf with
      votedFor := if args.Term > rf.currentTerm then -1 else rf.votedFor
      currentTerm := args.Term
      state := Role.FOLLOWER }
  else rf

/-- The part of `AppendEntries` that runs after the mutex is taken again behind
the timer reset: the term update, then the log part. -/
def appendEntriesResume (rf : Raft) (args : AppendEntriesArgs) :
    Option (Raft × AppendEntriesReply × List ApplyMsg) :=
  appendEntriesLog (adoptTerm rf args) args

/-- Go `func (rf *Raft) AppendEntries(args, reply)`, with no other region of the
peer running while the mutex is released for the timer reset.  The deferred
`rf.persist()` runs on every return. -/
def AppendEntries (rf : Raft) (args : AppendEntriesArgs) :
    Option (Raft × AppendEntriesReply × List ApplyMsg) :=
  if args.Term < rf.currentTerm then
    some (persist rf, { Term := rf.currentTerm, Success := false, ConflictIndex := 0 }, [])
  else
    appendEntriesResume rf args

/-- Stand-in for the `encoding/gob` encoding of one `int` (the Go standard
library is not part of the sources): a sign code followed by the magnitude. -/
def gobInt (x : Int) : Bytes := [if x < 0 then 1 else 0, x.natAbs]

/-- Go `func (rf *Raft) InstallSnapshot(args, reply)`. -/
def InstallSnapshot (rf : Raft) (args : InstallSnapshotArgs) :
    Option (Raft × InstallSnapshotReply × List ApplyMsg) :=
  if args.Term < rf.currentTerm then
    some (rf, { Term := rf.currentTerm }, [])
  -- This snapshot is too outdated
  else if args.LastIncludedIndex < rf.firstIndex then
    some (rf, { Term := 0 }, [])
  else
    let rf1 : Raft :=
      { rf with state := Role.FOLLOWER
                persister := { rf.persister with snapshot := args.Data } }
    -- Truncate log
    let newLog : Option (List Entry) :=
      if (rf1.log.length : Int) + rf1.firstIndex ≤ args.LastIncludedIndex then
        some [{ Command := none, Term := args.LastIncludedTerm }]
      else
        match index rf1.log (args.LastIncludedIndex - rf1.firstIndex) with
        | none => none
        | some e =>
          if e.Term = args.LastIncludedTerm then
            -- Retain the following logs
            sliceFrom rf1.log (args.LastIncludedIndex - rf1.firstIndex)
          else
            some [{ Command := none, Term := args.LastIncludedTerm }]
    match newLog with
    | none => none
    | some l =>
      -- Update everything
      some (persist { rf1 with log := l
                               firstIndex := args.LastIncludedIndex
                               lastApplied := args.LastIncludedIndex
                               commitIndex := args.LastIncludedIndex },
            { Term := 0 },
            [{ Index := -1, Command := none, UseSnapshot := true, Snapshot := args.Data }])

/-- Go `func (rf *Raft) IssueSnapshot(idx int, snapshot []byte)`. -/
def IssueSnapshot (rf : Raft) (idx : Int) (snapshot : Bytes) : Option Raft :=
  if idx ≤ rf.firstIndex ∨ idx > (rf.log.length : Int) - 1 + rf.firstIndex then
    some rf
  else
    match sliceFrom rf.log (idx - rf.firstIndex) with
    | none => none
    | some newLog =>
      let rf1 : Raft :=
        persist { rf with log := newLog, firstIndex := idx, lastApplied := idx,
                          commitIndex := idx }
      -- Snapshot
      match index newLog 0 with
      | none => none
      | some e0 =>
        some { rf1 with
          persister :=
            { rf1.persister with
              snapshot := gobInt rf1.firstIndex ++ gobInt e0.Term ++ snapshot }
          updateSnap := true }

/-- Go `func (rf *Raft) leaderInit()`. -/
def leaderInit (rf : Raft) : Raft :=
  { rf with nextIndex := List.replicate rf.nPeers (rf.firstIndex + (rf.log.length : Int))
            matchIndex := List.replicate rf.nPeers 0 }

/-- A goroutine started by `issueAppendEntries`: the snapshot sender for peer `i`,
or `go rf.issueSingleAppendEntries(i, curTerm, hb, prevLogIndex, prevLogTerm,
commitIndex)`. -/
inductive Task where
  | sendSnapshot (i : Nat)
  | sendAppendEntries (i : Nat) (curTerm : Int) (hb : Bool)
      (prevLogIndex prevLogTerm commitIndex : Int)
deriving DecidableEq, Repr

/-- The loop `for n := 0; n < len(rf.peers); n++` of `issueAppendEntries`, on the
values of `n` still to be visited. -/
def issueLoop (hb : Bool) : List Nat → Raft → Option (Raft × List Task)
  | [], rf => some (rf, [])
  | n :: ns, rf =>
    if (n : Int) = rf.me then issueLoop hb ns rf
    else
      match index rf.nextIndex (n : Int) with
      | none => none
      | some nx =>
        let started : Option (List Task) :=
          -- The follower is too outdated that the leader has to send install snapshot
          if nx ≤ rf.firstIndex then some [Task.sendSnapshot n]
          else if nx - 1 - rf.firstIndex ≥ 0 ∧ nx - 1 - rf.firstIndex < (rf.log.length : Int) then
            match index rf.log (nx - 1 - rf.firstIndex) with
            | none => none
            | some e =>
              some [Task.sendAppendEntries n rf.currentTerm hb (nx - 1) e.Term rf.commitIndex]
          else some []
        match started with
        | none => none
        | some ts =>
          match issueLoop hb ns { rf with updateSnap := false } with
          | none => none
          | some (rf2, ts2) => some (rf2, ts ++ ts2)

/-- Go `func (rf *Raft) issueAppendEntries(hb bool)`: the state it leaves and the
goroutines it starts. -/
def issueAppendEntries (rf : Raft) (hb : Bool) : Option (Raft × List Task) :=
  issueLoop hb (List.range rf.nPeers) rf

/-- Go `func (rf *Raft) Start(command) (int, int, bool)`: the state it leaves, the
goroutines it starts, and the returned `(index, term, isLeader)`. -/
def Start (rf : Raft) (command : Cmd) : Option (Raft × List Task × (Int × Int × Bool)) :=
  let term := rf.currentTerm
  if rf.state = Role.LEADER then
    let index := (rf.log.length : Int) + rf.firstIndex
    let rf1 : Raft :=
      persist { rf with log := rf.log ++ [{ Command := command, Term := rf.currentTerm }] }
    match issueAppendEntries rf1 false with
    | none => none
    | some (rf2, ts) => some (rf2, ts, (index, term, true))
  else
    some (rf, [], (-1, term, false))

/-- The value that a 64-bit Go `int` holds for the result `x` of an addition:
`x` wrapped into `-2^63 ≤ · < 2^63`. -/
def wrapInt (x : Int) : Int :=
  (x + 9223372036854775808) % 18446744073709551616 - 9223372036854775808

/-- The region of the timer goroutine of `Make` that runs when the election
timeout fires; the flag says whether `go rf.issueRequestVote()` was started.
`rf.currentTerm += 1` is an addition on `int`, which wraps. -/
def electionTimeout (rf : Raft) : Raft × Bool :=
  if rf.state = Role.FOLLOWER then
    (persist { rf with state := Role.CANDIDATE
                       currentTerm := wrapInt (rf.currentTerm + 1)
                       votedFor := rf.me }, true)
  else if rf.state = Role.CANDIDATE then
    (persist { rf with currentTerm := wrapInt (rf.currentTerm + 1), votedFor := rf.me }, true)
  else (rf, false)

/-- The first loop of `checkCommit`,
`for ele := rf.commitIndex+1; ele < len(rf.log)+rf.firstIndex; ele++`, as a
function of the current `ele` and the number of iterations left: the keys put
into the map `m`, in increasing order. -/
def commitKeys (log : List Entry) (firstIndex currentTerm : Int) : Int → Nat → Option (List Int)
  | _, 0 => some []
  | ele, n + 1 =>
    match index log (ele - firstIndex) with
    | none => none
    | some e =>
      match commitKeys log firstIndex currentTerm (ele + 1) n with
      | none => none
      | some ks => some (if e.Term = currentTerm then ele :: ks else ks)

/-- The value `m[key]` after the second loop of `checkCommit`: the number of
elements `ele` of `rf.matchIndex` with `ele >= key`. -/
def matchCount (matchIndex : List Int) (key : Int) : Int :=
  ((matchIndex.filter (fun ele => decide (ele ≥ key))).length : Int)

/-- The third loop of `checkCommit`, which leaves in `M` the largest key whose
count reaches `len(rf.peers)/2`; the keys are visited in increasing order (Go
leaves the order of a map range open; the loop keeps a maximum, so the value it
leaves does not depend on the order). -/
def majorityMax (matchIndex : List Int) (nPeers : Nat) : List Int → Int → Int
  | [], M => M
  | key :: ks, M =>
    if matchCount matchIndex key ≥ ((nPeers / 2 : Nat) : Int) then
      if key ≥ M then majorityMax matchIndex nPeers ks key
      else majorityMax matchIndex nPeers ks M
    else majorityMax matchIndex nPeers ks M

/-- Go `func (rf *Raft) checkCommit()`. -/
def checkCommit (rf : Raft) : Option (Raft × List ApplyMsg) :=
  match commitKeys rf.log rf.firstIndex rf.currentTerm (rf.commitIndex + 1)
      ((rf.log.length : Int) + rf.firstIndex - (rf.commitIndex + 1)).toNat with
  | none => none
  | some keys =>
    let M := majorityMax rf.matchIndex rf.nPeers keys (-1)
    if M ≠ -1 ∧ M > rf.commitIndex then
      -- Apply leader's log to the state machine
      match applyLoop rf.log rf.firstIndex (rf.commitIndex + 1) (M - rf.commitIndex).toNat with
      | none => none
      | some msgs => some ({ rf with commitIndex := M }, msgs)
    else some (rf, [])

/-- The assignment `s[i] = v` on a slice of `int`: `none` is the
index-out-of-range panic. -/
def assign (s : List Int) (i : Int) (v : Int) : Option (List Int) :=
  if i < 0 ∨ (s.length : Int) ≤ i then none else some (s.set i.toNat v)

/-- The branch `if reply.Success == false` (`// Discover Log inconsistent`) of
`issueSingleAppendEntries`: `nextIndex[i]` is moved back and the next round of
the `for` loop gets the new predecessor, unless the function returns. -/
def replyFailure (rf : Raft) (i : Int) (args : AppendEntriesArgs) (reply : AppendEntriesReply) :
    Option (Raft × List ApplyMsg × Option AppendEntriesArgs) :=
  -- Decrement nextIndex and Retry
  let next : Int := if reply.ConflictIndex ≠ 0 then reply.ConflictIndex else args.PrevLogIndex
  match assign rf.nextIndex i next with
  | none => none
  | some nextIndex1 =>
    let rf1 : Raft := { rf with nextIndex := nextIndex1 }
    let prev : Int := next - 1
    -- The current log doesn't contain this Index
    if prev < rf1.firstIndex then some (rf1, [], none)
    else if prev < 0 ∨ prev ≥ (rf1.log.length : Int) + rf1.firstIndex then
      some (rf1, [], none)
    else
      match index rf1.log (prev - rf1.firstIndex) with
      | none => none
      | some e =>
        some (rf1, [], some { args with PrevLogIndex := prev, PrevLogTerm := e.Term })

/-- The branch `else if reply.Success` of `issueSingleAppendEntries`: nothing for
a heartbeat (`args.Entries == nil`), else the update of `matchIndex[i]` and
`nextIndex[i]` and the commit check. -/
def replySuccess (rf : Raft) (i : Int) (args : AppendEntriesArgs) :
    Option (Raft × List ApplyMsg × Option AppendEntriesArgs) :=
  match args.Entries with
  -- Heartbeat. Don't update anything
  | none => some (rf, [], none)
  | some entries =>
    -- Update matchIndex and nextIndex
    match assign rf.matchIndex i (args.PrevLogIndex + 1 + (entries.length : Int) - 1) with
    | none => none
    | some matchIndex1 =>
      match assign rf.nextIndex i (args.PrevLogIndex + 1 + (entries.length : Int)) with
      | none => none
      | some nextIndex1 =>
        match checkCommit { rf with matchIndex := matchIndex1, nextIndex := nextIndex1 } with
        | none => none
        | some (rf2, msgs) => some (rf2, msgs, none)

/-- The region of `issueSingleAppendEntries(i, curTerm, hb, _, _, commitIndex)`
that runs under the mutex after `res := rf.sendAppendEntries(i, &args, &reply)`.
The result holds the state left, the messages delivered, and the `args` of the
next round of the `for` loop (`none` when the function returns). -/
def appendEntriesReply (rf : Raft) (i : Int) (curTerm commitIndex : Int)
    (args : AppendEntriesArgs) (res : Bool) (reply : AppendEntriesReply) :
    Option (Raft × List ApplyMsg × Option AppendEntriesArgs) :=
  if rf.currentTerm ≠ curTerm ∨ rf.state ≠ Role.LEADER ∨ rf.commitIndex ≠ commitIndex then
    some (rf, [], none)
  else if res = true then
    -- Term outdated. Become FOLLOWER.
    if reply.Term > rf.currentTerm then
      some (persist { rf with currentTerm := reply.Term, state := Role.FOLLOWER, votedFor := -1 },
            [], none)
    -- The request is outdated
    else if reply.Term < rf.currentTerm ∨ args.Term ≠ rf.currentTerm then
      some (rf, [], none)
    else
      match index rf.nextIndex i with
      | none => none
      | some nx =>
        if nx ≠ args.PrevLogIndex + 1 then some (rf, [], none)
        else if reply.Success = false then replyFailure rf i args reply
        else replySuccess rf i args
  else some (rf, [], some args)

/-- The region of the snapshot goroutine of `issueAppendEntries` that runs under
the mutex after `ok := rf.sendInstallSnapshot(i, &args, &reply)`. -/
def installSnapshotReply (rf : Raft) (i : Int) (args : InstallSnapshotArgs) (ok : Bool)
    (reply : InstallSnapshotReply) : Option Raft :=
  -- This leader is outdated
  if ok = true ∧ reply.Term > rf.currentTerm then
    some { rf with currentTerm := reply.Term, state := Role.FOLLOWER, votedFor := -1 }
  else if ok = true then
    match assign rf.matchIndex i args.LastIncludedIndex with
    | none => none
    | some matchIndex1 =>
      match index matchIndex1 i with
      | none => none
      | some m =>
        match assign rf.nextIndex i (m + 1) with
        | none => none
        | some nextIndex1 => some { rf with matchIndex := matchIndex1, nextIndex := nextIndex1 }
  else some rf

/-- Go `func (rf *Raft) readPersist(data []byte)`: the four fields are decoded
from the stored state; with nothing stored `Decode` fails and leaves them. -/
def readPersist (rf : Raft) : Raft :=
  match rf.persister.raftstate with
  | none => rf
  | some st =>
    { rf with currentTerm := st.currentTerm, votedFor := st.votedFor, log := st.log,
              firstIndex := st.firstIndex }

/-- Stand-in for `Decode` of one `int` from a `gob` stream, the inverse of
`gobInt`; `none` is a decoding error. -/
def gobReadInt : Bytes → Option (Int × Bytes)
  | 0 :: m :: rest => some ((m : Int), rest)
  | 1 :: m :: rest => some (-(m : Int), rest)
  | _ => none

/-- Go `func (rf *Raft) readSnapshot(data []byte)`; a failed `Decode` leaves the
zero value in its target. -/
def readSnapshot (rf : Raft) (data : Bytes) : Option (Raft × List ApplyMsg) :=
  let rf1 := readPersist rf
  let decoded : Int × Int :=
    match gobReadInt data with
    | none => (0, 0)
    | some (i, rest) =>
      match gobReadInt rest with
      | none => (i, 0)
      | some (t, _) => (i, t)
  let LastIncludedIndex := decoded.1
  let LastIncludedTerm := decoded.2
  let rf2 : Raft := { rf1 with commitIndex := LastIncludedIndex, lastApplied := LastIncludedIndex }
  -- Truncate log
  let newLog : Option (List Entry) :=
    if (rf2.log.length : Int) + rf2.firstIndex ≤ LastIncludedIndex ∨
        LastIncludedIndex < rf2.firstIndex then
      some [{ Command := none, Term := LastIncludedTerm }]
    else
      match index rf2.log (LastIncludedIndex - rf2.firstIndex) with
      | none => none
      | some e =>
        if e.Term = LastIncludedTerm then
          -- Retain the following logs
          sliceFrom rf2.log (LastIncludedIndex - rf2.firstIndex)
        else some [{ Command := none, Term := LastIncludedTerm }]
  match newLog with
  | none => none
  | some l =>
    some ({ rf2 with log := l, firstIndex := LastIncludedIndex },
          [{ Index := -1, Command := none, UseSnapshot := true, Snapshot := data }])

/-- Go `func Make(peers, me, persister, applyCh) *Raft`: the peer state that it
builds before the timer, heartbeat and apply goroutines run. -/
def Make (nPeers : Nat) (me : Int) (persister : Persister) : Option (Raft × List ApplyMsg) :=
  let rf : Raft :=
    { nPeers := nPeers, persister := persister, me := me,
      currentTerm := 0, state := Role.FOLLOWER,
      -- Placeholder Entry at index 0
      log := [{ Command := none, Term := 0 }],
      votedFor := -1, commitIndex := 0, lastNewEntry := 0, lastApplied := 0,
      firstIndex := 0, updateSnap := false, nextIndex := [], matchIndex := [] }
  readSnapshot (readPersist rf) rf.persister.snapshot

/-- The local variables `args`, `nReplies`, `successReplies` of the counting
goroutine of `issueRequestVote`. -/
structure Tally where
  args : RequestVoteArgs
  nReplies : Int
  successReplies : List RequestVoteReply
deriving DecidableEq, Repr

/-- How one round of the counting loop ends: `return`, the next round, or
`break`. -/
inductive Next where
  | returned
  | again
  | left
deriving DecidableEq, Repr

/-- The first region of `issueRequestVote`: the `args` that every sender goroutine
and the counting goroutine share. -/
def issueRequestVote (rf : Raft) : Option RequestVoteArgs :=
  match index rf.log ((rf.log.length : Int) - 1) with
  | none => none
  | some last =>
    some { Term := rf.currentTerm, CandidateId := rf.me,
           LastLogIndex := (rf.log.length : Int) - 1 + rf.firstIndex,
           LastLogTerm := last.Term }

/-- One round `for r := range workChan` of the counting goroutine of
`issueRequestVote`, under the mutex; `r = none` is the nil reply of a failed
call. -/
def tallyReply (rf : Raft) (t : Tally) (r : Option RequestVoteReply) : Raft × Tally × Next :=
  let majority : Int := ((rf.nPeers / 2 : Nat) : Int)
  let t1 : Tally := { t with nReplies := t.nReplies + 1 }
  if rf.state ≠ Role.CANDIDATE then (rf, t1, Next.returned)
  else if t1.args.Term ≠ rf.currentTerm then (rf, t1, Next.returned)
  else
    let higher : Option Int :=
      match r with
      | none => none
      | some rr => if rr.Term > rf.currentTerm then some rr.Term else none
    match higher with
    | some term =>
      (persist { rf with currentTerm := term, state := Role.FOLLOWER, votedFor := -1 },
       t1, Next.returned)
    | none =>
      let t2 : Tally :=
        match r with
        | none => t1
        | some rr =>
          if rr.VoteGranted = true then { t1 with successReplies := t1.successReplies ++ [rr] }
          else t1
      if t2.nReplies = (rf.nPeers : Int) - 1 ∨ (t2.successReplies.length : Int) ≥ majority then
        (rf, t2, Next.left)
      else (rf, t2, Next.again)

/-- The region `// Become Leader` of the counting goroutine, entered behind the
loop when `len(successReplies) >= majority`; the mutex was released between the
last round of the loop and this region. -/
def becomeLeader (rf : Raft) : Raft :=
  persist (leaderInit { rf with state := Role.LEADER })

/-! ## A cluster of peers running elections

The steps of the cluster are the regions above, one region of one peer at a
time: between two regions of one goroutine any region of another goroutine may
run, as the mutex allows. -/

/-- One call of `issueRequestVote` behind its first region: the peer that runs
it, the state of its counting goroutine, the peers whose sender goroutine has
not yet had its call answered, and the content of the buffered channel
`workChan`. -/
structure Election where
  owner : Nat
  tally : Tally
  calls : List Nat
  workChan : List (Option RequestVoteReply)
  next : Next
deriving DecidableEq, Repr

/-- The peers of a cluster, the peers with a started `go rf.issueRequestVote()`
that has not yet taken the mutex, and the elections under way. -/
structure Cluster where
  peers : List Raft
  starting : List Nat
  elections : List Election
deriving DecidableEq, Repr

/-- An election step of the cluster. -/
inductive Action where
  /-- the election timer of peer `i` fires -/
  | timeout (i : Nat)
  /-- the first region of a started `issueRequestVote` of peer `i` runs -/
  | issue (i : Nat)
  /-- the call of election `e` to peer `j` is handled by `RequestVote` there and
  the reply is put on `workChan` -/
  | handle (e j : Nat)
  /-- the call of election `e` to peer `j` fails: `nil` is put on `workChan` -/
  | fail (e j : Nat)
  /-- the counting goroutine of election `e` takes the next reply from
  `workChan` and runs one round -/
  | count (e : Nat)
  /-- the counting goroutine of election `e`, behind the loop, runs the region
  `// Become Leader` -/
  | lead (e : Nat)
deriving DecidableEq, Repr

/-- The cluster of `n` peers as `Make` builds them on empty persisters. -/
def Cluster.init (n : Nat) : Cluster :=
  { peers := (List.range n).filterMap
      (fun i => (Make n (i : Int) { raftstate := none, snapshot := [] }).map Prod.fst)
    starting := []
    elections := [] }

/-- One step of the cluster; `none` when the action is not enabled or the region
panics. -/
def Cluster.step (c : Cluster) : Action → Option Cluster
  | Action.timeout i =>
    match c.peers[i]? with
    | none => none
    | some rf =>
      let r := electionTimeout rf
      some { c with peers := c.peers.set i r.1
                    starting := if r.2 = true then c.starting ++ [i] else c.starting }
  | Action.issue i =>
    if i ∈ c.starting then
      match c.peers[i]? with
      | none => none
      | some rf =>
        match issueRequestVote rf with
        | none => none
        | some args =>
          some { c with
            starting := c.starting.erase i
            elections := c.elections ++
              [{ owner := i
                 tally := { args := args, nReplies := 0, successReplies := [] }
                 calls := (List.range rf.nPeers).filter (fun n => decide ((n : Int) ≠ rf.me))
                 workChan := []
                 next := Next.again }] }
    else none
  | Action.handle e j =>
    match c.elections[e]? with
    | none => none
    | some el =>
      if j ∈ el.calls then
        match c.peers[j]? with
        | none => none
        | some rf =>
          match RequestVote rf el.tally.args with
          | none => none
          | some (rf2, reply) =>
            some { c with
              peers := c.peers.set j rf2
              elections := c.elections.set e
                { el with calls := el.calls.erase j, workChan := el.workChan ++ [some reply] } }
      else none
  | Action.fail e j =>
    match c.elections[e]? with
    | none => none
    | some el =>
      if j ∈ el.calls then
        some { c with
          elections := c.elections.set e
            { el with calls := el.calls.erase j, workChan := el.workChan ++ [none] } }
      else none
  | Action.count e =>
    match c.elections[e]? with
    | none => none
    | some el =>
      match el.next, el.workChan, c.peers[el.owner]? with
      | Next.again, r :: rest, some rf =>
        let out := tallyReply rf el.tally r
        some { c with
          peers := c.peers.set el.owner out.1
          elections := c.elections.set e
            { el with tally := out.2.1, workChan := rest, next := out.2.2 } }
      | _, _, _ => none
  | Action.lead e =>
    match c.elections[e]? with
    | none => none
    | some el =>
      match el.next, c.peers[el.owner]? with
      | Next.left, some rf =>
        if (el.tally.successReplies.length : Int) ≥ ((rf.nPeers / 2 : Nat) : Int) then
          some { c with
            peers := c.peers.set el.owner (becomeLeader rf)
            elections := c.elections.set e { el with next := Next.returned } }
        else none
      | _, _ => none

/-- The steps of a list of actions, in order. -/
def Cluster.run (c : Cluster) : List Action → Option Cluster
  | [] => some c
  | a :: as =>
    match c.step a with
    | none => none
    | some c2 => c2.run as

/-- A cluster state of `n` peers that the election steps reach from the start. -/
def Cluster.Reachable (n : Nat) (c : Cluster) : Prop :=
  ∃ as : List Action, (Cluster.init n).run as = some c

/-- Election safety (P1) of a cluster state: two peers that are both Leader in
the same term are the same peer. -/
def Cluster.ElectionSafety (c : Cluster) : Prop :=
  ∀ (i j : Nat) (pi pj : Raft), c.peers[i]? = some pi → c.peers[j]? = some pj →
    pi.state = Role.LEADER → pj.state = Role.LEADER → pi.currentTerm = pj.currentTerm → i = j

/-- The spec's `lastIndex()`: `b + len(entries) - 1`. -/
def lastIndex (rf : Raft) : Int := rf.firstIndex + (rf.log.length : Int) - 1

/-- The entry of the log at logical index `i`, which is `log[i-b]`; `none` when
`i` is outside `b ≤ i ≤ lastIndex`. -/
def entryAt (rf : Raft) (i : Int) : Option Entry := index rf.log (i - rf.firstIndex)

/-- The schedule of three peers in which peer 0 wins the vote of peer 1 in term
1, peer 2 wins term 2, and the `RequestVote` of peer 2 reaches peer 0 between the
last round of the counting loop of peer 0 and its region `// Become Leader`. -/
def raceSchedule : List Action :=
  [ Action.timeout 0, Action.issue 0, Action.handle 0 1,
    Action.timeout 2, Action.timeout 2, Action.issue 2, Action.handle 1 1,
    Action.count 1, Action.lead 1,
    Action.count 0, Action.handle 1 0, Action.lead 0 ]

/-! ## Steps of one peer -/

/-- An incoming RPC of a peer. -/
inductive Request where
  | vote (args : RequestVoteArgs)
  | append (args : AppendEntriesArgs)
  | snapshot (args : InstallSnapshotArgs)
deriving DecidableEq, Repr

/-- The handler of a request run on a peer: the state it leaves and, for a
`RequestVote` that was granted, the candidate the vote went to. -/
def serve (rf : Raft) : Request → Option (Raft × Option Int)
  | Request.vote args =>
    match RequestVote rf args with
    | none => none
    | some (rf2, reply) =>
      some (rf2, if reply.VoteGranted = true then some args.CandidateId else none)
  | Request.append args =>
    match AppendEntries rf args with
    | none => none
    | some (rf2, _, _) => some (rf2, none)
  | Request.snapshot args =>
    match InstallSnapshot rf args with
    | none => none
    | some (rf2, _, _) => some (rf2, none)

/-- The handlers of a list of requests run one after the other: the state left
and the candidates that were granted a vote, in order. -/
def serveAll (rf : Raft) : List Request → Option (Raft × List Int)
  | [] => some (rf, [])
  | req :: rest =>
    match serve rf req with
    | none => none
    | some (rf1, g) =>
      match serveAll rf1 rest with
      | none => none
      | some (rf2, gs) => some (rf2, g.toList ++ gs)

/-- One step of a peer: a handler, the election timeout, `Start`,
`IssueSnapshot`, or the processing of a reply, from the state before to the state
after. -/
inductive Step : Raft → Raft → Prop where
  | requestVote (rf rf2 : Raft) (args : RequestVoteArgs) (reply : RequestVoteReply) :
      RequestVote rf args = some (rf2, reply) → Step rf rf2
  | appendEntries (rf rf2 : Raft) (args : AppendEntriesArgs) (reply : AppendEntriesReply)
      (msgs : List ApplyMsg) :
      AppendEntries rf args = some (rf2, reply, msgs) → Step rf rf2
  | appendEntriesResume (rf rf2 : Raft) (args : AppendEntriesArgs)
      (reply : AppendEntriesReply) (msgs : List ApplyMsg) :
      appendEntriesResume rf args = some (rf2, reply, msgs) → Step rf rf2
  | installSnapshot (rf rf2 : Raft) (args : InstallSnapshotArgs)
      (reply : InstallSnapshotReply) (msgs : List ApplyMsg) :
      InstallSnapshot rf args = some (rf2, reply, msgs) → Step rf rf2
  | electionTimeout (rf : Raft) : Step rf (electionTimeout rf).1
  | start (rf rf2 : Raft) (command : Cmd) (ts : List Task) (out : Int × Int × Bool) :
      Start rf command = some (rf2, ts, out) → Step rf rf2
  | issueSnapshot (rf rf2 : Raft) (idx : Int) (snapshot : Bytes) :
      IssueSnapshot rf idx snapshot = some rf2 → Step rf rf2
  | requestVoteReply (rf : Raft) (t : Tally) (r : Option RequestVoteReply) :
      Step rf (tallyReply rf t r).1
  | becomeLeader (rf : Raft) : Step rf (becomeLeader rf)
  | appendEntriesReply (rf rf2 : Raft) (i curTerm commitIndex : Int) (args : AppendEntriesArgs)
      (res : Bool) (reply : AppendEntriesReply) (msgs : List ApplyMsg)
      (next : Option AppendEntriesArgs) :
      appendEntriesReply rf i curTerm commitIndex args res reply = some (rf2, msgs, next) →
      Step rf rf2
  | installSnapshotReply (rf rf2 : Raft) (i : Int) (args : InstallSnapshotArgs) (ok : Bool)
      (reply : InstallSnapshotReply) :
      installSnapshotReply rf i args ok reply = some rf2 → Step rf rf2

/-! ## Concrete peers and requests -/

/-- A follower of five peers in term 1 with the log `[sentinel, 10, 11, 12]`, all
entries of term 1 (scenario S3). -/
def s3Follower : Raft :=
  { nPeers := 5, persister := { raftstate := none, snapshot := [] }, me := 1,
    state := Role.FOLLOWER, currentTerm := 1, votedFor := 0,
    log := [⟨none, 0⟩, ⟨some 10, 1⟩, ⟨some 11, 1⟩, ⟨some 12, 1⟩],
    firstIndex := 0, commitIndex := 0, lastApplied := 0, lastNewEntry := 3,
    nextIndex := [], matchIndex := [], updateSnap := false }

/-- The first `AppendEntries` of the term-2 leader that reaches `s3Follower`
behind index 1: one entry of term 2 for index 2. -/
def s3Args : AppendEntriesArgs :=
  { Term := 2, LeaderId := 4, PrevLogIndex := 1, PrevLogTerm := 1,
    Entries := some [⟨some 13, 2⟩], LeaderCommit := 2 }

/-- An `AppendEntries` for `s3Follower` whose predecessor, index 3, is expected
with term 2. -/
def s3Mismatch : AppendEntriesArgs :=
  { Term := 2, LeaderId := 4, PrevLogIndex := 3, PrevLogTerm := 2,
    Entries := some [⟨some 14, 2⟩], LeaderCommit := 0 }

/-- An `AppendEntries` of term 1 for `s3Follower` that carries, for index 2, an
entry of term 1 with a command other than the stored one. -/
def s3Duplicate : AppendEntriesArgs :=
  { Term := 1, LeaderId := 0, PrevLogIndex := 1, PrevLogTerm := 1,
    Entries := some [⟨some 99, 1⟩], LeaderCommit := 0 }

/-- The voter of scenario S6: last log term 3, last log index 4, no vote cast in
term 4. -/
def s6Voter : Raft :=
  { nPeers := 3, persister := { raftstate := none, snapshot := [] }, me := 2,
    state := Role.FOLLOWER, currentTerm := 4, votedFor := -1,
    log := [⟨none, 0⟩, ⟨some 1, 1⟩, ⟨some 2, 2⟩, ⟨some 3, 3⟩, ⟨some 4, 3⟩],
    firstIndex := 0, commitIndex := 0, lastApplied := 0, lastNewEntry := 0,
    nextIndex := [], matchIndex := [], updateSnap := false }

/-- Candidate A of scenario S6: last log term 3, last log index 5. -/
def s6ArgsA : RequestVoteArgs :=
  { Term := 4, CandidateId := 0, LastLogIndex := 5, LastLogTerm := 3 }

/-- Candidate B of scenario S6: last log term 2, last log index 99. -/
def s6ArgsB : RequestVoteArgs :=
  { Term := 4, CandidateId := 1, LastLogIndex := 99, LastLogTerm := 2 }

/-- A follower whose log was compacted through index 5: the log is the sentinel
alone, of term 2. -/
def compacted : Raft :=
  { nPeers := 3, persister := { raftstate := none, snapshot := [] }, me := 1,
    state := Role.FOLLOWER, currentTerm := 2, votedFor := 0,
    log := [⟨none, 2⟩],
    firstIndex := 5, commitIndex := 5, lastApplied := 5, lastNewEntry := 0,
    nextIndex := [], matchIndex := [], updateSnap := false }

/-- An `AppendEntries` for `compacted` behind index 3, with the entries of the
indices 4 to 7, all of term 2. -/
def behindSnapshot : AppendEntriesArgs :=
  { Term := 2, LeaderId := 0, PrevLogIndex := 3, PrevLogTerm := 2,
    Entries := some [⟨some 24, 2⟩, ⟨some 25, 2⟩, ⟨some 26, 2⟩, ⟨some 27, 2⟩],
    LeaderCommit := 5 }

/-! ## Commit check, delivery and snapshots: notions of the spec and concrete peers -/

/-- The number of other peers `p` with `matchIndex[p] ≥ N`: the slots of
`rf.matchIndex` but the leader's own. -/
def othersAtLeast (rf : Raft) (N : Int) : Nat :=
  ((rf.matchIndex.eraseIdx rf.me.toNat).filter (fun ele => decide (ele ≥ N))).length

/-- The indices the commit check of the spec chooses from: `commitIndex < N ≤
lastIndex`, the entry at `N` is of `currentTerm`, and `1 + |{p : matchIndex[p] ≥
N}| > peers/2`. -/
def CommitCandidate (rf : Raft) (N : Int) : Prop :=
  rf.commitIndex < N ∧ N ≤ lastIndex rf ∧
  (entryAt rf N).map Entry.Term = some rf.currentTerm ∧
  1 + (othersAtLeast rf N : Int) > ((rf.nPeers / 2 : Nat) : Int)

instance (rf : Raft) (N : Int) : Decidable (CommitCandidate rf N) := by
  unfold CommitCandidate
  infer_instance

/-- The log that the block `// Truncate log` of `InstallSnapshot` leaves for a
snapshot through index `L` of term `lastTerm`, in closed form: the entries from
`L` on when the log holds index `L` with term `lastTerm`, else one sentinel of
term `lastTerm`.  This is `compact(L, lastTerm)` of the spec, which asks for
`L > b`; the handler runs the block for `L ≥ b`. -/
def installedLog (log : List Entry) (b L lastTerm : Int) : List Entry :=
  if b ≤ L ∧ L < (log.length : Int) + b ∧
      (index log (L - b)).map Entry.Term = some lastTerm then
    log.drop (L - b).toNat
  else [{ Command := none, Term := lastTerm }]

/-- A step of a peer that delivers to `rf.commitChan`: the commit check of the
leader, or the `AppendEntries` handler. -/
inductive DeliveryStep where
  | checkCommit
  | appendEntries (args : AppendEntriesArgs)
deriving DecidableEq, Repr

/-- The delivery steps of a list run one after the other: the state left and the
messages pushed to `rf.commitChan`, in order. -/
def deliverAll (rf : Raft) : List DeliveryStep → Option (Raft × List ApplyMsg)
  | [] => some (rf, [])
  | DeliveryStep.checkCommit :: rest =>
    match checkCommit rf with
    | none => none
    | some (rf1, ms) =>
      match deliverAll rf1 rest with
      | none => none
      | some (rf2, ms2) => some (rf2, ms ++ ms2)
  | DeliveryStep.appendEntries args :: rest =>
    match AppendEntries rf args with
    | none => none
    | some (rf1, _, ms) =>
      match deliverAll rf1 rest with
      | none => none
      | some (rf2, ms2) => some (rf2, ms ++ ms2)

/-- The leader of three peers in term 1, as `leaderInit` and one acknowledged
`AppendEntries` of peer 1 leave it: log `[sentinel, 10]`, nothing committed. -/
def leaderOfThree : Raft :=
  { nPeers := 3, persister := { raftstate := none, snapshot := [] }, me := 0,
    state := Role.LEADER, currentTerm := 1, votedFor := 0,
    log := [⟨none, 0⟩, ⟨some 10, 1⟩],
    firstIndex := 0, commitIndex := 0, lastApplied := 0, lastNewEntry := 0,
    nextIndex := [2, 2, 2], matchIndex := [0, 1, 0], updateSnap := false }

/-- The heartbeat of the leader of term 2 behind index 1, with `LeaderCommit =
1`. -/
def heartbeatTwo : AppendEntriesArgs :=
  { Term := 2, LeaderId := 1, PrevLogIndex := 1, PrevLogTerm := 1,
    Entries := none, LeaderCommit := 1 }

/-- A follower in term 1 with the log `[sentinel, 10, 11, 12]`, all of term 1,
committed and delivered through index 3. -/
def appliedThree : Raft :=
  { nPeers := 3, persister := { raftstate := none, snapshot := [] }, me := 1,
    state := Role.FOLLOWER, currentTerm := 1, votedFor := 0,
    log := [⟨none, 0⟩, ⟨some 10, 1⟩, ⟨some 11, 1⟩, ⟨some 12, 1⟩],
    firstIndex := 0, commitIndex := 3, lastApplied := 3, lastNewEntry := 3,
    nextIndex := [], matchIndex := [], updateSnap := false }

/-- An `AppendEntries` of term 2 behind index 0 with one entry of term 2 for
index 1 and `LeaderCommit = 4`. -/
def rewriteFromOne : AppendEntriesArgs :=
  { Term := 2, LeaderId := 2, PrevLogIndex := 0, PrevLogTerm := 0,
    Entries := some [⟨some 13, 2⟩], LeaderCommit := 4 }

/-- An `InstallSnapshot` of term 1 with last included index 2 of term 1. -/
def snapshotTwo : InstallSnapshotArgs :=
  { Term := 1, LeaderId := 0, LastIncludedIndex := 2, LastIncludedTerm := 1, Data := [7] }

/-- An `InstallSnapshot` of term 2 with last included index 2 of term 1. -/
def snapshotTwoLater : InstallSnapshotArgs :=
  { Term := 2, LeaderId := 0, LastIncludedIndex := 2, LastIncludedTerm := 1, Data := [7] }

/-- A candidate of term 2 whose log was compacted through index 5, with entry 6
committed and delivered. -/
def compactedAhead : Raft :=
  { nPeers := 3, persister := { raftstate := none, snapshot := [5] }, me := 1,
    state := Role.CANDIDATE, currentTerm := 2, votedFor := 1,
    log := [⟨none, 2⟩, ⟨some 26, 2⟩],
    firstIndex := 5, commitIndex := 6, lastApplied := 6, lastNewEntry := 0,
    nextIndex := [], matchIndex := [], updateSnap := false }

/-- An `InstallSnapshot` of term 2 whose last included index is the `firstIndex`
of `compactedAhead`. -/
def snapshotFive : InstallSnapshotArgs :=
  { Term := 2, LeaderId := 0, LastIncludedIndex := 5, LastIncludedTerm := 2, Data := [7] }

/-- An `InstallSnapshot` of term 3 whose last included index 4 is below the
`firstIndex` of `compactedAhead`. -/
def snapshotFourLater : InstallSnapshotArgs :=
  { Term := 3, LeaderId := 0, LastIncludedIndex := 4, LastIncludedTerm := 2, Data := [7] }

/-! ## The sender of AppendEntries and concrete peers -/

/-- The first region of `issueSingleAppendEntries(i, curTerm, hb, prevLogIndex,
prevLogTerm, commitIndex)`: the local variables `args` and `log`. -/
def issueSingleAppendEntries (rf : Raft) (curTerm prevLogIndex prevLogTerm commitIndex : Int) :
    AppendEntriesArgs × List Entry :=
  ({ Term := curTerm, LeaderId := rf.me, PrevLogIndex := prevLogIndex,
     PrevLogTerm := prevLogTerm, Entries := none, LeaderCommit := commitIndex }, rf.log)

/-- The region of `issueSingleAppendEntries` from the top of the `for` loop to
`res := rf.sendAppendEntries(i, &args, &reply)`, with `log` the local variable
of that name: the `args` that are sent, or `some none` when the function
returns. -/
def appendEntriesSend (rf : Raft) (log : List Entry) (curTerm : Int) (hb : Bool)
    (commitIndex : Int) (args : AppendEntriesArgs) : Option (Option AppendEntriesArgs) :=
  if rf.state ≠ Role.LEADER ∨ curTerm ≠ rf.currentTerm ∨ rf.commitIndex ≠ commitIndex then
    some none
  else
    let nextIdx := args.PrevLogIndex + 1 -- Offset
    if args.PrevLogIndex < rf.firstIndex then some none
    else if hb = false ∨ (rf.log.length : Int) - 1 + rf.firstIndex ≥ nextIdx then
      match sliceFrom log (nextIdx - rf.firstIndex) with
      | none => none
      | some entries => some (some { args with Entries := some entries })
    else some (some args)

/-- Peer 2 of the three peers of `leaderOfThree`: a follower in term 1 that holds
the log of the leader. -/
def followerOfThree : Raft :=
  { nPeers := 3, persister := { raftstate := none, snapshot := [] }, me := 2,
    state := Role.FOLLOWER, currentTerm := 1, votedFor := 0,
    log := [⟨none, 0⟩, ⟨some 10, 1⟩],
    firstIndex := 0, commitIndex := 0, lastApplied := 0, lastNewEntry := 0,
    nextIndex := [], matchIndex := [], updateSnap := false }

/-- The leader `leaderOfThree` with one more entry, 11 of term 1, at index 2. -/
def leaderOfThreeAhead : Raft :=
  { leaderOfThree with log := [⟨none, 0⟩, ⟨some 10, 1⟩, ⟨some 11, 1⟩] }

/-! ## Snapshot sender, vote counting and concrete peers -/

/-- The first statement of the snapshot goroutine of `issueAppendEntries`, with
`log` the local variable of that name: the `args` of the call; `none` is the
panic of `log[0]` on an empty log. -/
def installSnapshotSend (rf : Raft) (log : List Entry) : Option InstallSnapshotArgs :=
  match index log 0 with
  | none => none
  | some e0 =>
    some { Term := rf.currentTerm, LeaderId := rf.me, LastIncludedIndex := rf.firstIndex,
           LastIncludedTerm := e0.Term, Data := rf.persister.snapshot }

/-- The counting goroutine of `issueRequestVote` from the tally `t` on, with
`majority := len(rf.peers)/2` taken before the loop.  Every round comes with the
state of the peer when the round takes the mutex, since other regions may have
run after the round before, and with the message taken from `workChan`.  The
result is the tally behind the loop and whether `len(successReplies) >=
majority` sends the goroutine into the region `// Become Leader`; `none` is the
goroutine blocked on `workChan`. -/
def countVotes (nPeers : Nat) : Tally → List (Raft × Option RequestVoteReply) → Option (Tally × Bool)
  | _, [] => none
  | t, (rf, r) :: rest =>
    match tallyReply rf t r with
    | (_, t1, Next.returned) => some (t1, false)
    | (_, t1, Next.again) => countVotes nPeers t1 rest
    | (_, t1, Next.left) =>
      some (t1, decide ((t1.successReplies.length : Int) ≥ ((nPeers / 2 : Nat) : Int)))

/-- The number of rounds whose message is a reply with `VoteGranted = true` and
which the peer runs as Candidate in the term of `args`. -/
def grantedCount (args : RequestVoteArgs) (rounds : List (Raft × Option RequestVoteReply)) : Nat :=
  (rounds.filter (fun x =>
    decide (x.1.state = Role.CANDIDATE ∧ x.1.currentTerm = args.Term) &&
    (match x.2 with
     | some reply => reply.VoteGranted
     | none => false))).length

/-- A leader of term 2 of three peers whose log was compacted through index 5;
peer 1 is behind the snapshot (`nextIndex[1] = 5`), peer 2 holds index 6. -/
def snapshotLeader : Raft :=
  { nPeers := 3, persister := { raftstate := none, snapshot := [0, 5, 0, 2, 9] }, me := 0,
    state := Role.LEADER, currentTerm := 2, votedFor := 0,
    log := [⟨none, 2⟩, ⟨some 26, 2⟩],
    firstIndex := 5, commitIndex := 6, lastApplied := 6, lastNewEntry := 0,
    nextIndex := [7, 5, 7], matchIndex := [0, 0, 6], updateSnap := false }

/-- Peer 1 of the three peers of `snapshotLeader`: a follower of term 2 with the
sentinel alone. -/
def snapshotFollower : Raft :=
  { nPeers := 3, persister := { raftstate := none, snapshot := [] }, me := 1,
    state := Role.FOLLOWER, currentTerm := 2, votedFor := 0,
    log := [⟨none, 0⟩],
    firstIndex := 0, commitIndex := 0, lastApplied := 0, lastNewEntry := 0,
    nextIndex := [], matchIndex := [], updateSnap := false }

/-- The `RequestVote` of peer 2 as candidate of term 3 with the log of
`snapshotLeader`. -/
def voteThree : RequestVoteArgs :=
  { Term := 3, CandidateId := 2, LastLogIndex := 6, LastLogTerm := 2 }

/-- A follower of term 1 with the log `[sentinel, 10, 11, 12]`, all of term 1,
committed through index 3 and delivered through index 1. -/
def pendingThree : Raft :=
  { nPeers := 3, persister := { raftstate := none, snapshot := [] }, me := 1,
    state := Role.FOLLOWER, currentTerm := 1, votedFor := 0,
    log := [⟨none, 0⟩, ⟨some 10, 1⟩, ⟨some 11, 1⟩, ⟨some 12, 1⟩],
    firstIndex := 0, commitIndex := 3, lastApplied := 1, lastNewEntry := 3,
    nextIndex := [], matchIndex := [], updateSnap := false }

/-- An `AppendEntries` of term 2 behind index 0 with one entry of term 2 for
index 1 and `LeaderCommit = 0`. -/
def conflictAtOne : AppendEntriesArgs :=
  { Term := 2, LeaderId := 2, PrevLogIndex := 0, PrevLogTerm := 0,
    Entries := some [⟨some 13, 2⟩], LeaderCommit := 0 }

/-- An `AppendEntries` of term 2 behind index 3 with one entry of term 2 for
index 4 and `LeaderCommit = 4`. -/
def appendAtFour : AppendEntriesArgs :=
  { Term := 2, LeaderId := 2, PrevLogIndex := 3, PrevLogTerm := 1,
    Entries := some [⟨some 14, 2⟩], LeaderCommit := 4 }

/-- A candidate of term 1 of three peers, as the election timeout leaves the
peer that `Make` builds. -/
def candidateOfThree : Raft :=
  { nPeers := 3, persister := { raftstate := some ⟨1, 0, [⟨none, 0⟩], 0⟩, snapshot := [] },
    me := 0, state := Role.CANDIDATE, currentTerm := 1, votedFor := 0,
    log := [⟨none, 0⟩],
    firstIndex := 0, commitIndex := 0, lastApplied := 0, lastNewEntry := 0,
    nextIndex := [], matchIndex := [], updateSnap := false }

/-! ## Requests and peers of the runs behind the snapshot and of the votes -/

/-- A third candidate of term 4 for the voter of scenario S6, peer 1 with last
log term 3 and last log index 6: its log is as up to date as the one of
candidate A. -/
def s6ArgsLate : RequestVoteArgs :=
  { Term := 4, CandidateId := 1, LastLogIndex := 6, LastLogTerm := 3 }

/-- An `InstallSnapshot` of term 0 with last included index 2 of term 1: stale
for every peer of a later term. -/
def snapshotTwoStale : InstallSnapshotArgs :=
  { Term := 0, LeaderId := 0, LastIncludedIndex := 2, LastIncludedTerm := 1, Data := [7] }

/-- The leader of term 2 that sends `behindSnapshot`: three peers, the log
through index 7, all entries of term 2, `commitIndex = 5`, peer 1 at
`nextIndex = 4`, peer 2 acknowledged through index 5. -/
def leaderOfSeven : Raft :=
  { nPeers := 3, persister := { raftstate := none, snapshot := [] }, me := 0,
    state := Role.LEADER, currentTerm := 2, votedFor := 0,
    log := [⟨none, 0⟩, ⟨some 21, 2⟩, ⟨some 22, 2⟩, ⟨some 23, 2⟩, ⟨some 24, 2⟩, ⟨some 25, 2⟩,
            ⟨some 26, 2⟩, ⟨some 27, 2⟩],
    firstIndex := 0, commitIndex := 5, lastApplied := 5, lastNewEntry := 0,
    nextIndex := [8, 4, 8], matchIndex := [0, 0, 5], updateSnap := false }

/-- A leader of term 2 of three peers: the log holds the indices 1 to 5 of term
1 and, appended in term 2, 36 at index 6 and 37 at index 7; everything is
committed with peer 2; peer 1 is at `nextIndex = 7`. -/
def staleLeader : Raft :=
  { nPeers := 3, persister := { raftstate := none, snapshot := [] }, me := 0,
    state := Role.LEADER, currentTerm := 2, votedFor := 0,
    log := [⟨none, 0⟩, ⟨some 31, 1⟩, ⟨some 32, 1⟩, ⟨some 33, 1⟩, ⟨some 34, 1⟩, ⟨some 35, 1⟩,
            ⟨some 36, 2⟩, ⟨some 37, 2⟩],
    firstIndex := 0, commitIndex := 7, lastApplied := 7, lastNewEntry := 0,
    nextIndex := [8, 7, 8], matchIndex := [0, 0, 7], updateSnap := false }

/-- Peer 1 of the three peers of `staleLeader`: its log was compacted through
index 5, of term 1, and holds at index 6 the entry 66 that the leader of term 1
left there and never committed. -/
def staleFollower : Raft :=
  { nPeers := 3, persister := { raftstate := none, snapshot := [] }, me := 1,
    state := Role.FOLLOWER, currentTerm := 2, votedFor := -1,
    log := [⟨none, 1⟩, ⟨some 66, 1⟩],
    firstIndex := 5, commitIndex := 5, lastApplied := 5, lastNewEntry := 0,
    nextIndex := [], matchIndex := [], updateSnap := false }

end raft

/-!
# Primary-backup replica of `src/simplepb/server.go`: a shallow embedding

Every region of the Go code that runs under the server mutex `srv.mu` is embedded
as one function on the record `PBServer`, with the conventions of the Raft peer
above.  A goroutine that a region starts, or a call that it makes when it has
released the mutex, is returned as a value; the messages that a counting
goroutine receives on its channel are a list, in arrival order.
-/

namespace simplepb

/-- The constants `NORMAL`, `VIEWCHANGE`, `RECOVERING` of the `iota` block. -/
inductive Status where
  | NORMAL
  | VIEWCHANGE
  | RECOVERING
deriving DecidableEq, Repr

/-- An `interface{}` command: `none` is the nil interface. -/
abbrev Cmd := Option Nat

/-- Go `type PBServer struct`, without the mutex; `nPeers` is `len(srv.peers)`. -/
structure PBServer where
  nPeers : Nat
  me : Int
  currentView : Int
  status : Status
  lastNormalView : Int
  log : List Cmd
  commitIndex : Int
  prepareRetry : Int
deriving DecidableEq, Repr

/-- Go `type PrepareArgs struct`. -/
structure PrepareArgs where
  View : Int
  PrimaryCommit : Int
  Index : Int
  Entry : Cmd
deriving DecidableEq, Repr

/-- Go `type PrepareReply struct`. -/
structure PrepareReply where
  View : Int
  Success : Bool
deriving DecidableEq, Repr

/-- Go `type RecoveryArgs struct`. -/
structure RecoveryArgs where
  View : Int
  Server : Int
deriving DecidableEq, Repr

/-- Go `type RecoveryReply struct`. -/
structure RecoveryReply where
  View : Int
  Entries : List Cmd
  PrimaryCommit : Int
  Success : Bool
deriving DecidableEq, Repr

/-- Go `type ViewChangeArgs struct`. -/
structure ViewChangeArgs where
  View : Int
deriving DecidableEq, Repr

/-- Go `type ViewChangeReply struct`. -/
structure ViewChangeReply where
  LastNormalView : Int
  Log : List Cmd
  Success : Bool
deriving DecidableEq, Repr

/-- Go `type StartViewArgs struct`. -/
structure StartViewArgs where
  View : Int
  Log : List Cmd
deriving DecidableEq, Repr

/-- Go `func GetPrimary(view int, nservers int) int`.  Go's `%` truncates towards
zero; `none` is the integer-divide-by-zero panic. -/
def GetPrimary (view : Int) (nservers : Int) : Option Int :=
  if nservers = 0 then none else some (Int.tmod view nservers)

/-- Go `func (srv *PBServer) IsCommitted(index int) bool`. -/
def IsCommitted (srv : PBServer) (index : Int) : Bool :=
  if srv.commitIndex ≥ index then true else false

/-- Go `func (srv *PBServer) ViewStatus() (int, bool)`. -/
def ViewStatus (srv : PBServer) : Int × Bool :=
  (srv.currentView, decide (srv.status = Status.NORMAL))

/-- Go `func (srv *PBServer) GetEntryAtIndex(index int) (bool, interface{})`; the
named result `command` is the nil interface when it is not assigned. -/
def GetEntryAtIndex (srv : PBServer) (index : Int) : Option (Bool × Cmd) :=
  if (srv.log.length : Int) > index then
    match raft.index srv.log index with
    | none => none
    | some command => some (true, command)
  else some (false, none)

/-- Go `func Make(peers, me, startingView) *PBServer`. -/
def Make (nPeers : Nat) (me : Int) (startingView : Int) : PBServer :=
  { nPeers := nPeers, me := me, currentView := startingView,
    lastNormalView := startingView, status := Status.NORMAL,
    -- all servers' log are initialized with a dummy command at index 0
    log := [none], commitIndex := 0, prepareRetry := 0 }

/-- The goroutine `go srv.issuePrepares(view, command, index, commitIndex)`. -/
structure PrepareTask where
  view : Int
  command : Cmd
  index : Int
  commitIndex : Int
deriving DecidableEq, Repr

/-- Go `func (srv *PBServer) Start(command) (index int, view int, ok bool)`: the
state it leaves, the goroutine it starts, and the returned triple. -/
def Start (srv : PBServer) (command : Cmd) :
    Option (PBServer × Option PrepareTask × (Int × Int × Bool)) :=
  -- do not process command if status is not NORMAL
  -- and if i am not the primary in the current view
  if srv.status ≠ Status.NORMAL then some (srv, none, (-1, srv.currentView, false))
  else
    match GetPrimary srv.currentView (srv.nPeers : Int) with
    | none => none
    | some primary =>
      if primary ≠ srv.me then some (srv, none, (-1, srv.currentView, false))
      else
        -- Append command to the log
        let srv1 : PBServer :=
          { srv with lastNormalView := srv.currentView, log := srv.log ++ [command] }
        let index : Int := (srv1.log.length : Int) - 1
        let view : Int := srv1.currentView
        some (srv1, some ⟨view, command, index, srv1.commitIndex⟩, (index, view, true))

/-- The `PrepareArgs` that every sender goroutine of `issuePrepares` builds. -/
def prepareArgs (t : PrepareTask) : PrepareArgs :=
  { View := t.view, PrimaryCommit := t.commitIndex, Index := t.index, Entry := t.command }

/-- The loop `for r := range workChan` of the counting goroutine of
`issuePrepares`, on the messages that arrive on `workChan` (`none` is the `nil`
that a sender goroutine puts there when its call fails): the `successReplies` at
the `break`.  `none` is the goroutine blocked on the channel, since `workChan`
is never closed. -/
def prepareCount (nPeers : Nat) :
    List (Option PrepareReply) → List PrepareReply → Int → Option (List PrepareReply)
  | [], _, _ => none
  | r :: rs, successReplies, nReplies =>
    let nReplies1 := nReplies + 1
    let successReplies1 :=
      match r with
      | some reply => if reply.Success then successReplies ++ [reply] else successReplies
      | none => successReplies
    if nReplies1 = (nPeers : Int) - 1 ∨ successReplies1.length = nPeers / 2 then
      some successReplies1
    else prepareCount nPeers rs successReplies1 nReplies1

/-- What the counting goroutine of `issuePrepares` does behind its loop. -/
inductive PrepareOutcome where
  /-- Enters the loop that waits for `srv.commitIndex+1 == index` and commits. -/
  | commit
  /-- Runs `go srv.issuePrepares(view, command, index, commitIndex)` again. -/
  | resend
deriving DecidableEq, Repr

/-- The counting goroutine of `issuePrepares` on the messages that arrive on
`workChan`. -/
def issuePrepares (nPeers : Nat) (msgs : List (Option PrepareReply)) : Option PrepareOutcome :=
  match prepareCount nPeers msgs [] 0 with
  | none => none
  | some successReplies =>
    if successReplies.length ≥ nPeers / 2 then some PrepareOutcome.commit
    else some PrepareOutcome.resend

/-- One round of the loop `// wait previous requests to be committed` of
`issuePrepares`; the flag says whether the loop ends. -/
def prepareCommit (srv : PBServer) (index : Int) : PBServer × Bool :=
  if srv.commitIndex + 1 = index then ({ srv with commitIndex := index }, true)
  else (srv, false)

/-- What `Prepare` does when it has released the mutex. -/
inductive PrepareNext where
  /-- The handler returns. -/
  | done
  /-- The handler returns; the recovery goroutine `go func(view int)` runs. -/
  | recover (view : Int)
  /-- The handler calls `srv.sendPrepare(srv.me, args, reply)`. -/
  | resend
deriving DecidableEq, Repr

/-- Go `func (srv *PBServer) Prepare(args, reply)` up to the point where it
releases the mutex.  With `PrepareNext.resend` the handler goes on to call
`Prepare` on this same server through the network, and the reply of that call,
if it arrives, is the reply of this one. -/
def Prepare (srv : PBServer) (args : PrepareArgs) : PBServer × PrepareReply × PrepareNext :=
  if srv.currentView = args.View ∧ (srv.log.length : Int) = args.Index then
    ({ srv with prepareRetry := 0
                lastNormalView := srv.currentView
                log := srv.log ++ [args.Entry]
                -- Piggyback Commit
                commitIndex := args.PrimaryCommit },
     { Success := true, View := args.View }, PrepareNext.done)
  else if srv.currentView = args.View ∧ (srv.log.length : Int) > args.Index then
    (srv, { Success := true, View := args.View }, PrepareNext.done)
  else if srv.currentView > args.View then
    (srv, { Success := false, View := 0 }, PrepareNext.done)
  -- If the current index or view is outdated, and the number of retries exceeds
  -- the threshold, then do recovery
  else if srv.prepareRetry ≥ 100 then
    ({ srv with prepareRetry := 0, status := Status.RECOVERING },
     { Success := false, View := 0 }, PrepareNext.recover args.View)
  else
    -- Issue another prepare call, which will be processed later
    ({ srv with prepareRetry := srv.prepareRetry + 1 },
     { Success := false, View := 0 }, PrepareNext.resend)

/-- The handler `Prepare` together with the calls `srv.sendPrepare(srv.me, args,
reply)` that it makes, when each of them is delivered and no other region of the
server runs in between; `n` bounds the number of nested calls.  A delivered call
is the transport's `Call` of the spec, section 6 (`labrpc` is not among the
sources): it runs the handler on the server and hands its reply back. -/
def prepareNested : Nat → PBServer → PrepareArgs → PBServer × PrepareReply × PrepareNext
  | 0, srv, args => Prepare srv args
  | n + 1, srv, args =>
    match Prepare srv args with
    | (srv1, _, PrepareNext.resend) => prepareNested n srv1 args
    | r => r

/-- The `RecoveryArgs` of the recovery goroutine of `Prepare` and the server that
it calls, `GetPrimary(view, len(srv.peers))`. -/
def recoveryCall (srv : PBServer) (view : Int) : Option (Int × RecoveryArgs) :=
  match GetPrimary view (srv.nPeers : Int) with
  | none => none
  | some primary => some (primary, { View := view, Server := srv.me })

/-- The region of the recovery goroutine of `Prepare` behind
`res := srv.sendRecovery(...)`. -/
def recoveryReply (srv : PBServer) (res : Bool) (rcReply : RecoveryReply) : PBServer :=
  if res = true ∧ rcReply.Success = true then
    -- Change the server state
    { srv with currentView := rcReply.View
               lastNormalView := rcReply.View
               log := rcReply.Entries
               commitIndex := rcReply.PrimaryCommit
               status := Status.NORMAL }
  else srv

/-- Go `func (srv *PBServer) Recovery(args, reply)`. -/
def Recovery (srv : PBServer) (_args : RecoveryArgs) : RecoveryReply :=
  if srv.status = Status.NORMAL then
    { View := srv.currentView, Entries := srv.log, PrimaryCommit := srv.commitIndex,
      Success := true }
  else { View := 0, Entries := [], PrimaryCommit := 0, Success := false }

/-- Go `func (srv *PBServer) PromptViewChange(newView int)`, the region under the
mutex: the `vcArgs` that it sends to all servers, if any.  The state is not
written. -/
def PromptViewChange (srv : PBServer) (newView : Int) : Option (Option ViewChangeArgs) :=
  match GetPrimary newView (srv.nPeers : Int) with
  | none => none
  | some newPrimary =>
    -- only primary of newView should do view change
    if newPrimary ≠ srv.me then some none
    else if newView ≤ srv.currentView then some none
    else some (some { View := newView })

/-- The loop `for r := range vcReplyChan` of the counting goroutine of
`PromptViewChange`, on the messages that arrive on `vcReplyChan`: the
`successReplies` at the `break`; `none` is the goroutine blocked on the
channel. -/
def viewChangeCount (nPeers : Nat) :
    List (Option ViewChangeReply) → List ViewChangeReply → Int → Option (List ViewChangeReply)
  | [], _, _ => none
  | r :: rs, successReplies, nReplies =>
    let nReplies1 := nReplies + 1
    let successReplies1 :=
      match r with
      | some reply => if reply.Success then successReplies ++ [reply] else successReplies
      | none => successReplies
    if nReplies1 = (nPeers : Int) ∨ successReplies1.length = nPeers / 2 + 1 then
      some successReplies1
    else viewChangeCount nPeers rs successReplies1 nReplies1

/-- The loop `for i := 0; i < len(successReplies); i++` of `determineNewViewLog`
on the replies still to be visited, from the current `lastView` and
`newViewLog`. -/
def determineLoop : List ViewChangeReply → Int → List Cmd → List Cmd
  | [], _, newViewLog => newViewLog
  | r :: rs, lastView, newViewLog =>
    if r.LastNormalView > lastView then determineLoop rs r.LastNormalView r.Log
    else if r.LastNormalView = lastView then
      if r.Log.length > newViewLog.length then determineLoop rs lastView r.Log
      else determineLoop rs lastView newViewLog
    else determineLoop rs lastView newViewLog

/-- Go `func (srv *PBServer) determineNewViewLog(successReplies) (bool,
[]interface{})`. -/
def determineNewViewLog (srv : PBServer) (successReplies : List ViewChangeReply) :
    Bool × List Cmd :=
  if successReplies.length ≤ srv.nPeers / 2 then (false, [])
  else (true, determineLoop successReplies (-1) [])

/-- The counting goroutine of `PromptViewChange` on the messages that arrive on
`vcReplyChan`: the `svArgs` that it sends to all servers, if any. -/
def promptStartView (srv : PBServer) (vcArgs : ViewChangeArgs)
    (msgs : List (Option ViewChangeReply)) : Option (Option StartViewArgs) :=
  match viewChangeCount srv.nPeers msgs [] 0 with
  | none => none
  | some successReplies =>
    let r := determineNewViewLog srv successReplies
    if r.1 = false then some none
    else some (some { View := vcArgs.View, Log := r.2 })

/-- Go `func (srv *PBServer) ViewChange(args, reply)`. -/
def ViewChange (srv : PBServer) (args : ViewChangeArgs) : PBServer × ViewChangeReply :=
  if srv.currentView < args.View then
    ({ srv with status := Status.VIEWCHANGE },
     { Success := true, Log := srv.log, LastNormalView := srv.lastNormalView })
  else (srv, { Success := false, Log := [], LastNormalView := 0 })

/-- Go `func (srv *PBServer) StartView(args, reply)`. -/
def StartView (srv : PBServer) (args : StartViewArgs) : PBServer :=
  if srv.currentView ≤ args.View then
    { srv with currentView := args.View
               log := args.Log
               lastNormalView := args.View
               status := Status.NORMAL
               commitIndex := (args.Log.length : Int) - 1 }
  else srv

/-! ## Notions of the spec and concrete replicas -/

/-- The spec's `⌈N/2⌉`. -/
def ceilHalf (n : Nat) : Nat := (n + 1) / 2

/-- The number of messages on `workChan` that are a reply with `Success = true`;
every backup puts one message there, so this is the number of backups that
replied `Success = true`. -/
def successCount (msgs : List (Option PrepareReply)) : Nat :=
  (msgs.filter (fun m => match m with
    | some reply => reply.Success
    | none => false)).length

/-- A replica of scenario S5: one of three, in view 0 with the log `[_, a, b]`
(`a = 1`, `b = 2`) and `commitIndex = 2`. -/
def s5Replica (me : Int) : PBServer :=
  { nPeers := 3, me := me, currentView := 0, status := Status.NORMAL, lastNormalView := 0,
    log := [none, some 1, some 2], commitIndex := 2, prepareRetry := 0 }

end simplepb

namespace raft

/-! ## Lemmas on slices and on the blocks of the handlers -/

theorem index_eq_some {α : Type} (s : List α) (i : Int) (a : α) :
    index s i = some a ↔ 0 ≤ i ∧ s[i.toNat]? = some a := by
  unfold index
  split
  · constructor
    · intro h; cases h
    · intro h; omega
  · constructor
    · intro h; exact ⟨by omega, h⟩
    · intro h; exact h.2

theorem index_natCast {α : Type} (s : List α) (n : Nat) : index s (n : Int) = s[n]? := by
  unfold index
  simp

theorem index_last {α : Type} (s : List α) (h : s ≠ []) :
    index s ((s.length : Int) - 1) = some (s.getLast h) := by
  have hl : 0 < s.length := List.length_pos.2 h
  have : ((s.length : Int) - 1) = ((s.length - 1 : Nat) : Int) := by omega
  rw [this, index_natCast, List.getLast_eq_getElem]
  exact List.getElem?_eq_getElem _

/-- C1: `RequestVote` on a peer with a non-empty log returns, and grants the vote
exactly when (a) `args.Term ≥ currentTerm`, (b) `votedFor`, cleared when
`args.Term > currentTerm`, is `-1` or `args.CandidateId`, and (c) the candidate's
last term is greater than the term of the peer's last entry, or equal with
`args.LastLogIndex ≥ firstIndex + len(log) - 1`; on a grant `votedFor` becomes
`args.CandidateId` and `reply.Term` is the peer's `currentTerm`. -/
theorem RequestVote_grant_iff (rf : Raft) (args : RequestVoteArgs) (h : rf.log ≠ []) :
    ∃ rf2 reply, RequestVote rf args = some (rf2, reply) ∧
      (reply.VoteGranted = true ↔
        (args.Term ≥ rf.currentTerm ∧
         ((if args.Term > rf.currentTerm then -1 else rf.votedFor) = -1 ∨
          (if args.Term > rf.currentTerm then -1 else rf.votedFor) = args.CandidateId) ∧
         (args.LastLogTerm > (rf.log.getLast h).Term ∨
          (args.LastLogTerm = (rf.log.getLast h).Term ∧ args.LastLogIndex ≥ lastIndex rf)))) ∧
      (reply.VoteGranted = true →
        rf2.votedFor = args.CandidateId ∧ reply.Term = rf2.currentTerm) := by
  unfold RequestVote lastIndex
  by_cases hgt : args.Term > rf.currentTerm
  · simp only [hgt, if_true, persist]
    simp only [lt_irrefl, if_false, index_last _ h]
    split
    · rename_i hc
      refine ⟨_, _, rfl, ?_, ?_⟩
      · simp only [true_iff]
        refine ⟨le_of_lt hgt, hc.1, ?_⟩
        rcases hc.2 with h1 | h1
        · exact Or.inl h1
        · exact Or.inr ⟨h1.1, by have := h1.2; omega⟩
      · intro _; exact ⟨rfl, rfl⟩
    · rename_i hc
      refine ⟨_, _, rfl, ?_, ?_⟩
      · simp only [Bool.false_eq_true, false_iff]
        rintro ⟨_, hb, hc2⟩
        apply hc
        refine ⟨hb, ?_⟩
        rcases hc2 with h1 | h1
        · exact Or.inl h1
        · exact Or.inr ⟨h1.1, by have := h1.2; omega⟩
      · intro hf; cases hf
  · simp only [hgt, if_false]
    by_cases hlt : args.Term < rf.currentTerm
    · simp only [hlt, if_true]
      refine ⟨_, _, rfl, ?_, ?_⟩
      · simp only [Bool.false_eq_true, false_iff]
        rintro ⟨ha, _, _⟩
        omega
      · intro hf; cases hf
    · simp only [hlt, if_false, index_last _ h]
      split
      · rename_i hc
        refine ⟨_, _, rfl, ?_, ?_⟩
        · simp only [true_iff]
          refine ⟨by omega, hc.1, ?_⟩
          rcases hc.2 with h1 | h1
          · exact Or.inl h1
          · exact Or.inr ⟨h1.1, by have := h1.2; omega⟩
        · intro _; exact ⟨rfl, rfl⟩
      · rename_i hc
        refine ⟨_, _, rfl, ?_, ?_⟩
        · simp only [Bool.false_eq_true, false_iff]
          rintro ⟨_, hb, hc2⟩
          apply hc
          refine ⟨hb, ?_⟩
          rcases hc2 with h1 | h1
          · exact Or.inl h1
          · exact Or.inr ⟨h1.1, by have := h1.2; omega⟩
        · intro hf; cases hf

theorem overwriteAppend_eq (b : Nat) (rest : List Entry) :
    ∀ (i : Nat) (log : List Entry), b + i ≤ log.length →
      overwriteAppend (b : Int) rest (i : Int) log =
        some (log.take (b + i) ++ rest ++ log.drop (b + i + rest.length)) := by
  induction rest with
  | nil =>
    intro i log _
    simp [overwriteAppend]
  | cons e rest ih =>
    intro i log h
    unfold overwriteAppend
    have hcast : ((i : Int) + 1) = ((i + 1 : Nat) : Int) := by push_cast; rfl
    by_cases hge : (i : Int) + (b : Int) ≥ (log.length : Int)
    · have hlen : b + i = log.length := by omega
      rw [if_pos hge, hcast, ih (i + 1) (log ++ [e]) (by simp; omega)]
      congr 1
      rw [List.take_of_length_le (by simp; omega), List.take_of_length_le (by omega),
        List.drop_of_length_le (by simp; omega), List.drop_of_length_le (by omega)]
      simp
    · have hlt : b + i < log.length := by omega
      have hnn : ¬ ((i : Int) + (b : Int) < 0) := by omega
      have htn : ((i : Int) + (b : Int)).toNat = b + i := by omega
      rw [if_neg hge, if_neg hnn, htn, hcast, ih (i + 1) (log.set (b + i) e) (by simp; omega)]
      congr 1
      rw [List.set_eq_take_append_cons_drop, if_pos hlt]
      have hl : (List.take (b + i) log).length = b + i := by
        rw [List.length_take]; omega
      have h1 : List.take (b + (i + 1)) (List.take (b + i) log ++ e :: List.drop (b + i + 1) log)
          = List.take (b + i) log ++ [e] := by
        have e1 : b + (i + 1) - (b + i) = 1 := by omega
        rw [List.take_append_eq_append_take, hl, e1,
          List.take_of_length_le (by rw [hl]; omega)]
        rfl
      have h2 : List.drop (b + (i + 1) + rest.length)
          (List.take (b + i) log ++ e :: List.drop (b + i + 1) log)
          = List.drop (b + i + (e :: rest).length) log := by
        have e2 : b + (i + 1) + rest.length - (b + i) = rest.length + 1 := by omega
        have e3 : b + i + 1 + rest.length = b + i + (e :: rest).length := by
          simp only [List.length_cons]; omega
        rw [List.drop_append_eq_append_drop, hl, e2,
          List.drop_of_length_le (by rw [hl]; omega), List.nil_append, List.drop_succ_cons,
          List.drop_drop, e3]
      rw [h1, h2]
      simp

theorem truncateConflict_spec (log : List Entry) (b : Nat) (rest : List Entry) :
    ∀ idx : Nat, ∃ log1, truncateConflict log (b : Int) rest (idx : Int) = some log1 ∧
      ((log1 = log ∧
          ∀ k e x, rest[k]? = some e → log[b + idx + k]? = some x → x.Term = e.Term) ∨
       (∃ k e x, rest[k]? = some e ∧ log[b + idx + k]? = some x ∧ x.Term ≠ e.Term ∧
          log1 = log.take (b + idx + k))) := by
  induction rest with
  | nil =>
    intro idx
    exact ⟨log, rfl, Or.inl ⟨rfl, by intro k e x h; simp at h⟩⟩
  | cons e rest ih =>
    intro idx
    unfold truncateConflict
    by_cases hlt : (idx : Int) < (log.length : Int) - (b : Int)
    · have hlt2 : b + idx < log.length := by omega
      have hidx : index log ((idx : Int) + (b : Int)) = some log[b + idx] := by
        have : ((idx : Int) + (b : Int)) = ((b + idx : Nat) : Int) := by push_cast; omega
        rw [this, index_natCast]
        exact List.getElem?_eq_getElem hlt2
      rw [if_pos hlt, hidx]
      simp only
      by_cases hne : log[b + idx].Term ≠ e.Term
      · have hnn : ¬ ((idx : Int) + (b : Int) < 0) := by omega
        have htn : ((idx : Int) + (b : Int)).toNat = b + idx := by omega
        rw [if_pos hne, if_neg hnn, htn]
        refine ⟨_, rfl, Or.inr ⟨0, e, log[b + idx], by simp, ?_, hne, rfl⟩⟩
        exact List.getElem?_eq_getElem hlt2
      · rw [if_neg hne]
        have hcast : ((idx : Int) + 1) = ((idx + 1 : Nat) : Int) := by push_cast; rfl
        rw [hcast]
        obtain ⟨log1, h1, h2⟩ := ih (idx + 1)
        refine ⟨log1, h1, ?_⟩
        rcases h2 with ⟨heq, hall⟩ | ⟨k, e2, x2, hk, hx, hne2, htake⟩
        · refine Or.inl ⟨heq, ?_⟩
          intro k e2 x2 hk hx
          cases k with
          | zero =>
            simp at hk
            rw [Nat.add_zero, List.getElem?_eq_getElem hlt2] at hx
            simp at hx
            subst hk; subst hx
            exact not_not.1 hne
          | succ k =>
            simp at hk
            apply hall k e2 x2 hk
            rw [← hx]; congr 1; omega
        · refine Or.inr ⟨k + 1, e2, x2, by simpa using hk, ?_, hne2, ?_⟩
          · rw [← hx]; congr 1; omega
          · rw [htake]; congr 1; omega
    · rw [if_neg hlt]
      refine ⟨log, rfl, Or.inl ⟨rfl, ?_⟩⟩
      intro k e2 x2 _ hx
      have : log[b + idx + k]? = none := List.getElem?_eq_none (by omega)
      rw [this] at hx
      cases hx

theorem mergeEntries_eq (log entries : List Entry) (b : Nat) (hb : b ≤ log.length) :
    ∃ log2, mergeEntries log (b : Int) entries = some log2 ∧
      ((∀ k e x, entries[k]? = some e → log[b + k]? = some x → x.Term = e.Term) →
        log2 = log.take b ++ entries ++ log.drop (b + entries.length)) ∧
      ((∃ k e x, entries[k]? = some e ∧ log[b + k]? = some x ∧ x.Term ≠ e.Term) →
        log2 = log.take b ++ entries) := by
  unfold mergeEntries
  obtain ⟨log1, h1, h2⟩ := truncateConflict_spec log b entries 0
  have h1' : truncateConflict log (b : Int) entries 0 = some log1 := h1
  rw [h1']
  simp only
  rcases h2 with ⟨heq, hall⟩ | ⟨k, e, x, hk, hx, hne, htake⟩
  · subst heq
    have := overwriteAppend_eq b entries 0 log1 (by omega)
    simp only [Nat.cast_zero, Nat.add_zero] at this
    refine ⟨_, this, fun _ => rfl, ?_⟩
    rintro ⟨k, e, x, hk, hx, hne⟩
    exact absurd (hall k e x hk (by simpa using hx)) hne
  · have hk2 : k < entries.length := by
      by_contra hc
      rw [List.getElem?_eq_none (by omega)] at hk
      cases hk
    have hx2 : b + k < log.length := by
      by_contra hc
      rw [List.getElem?_eq_none (by omega)] at hx
      cases hx
    simp only [Nat.add_zero] at htake hx
    have hlen1 : log1.length = b + k := by
      rw [htake, List.length_take]; omega
    have := overwriteAppend_eq b entries 0 log1 (by omega)
    simp only [Nat.cast_zero, Nat.add_zero] at this
    have hres : List.take b log1 ++ entries ++ List.drop (b + entries.length) log1
        = log.take b ++ entries := by
      rw [List.drop_of_length_le (by omega), htake, List.take_take, Nat.min_eq_left (by omega)]
      simp
    rw [hres] at this
    refine ⟨_, this, ?_, fun _ => rfl⟩
    intro hall
    exact absurd (hall k e x hk hx) hne

theorem persist_currentTerm (rf : Raft) : (persist rf).currentTerm = rf.currentTerm := rfl
theorem persist_votedFor (rf : Raft) : (persist rf).votedFor = rf.votedFor := rfl
theorem persist_state (rf : Raft) : (persist rf).state = rf.state := rfl
theorem persist_log (rf : Raft) : (persist rf).log = rf.log := rfl
theorem persist_firstIndex (rf : Raft) : (persist rf).firstIndex = rf.firstIndex := rfl
theorem persist_commitIndex (rf : Raft) : (persist rf).commitIndex = rf.commitIndex := rfl
theorem persist_lastApplied (rf : Raft) : (persist rf).lastApplied = rf.lastApplied := rfl

theorem adoptTerm_log (rf : Raft) (args : AppendEntriesArgs) :
    (adoptTerm rf args).log = rf.log ∧ (adoptTerm rf args).firstIndex = rf.firstIndex ∧
    (adoptTerm rf args).commitIndex = rf.commitIndex ∧
    (adoptTerm rf args).lastApplied = rf.lastApplied := by
  unfold adoptTerm
  split <;> exact ⟨rfl, rfl, rfl, rfl⟩

theorem adoptTerm_currentTerm (rf : Raft) (args : AppendEntriesArgs) :
    (adoptTerm rf args).currentTerm = if args.Term ≥ rf.currentTerm then args.Term
      else rf.currentTerm := by
  unfold adoptTerm
  split <;> rfl

theorem adoptTerm_votedFor (rf : Raft) (args : AppendEntriesArgs) :
    (adoptTerm rf args).votedFor = if args.Term > rf.currentTerm then -1 else rf.votedFor := by
  unfold adoptTerm
  by_cases h : args.Term ≥ rf.currentTerm
  · rw [if_pos h]
  · rw [if_neg h, if_neg (by omega)]

/-- The merge block changes only `log` and `lastNewEntry`. -/
theorem mergeBlock_frame (rf rf1 : Raft) (args : AppendEntriesArgs)
    (h : mergeBlock rf args = some rf1) :
    rf1.currentTerm = rf.currentTerm ∧ rf1.votedFor = rf.votedFor ∧ rf1.state = rf.state ∧
    rf1.firstIndex = rf.firstIndex ∧ rf1.commitIndex = rf.commitIndex ∧
    rf1.lastApplied = rf.lastApplied := by
  unfold mergeBlock at h
  split at h
  · cases h; exact ⟨rfl, rfl, rfl, rfl, rfl, rfl⟩
  · split at h
    · dsimp only at h
      split at h
      · cases h
      · cases h; exact ⟨rfl, rfl, rfl, rfl, rfl, rfl⟩
    · cases h; exact ⟨rfl, rfl, rfl, rfl, rfl, rfl⟩

/-- What the accepting part of `AppendEntries` leaves, in terms of the state left
by the merge block. -/
theorem appendEntriesAccept_spec (rf rf2 : Raft) (args : AppendEntriesArgs)
    (reply : AppendEntriesReply) (msgs : List ApplyMsg)
    (h : appendEntriesAccept rf args = some (rf2, reply, msgs)) :
    ∃ rf1, mergeBlock rf args = some rf1 ∧ rf2.log = rf1.log ∧
      rf2.firstIndex = rf.firstIndex ∧ rf2.currentTerm = rf.currentTerm ∧
      rf2.votedFor = rf.votedFor ∧ rf2.state = rf.state ∧
      reply.Success = true ∧ reply.Term = rf.currentTerm ∧
      rf2.commitIndex =
        (if args.LeaderCommit > rf.commitIndex then
          min args.LeaderCommit (rf.firstIndex + (rf1.log.length : Int) - 1)
        else rf.commitIndex) := by
  unfold appendEntriesAccept at h
  cases hm : mergeBlock rf args with
  | none => rw [hm] at h; cases h
  | some rf1 =>
    rw [hm] at h
    obtain ⟨f1, f2, f3, f4, f5, f6⟩ := mergeBlock_frame rf rf1 args hm
    refine ⟨rf1, rfl, ?_⟩
    simp only at h
    by_cases hc : args.LeaderCommit > rf1.commitIndex
    · simp only [hc, if_true] at h
      have hc2 : args.LeaderCommit > rf.commitIndex := by rw [← f5]; exact hc
      rw [if_pos hc2]
      split at h
      · split at h
        · cases h
        · cases h
          simp [f1, f2, f3, f4, persist_log, persist_firstIndex, persist_currentTerm, persist_votedFor, persist_state,
            persist_commitIndex]
      · cases h
        simp [f1, f2, f3, f4, persist_log, persist_firstIndex, persist_currentTerm, persist_votedFor, persist_state,
            persist_commitIndex]
    · simp only [hc, if_false] at h
      have hc2 : ¬ args.LeaderCommit > rf.commitIndex := by rw [← f5]; exact hc
      rw [if_neg hc2]
      split at h
      · split at h
        · cases h
        · cases h
          simp [f1, f2, f3, f4, f5, persist_log, persist_firstIndex, persist_currentTerm, persist_votedFor, persist_state,
            persist_commitIndex]
      · cases h
        simp [f1, f2, f3, f4, f5, persist_log, persist_firstIndex, persist_currentTerm, persist_votedFor, persist_state,
            persist_commitIndex]

/-- A successful `AppendEntries` is not stale, passed the predecessor check, and
is the accepting part run on the state left by the term update. -/
theorem AppendEntries_success (rf rf2 : Raft) (args : AppendEntriesArgs)
    (reply : AppendEntriesReply) (msgs : List ApplyMsg)
    (h : AppendEntries rf args = some (rf2, reply, msgs)) (hs : reply.Success = true) :
    args.Term ≥ rf.currentTerm ∧
    appendEntriesAccept (adoptTerm rf args) args = some (rf2, reply, msgs) ∧
    (args.PrevLogIndex ≥ rf.firstIndex →
      args.PrevLogIndex < (rf.log.length : Int) + rf.firstIndex ∧
      ∃ e, index rf.log (args.PrevLogIndex - rf.firstIndex) = some e ∧
        e.Term = args.PrevLogTerm) := by
  unfold AppendEntries at h
  by_cases hst : args.Term < rf.currentTerm
  · rw [if_pos hst] at h
    cases h
    cases hs
  · rw [if_neg hst] at h
    refine ⟨by omega, ?_⟩
    unfold appendEntriesResume appendEntriesLog at h
    obtain ⟨l1, l2, -, -⟩ := adoptTerm_log rf args
    rw [l1, l2] at h
    by_cases hp : args.PrevLogIndex ≥ rf.firstIndex
    · rw [if_pos hp] at h
      by_cases hp2 : args.PrevLogIndex ≥ (rf.log.length : Int) + rf.firstIndex
      · rw [if_pos hp2] at h
        cases h
        cases hs
      · rw [if_neg hp2] at h
        cases hi : index rf.log (args.PrevLogIndex - rf.firstIndex) with
        | none => rw [hi] at h; cases h
        | some e =>
          rw [hi] at h
          simp only at h
          by_cases ht : e.Term ≠ args.PrevLogTerm
          · rw [if_pos ht] at h
            split at h
            · cases h
            · cases h
              cases hs
          · rw [if_neg ht] at h
            exact ⟨h, fun _ => ⟨by omega, e, rfl, not_not.1 ht⟩⟩
    · rw [if_neg hp] at h
      exact ⟨h, fun hc => absurd hc hp⟩

theorem mergeEntries_shape (log entries : List Entry) (b : Nat) (hb : b ≤ log.length) :
    ∃ log2 tl, mergeEntries log (b : Int) entries = some log2 ∧
      log2 = log.take b ++ entries ++ tl ∧
      ((∀ k e x, entries[k]? = some e → log[b + k]? = some x → x.Term = e.Term) →
        tl = log.drop (b + entries.length)) ∧
      ((∃ k e x, entries[k]? = some e ∧ log[b + k]? = some x ∧ x.Term ≠ e.Term) → tl = []) := by
  obtain ⟨log2, h, hno, hyes⟩ := mergeEntries_eq log entries b hb
  by_cases hc : ∃ k e x, entries[k]? = some e ∧ log[b + k]? = some x ∧ x.Term ≠ e.Term
  · refine ⟨log2, [], h, by rw [hyes hc]; simp, ?_, fun _ => rfl⟩
    intro hall
    obtain ⟨k, e, x, hk, hx, hne⟩ := hc
    exact absurd (hall k e x hk hx) hne
  · have hall : ∀ k e x, entries[k]? = some e → log[b + k]? = some x → x.Term = e.Term := by
      intro k e x hk hx
      by_contra hne
      exact hc ⟨k, e, x, hk, hx, hne⟩
    exact ⟨log2, log.drop (b + entries.length), h, hno hall, fun _ => rfl,
      fun h2 => absurd h2 hc⟩

/-- The log left by the merge block of an accepted request with
`firstIndex ≤ PrevLogIndex`, with `b = PrevLogIndex + 1 - firstIndex`. -/
theorem mergeBlock_log (rf : Raft) (args : AppendEntriesArgs) (entries : List Entry)
    (he : args.Entries = some entries) (h1 : rf.firstIndex ≤ args.PrevLogIndex)
    (h2 : args.PrevLogIndex < (rf.log.length : Int) + rf.firstIndex) :
    ∃ rf1 tl, mergeBlock rf args = some rf1 ∧
      rf1.log = rf.log.take (args.PrevLogIndex + 1 - rf.firstIndex).toNat ++ entries ++ tl ∧
      ((∀ k e x, entries[k]? = some e →
          rf.log[(args.PrevLogIndex + 1 - rf.firstIndex).toNat + k]? = some x →
          x.Term = e.Term) →
        tl = rf.log.drop ((args.PrevLogIndex + 1 - rf.firstIndex).toNat + entries.length)) ∧
      ((∃ k e x, entries[k]? = some e ∧
          rf.log[(args.PrevLogIndex + 1 - rf.firstIndex).toNat + k]? = some x ∧
          x.Term ≠ e.Term) → tl = []) := by
  have hb : (args.PrevLogIndex + 1 - rf.firstIndex).toNat ≤ rf.log.length := by omega
  obtain ⟨log2, tl, hm, hshape, hno, hyes⟩ := mergeEntries_shape rf.log entries _ hb
  have hcast : (((args.PrevLogIndex + 1 - rf.firstIndex).toNat : Nat) : Int)
      = args.PrevLogIndex + 1 - rf.firstIndex := by omega
  rw [hcast] at hm
  unfold mergeBlock
  rw [he]
  simp only [ge_iff_le, h1, if_true, hm]
  exact ⟨_, tl, rfl, hshape, hno, hyes⟩

theorem entryAt_eq (rf : Raft) (i : Int) (h : rf.firstIndex ≤ i) :
    entryAt rf i = rf.log[(i - rf.firstIndex).toNat]? := by
  unfold entryAt index
  rw [if_neg (by omega)]

theorem entryAt_below (rf : Raft) (i : Int) (h : i < rf.firstIndex) : entryAt rf i = none := by
  unfold entryAt index
  rw [if_pos (by omega)]

/-- C5: an accepted `AppendEntries` with entries and `baseIndex ≤ prevLogIndex`
(acceptance then gives `prevLogIndex ≤ lastIndex` and the matching predecessor
term, see `AppendEntries_success`) leaves every entry at an index `≤ prevLogIndex`
as it was, stores `entries[k]` at index `prevLogIndex + 1 + k` for every `k <
len(entries)`, and, if some existing entry differs in term from the incoming entry
at its index, ends with `lastIndex = prevLogIndex + len(entries)`. -/
theorem AppendEntries_merge (rf rf2 : Raft) (args : AppendEntriesArgs)
    (reply : AppendEntriesReply) (msgs : List ApplyMsg) (entries : List Entry)
    (h : AppendEntries rf args = some (rf2, reply, msgs)) (hs : reply.Success = true)
    (he : args.Entries = some entries) (h1 : rf.firstIndex ≤ args.PrevLogIndex) :
    (∀ i, i ≤ args.PrevLogIndex → entryAt rf2 i = entryAt rf i) ∧
    (∀ (k : Nat) (e : Entry), entries[k]? = some e →
      entryAt rf2 (args.PrevLogIndex + 1 + (k : Int)) = some e) ∧
    ((∃ (k : Nat) (e x : Entry), entries[k]? = some e ∧
        entryAt rf (args.PrevLogIndex + 1 + (k : Int)) = some x ∧
        x.Term ≠ e.Term) →
      lastIndex rf2 = args.PrevLogIndex + (entries.length : Int)) := by
  obtain ⟨_, hacc, hprev⟩ := AppendEntries_success rf rf2 args reply msgs h hs
  obtain ⟨hp, _⟩ := hprev h1
  obtain ⟨l1, l2, -, -⟩ := adoptTerm_log rf args
  obtain ⟨rf1, hm, hlog, hfirst, -⟩ := appendEntriesAccept_spec _ rf2 args reply msgs hacc
  obtain ⟨rf1', tl, hm', hshape, -, hyes⟩ :=
    mergeBlock_log (adoptTerm rf args) args entries he (by rw [l2]; exact h1)
      (by rw [l1, l2]; exact hp)
  rw [hm] at hm'
  cases hm'
  rw [l1, l2] at hshape hyes
  rw [l2] at hfirst
  have hbl : (args.PrevLogIndex + 1 - rf.firstIndex).toNat ≤ rf.log.length := by omega
  have htk : (List.take (args.PrevLogIndex + 1 - rf.firstIndex).toNat rf.log).length
      = (args.PrevLogIndex + 1 - rf.firstIndex).toNat := by
    rw [List.length_take]; omega
  refine ⟨?_, ?_, ?_⟩
  · intro i hi
    by_cases hlow : i < rf.firstIndex
    · rw [entryAt_below rf i hlow, entryAt_below rf2 i (by rw [hfirst]; exact hlow)]
    · rw [entryAt_eq rf i (by omega), entryAt_eq rf2 i (by rw [hfirst]; omega), hfirst, hlog,
        hshape, List.append_assoc,
        List.getElem?_append_left (by rw [htk]; omega),
        List.getElem?_take_of_lt (by omega)]
  · intro k e hk
    have hk2 : k < entries.length := by
      by_contra hc
      rw [List.getElem?_eq_none (by omega)] at hk
      cases hk
    have hidx : (args.PrevLogIndex + 1 + (k : Int) - rf.firstIndex).toNat
        = (args.PrevLogIndex + 1 - rf.firstIndex).toNat + k := by omega
    rw [entryAt_eq rf2 _ (by rw [hfirst]; omega), hfirst, hlog, hshape, hidx,
      List.getElem?_append_left (by rw [List.length_append, htk]; omega),
      List.getElem?_append_right (by rw [htk]; omega), htk, Nat.add_sub_cancel_left]
    exact hk
  · rintro ⟨k, e, x, hk, hx, hne2⟩
    have hidx : (args.PrevLogIndex + 1 + (k : Int) - rf.firstIndex).toNat
        = (args.PrevLogIndex + 1 - rf.firstIndex).toNat + k := by omega
    rw [entryAt_eq rf _ (by omega), hidx] at hx
    have htl := hyes ⟨k, e, x, hk, hx, hne2⟩
    subst htl
    unfold lastIndex
    rw [hfirst, hlog, hshape]
    simp only [List.append_nil, List.length_append, htk]
    push_cast
    omega

theorem min_eq (x y : Int) : raft.min x y = Min.min x y := by
  unfold raft.min
  split
  · rw [min_eq_left (le_of_lt ‹x < y›)]
  · rw [min_eq_right (by omega)]

theorem mergeBlock_skip (rf : Raft) (args : AppendEntriesArgs)
    (h : args.Entries = none ∨ args.PrevLogIndex < rf.firstIndex) :
    mergeBlock rf args = some rf := by
  unfold mergeBlock
  rcases h with h | h
  · rw [h]
  · cases args.Entries with
    | none => rfl
    | some es =>
      simp only
      rw [if_neg (by omega)]

/-- C10: an accepted `AppendEntries` with `args.LeaderCommit > commitIndex` leaves
`commitIndex = min(args.LeaderCommit, lastIndex)` for the log after the merge;
otherwise it leaves `commitIndex` as it was. -/
theorem AppendEntries_commitIndex (rf rf2 : Raft) (args : AppendEntriesArgs)
    (reply : AppendEntriesReply) (msgs : List ApplyMsg)
    (h : AppendEntries rf args = some (rf2, reply, msgs)) (hs : reply.Success = true) :
    (args.LeaderCommit > rf.commitIndex →
      rf2.commitIndex = Min.min args.LeaderCommit (lastIndex rf2)) ∧
    (¬ args.LeaderCommit > rf.commitIndex → rf2.commitIndex = rf.commitIndex) := by
  obtain ⟨_, hacc, _⟩ := AppendEntries_success rf rf2 args reply msgs h hs
  obtain ⟨-, l2, l3, -⟩ := adoptTerm_log rf args
  obtain ⟨rf1, _, hlog, hfirst, -, -, -, -, -, hci⟩ :=
    appendEntriesAccept_spec _ rf2 args reply msgs hacc
  rw [l2, l3] at hci
  rw [l2] at hfirst
  constructor
  · intro hgt
    rw [hci, if_pos hgt, min_eq]
    unfold lastIndex
    rw [hfirst, hlog]
  · intro hle
    rw [hci, if_neg hle]

/-- What the code does on an accepted `AppendEntries` in which every existing
entry at an index covered by the incoming entries has the term of the incoming
entry at that index: every entry at an index greater than `prevLogIndex +
len(entries)` is left as it was; with `baseIndex ≤ prevLogIndex` the handler
leaves `lastIndex = max(old lastIndex, prevLogIndex + len(entries))`, and with
`prevLogIndex < baseIndex` the merge block does not run and the log, and so
`lastIndex`, is as it was. -/
theorem AppendEntries_no_truncation (rf rf2 : Raft) (args : AppendEntriesArgs)
    (reply : AppendEntriesReply) (msgs : List ApplyMsg)
    (h : AppendEntries rf args = some (rf2, reply, msgs)) (hs : reply.Success = true)
    (hmatch : ∀ (k : Nat) (e x : Entry), (args.Entries.getD [])[k]? = some e →
      entryAt rf (args.PrevLogIndex + 1 + (k : Int)) = some x → x.Term = e.Term) :
    (∀ i, i > args.PrevLogIndex + ((args.Entries.getD []).length : Int) →
      entryAt rf2 i = entryAt rf i) ∧
    (rf.firstIndex ≤ args.PrevLogIndex →
      lastIndex rf2 =
        Max.max (lastIndex rf) (args.PrevLogIndex + ((args.Entries.getD []).length : Int))) ∧
    (args.PrevLogIndex < rf.firstIndex → rf2.log = rf.log ∧ lastIndex rf2 = lastIndex rf) := by
  obtain ⟨_, hacc, hprev⟩ := AppendEntries_success rf rf2 args reply msgs h hs
  obtain ⟨l1, l2, -, -⟩ := adoptTerm_log rf args
  obtain ⟨rf1, hm, hlog, hfirst, -⟩ := appendEntriesAccept_spec _ rf2 args reply msgs hacc
  rw [l2] at hfirst
  -- the requests that skip the merge
  have hskip : (args.Entries = none ∨ args.PrevLogIndex < rf.firstIndex) → rf2.log = rf.log := by
    intro hc
    rw [mergeBlock_skip _ args (by rw [l2]; exact hc)] at hm
    cases hm
    rw [hlog, l1]
  have hsame : rf2.log = rf.log → (∀ i, entryAt rf2 i = entryAt rf i) ∧
      lastIndex rf2 = lastIndex rf := by
    intro hl
    refine ⟨fun i => ?_, ?_⟩
    · unfold entryAt; rw [hl, hfirst]
    · unfold lastIndex; rw [hl, hfirst]
  by_cases hlow : args.PrevLogIndex < rf.firstIndex
  · have hl := hskip (Or.inr hlow)
    exact ⟨fun i _ => (hsame hl).1 i, fun hc => absurd hlow (by omega), fun _ => ⟨hl, (hsame hl).2⟩⟩
  · have h1 : rf.firstIndex ≤ args.PrevLogIndex := by omega
    obtain ⟨hp, _⟩ := hprev h1
    cases he : args.Entries with
    | none =>
      have hl := hskip (Or.inl he)
      refine ⟨fun i _ => (hsame hl).1 i, fun _ => ?_, fun hc => absurd hc hlow⟩
      rw [(hsame hl).2]
      simp only [Option.getD_none, List.length_nil, Nat.cast_zero, add_zero]
      unfold lastIndex
      rw [max_eq_left (by omega)]
    | some entries =>
      rw [he] at hmatch
      simp only [Option.getD_some] at hmatch ⊢
      obtain ⟨rf1', tl, hm', hshape, hno, -⟩ :=
        mergeBlock_log (adoptTerm rf args) args entries he (by rw [l2]; exact h1)
          (by rw [l1, l2]; exact hp)
      rw [hm] at hm'
      cases hm'
      rw [l1, l2] at hshape hno
      have hbl : (args.PrevLogIndex + 1 - rf.firstIndex).toNat ≤ rf.log.length := by omega
      have htk : (List.take (args.PrevLogIndex + 1 - rf.firstIndex).toNat rf.log).length
          = (args.PrevLogIndex + 1 - rf.firstIndex).toNat := by
        rw [List.length_take]; omega
      have htl := hno (by
        intro k e x hk hx
        apply hmatch k e x hk
        have hidx : (args.PrevLogIndex + 1 + (k : Int) - rf.firstIndex).toNat
            = (args.PrevLogIndex + 1 - rf.firstIndex).toNat + k := by omega
        rw [entryAt_eq rf _ (by omega), hidx]
        exact hx)
      subst htl
      refine ⟨?_, fun _ => ?_, fun hc => absurd hc hlow⟩
      · intro i hi
        have hidx : (i - rf.firstIndex).toNat
            = (args.PrevLogIndex + 1 - rf.firstIndex).toNat + entries.length +
              ((i - rf.firstIndex).toNat -
                ((args.PrevLogIndex + 1 - rf.firstIndex).toNat + entries.length)) := by omega
        rw [entryAt_eq rf2 i (by rw [hfirst]; omega), entryAt_eq rf i (by omega), hfirst, hlog,
          hshape,
          List.getElem?_append_right (by rw [List.length_append, htk]; omega),
          List.length_append, htk, List.getElem?_drop]
        congr 1
        omega
      · unfold lastIndex
        rw [hfirst, hlog, hshape]
        simp only [List.length_append, htk, List.length_drop]
        rcases le_total (lastIndex rf) (args.PrevLogIndex + (entries.length : Int)) with hc | hc
        · rw [max_eq_right (by unfold lastIndex at hc; exact hc)]
          unfold lastIndex at hc
          push_cast
          omega
        · rw [max_eq_left (by unfold lastIndex at hc; exact hc)]
          unfold lastIndex at hc
          push_cast
          omega

theorem walkBack_spec (log : List Entry) (t : Int) :
    ∀ n : Nat, n ≤ log.length → ∃ i : Int, walkBack log t n = some i ∧ -1 ≤ i ∧ i < (n : Int) ∧
      (∀ k : Nat, i < (k : Int) → k < n → ∃ x, log[k]? = some x ∧ x.Term = t) ∧
      (i = -1 ∨ ∃ x, index log i = some x ∧ x.Term ≠ t) := by
  intro n
  induction n with
  | zero =>
    intro _
    exact ⟨-1, rfl, le_refl _, by simp, by intro k _ hk; omega, Or.inl rfl⟩
  | succ n ih =>
    intro hn
    unfold walkBack
    have hx : index log (n : Int) = some log[n] := by
      rw [index_natCast]; exact List.getElem?_eq_getElem (by omega)
    rw [hx]
    simp only
    by_cases hne : log[n].Term ≠ t
    · rw [if_pos hne]
      refine ⟨(n : Int), rfl, by omega, by push_cast; omega, ?_, Or.inr ⟨log[n], hx, hne⟩⟩
      intro k hk1 hk2
      omega
    · rw [if_neg hne]
      obtain ⟨i, h1, h2, h3, h4, h5⟩ := ih (by omega)
      refine ⟨i, h1, h2, by push_cast; omega, ?_, h5⟩
      intro k hk1 hk2
      by_cases hkn : k = n
      · subst hkn
        exact ⟨log[k], List.getElem?_eq_getElem (by omega), not_not.1 hne⟩
      · exact h4 k hk1 (by omega)

/-- C8: for a non-stale `AppendEntries` with `prevLogIndex ≥ baseIndex`: if
`prevLogIndex > lastIndex` the reply is `Success = false` with `ConflictIndex =
lastIndex + 1`; otherwise the log has an entry at `prevLogIndex`, and if its term
`t` differs from `prevLogTerm` the reply is `Success = false` with `ConflictIndex`
the lowest index `j`, `baseIndex ≤ j ≤ prevLogIndex`, such that every entry from `j`
to `prevLogIndex` has term `t` (so `j = baseIndex` or the entry at `j - 1` has
another term); in both cases the log is left as it was. -/
theorem AppendEntries_conflict (rf : Raft) (args : AppendEntriesArgs)
    (hns : args.Term ≥ rf.currentTerm) (hp : args.PrevLogIndex ≥ rf.firstIndex) :
    (args.PrevLogIndex > lastIndex rf →
      ∃ rf2 reply, AppendEntries rf args = some (rf2, reply, []) ∧ reply.Success = false ∧
        reply.ConflictIndex = lastIndex rf + 1 ∧ rf2.log = rf.log) ∧
    (args.PrevLogIndex ≤ lastIndex rf →
      ∃ e, entryAt rf args.PrevLogIndex = some e ∧
        (e.Term ≠ args.PrevLogTerm →
          ∃ rf2 reply, AppendEntries rf args = some (rf2, reply, []) ∧ reply.Success = false ∧
            rf2.log = rf.log ∧
            rf.firstIndex ≤ reply.ConflictIndex ∧ reply.ConflictIndex ≤ args.PrevLogIndex ∧
            (∀ i, reply.ConflictIndex ≤ i → i ≤ args.PrevLogIndex →
              ∃ x, entryAt rf i = some x ∧ x.Term = e.Term) ∧
            (∀ j, rf.firstIndex ≤ j → j ≤ args.PrevLogIndex →
              (∀ i, j ≤ i → i ≤ args.PrevLogIndex →
                ∃ x, entryAt rf i = some x ∧ x.Term = e.Term) →
              reply.ConflictIndex ≤ j) ∧
            (reply.ConflictIndex = rf.firstIndex ∨
              ∃ x, entryAt rf (reply.ConflictIndex - 1) = some x ∧ x.Term ≠ e.Term))) := by
  obtain ⟨l1, l2, -, -⟩ := adoptTerm_log rf args
  have hst : ¬ args.Term < rf.currentTerm := by omega
  constructor
  · intro hgt
    unfold lastIndex at hgt
    unfold AppendEntries appendEntriesResume appendEntriesLog
    have hge : args.PrevLogIndex ≥ (rf.log.length : Int) + rf.firstIndex := by omega
    rw [if_neg hst, l1, l2, if_pos hp, if_pos hge]
    refine ⟨_, _, rfl, rfl, ?_, by rw [persist_log, l1]⟩
    unfold lastIndex
    simp only
    omega
  · intro hle
    unfold lastIndex at hle
    have hlt : (args.PrevLogIndex - rf.firstIndex).toNat < rf.log.length := by omega
    have he : entryAt rf args.PrevLogIndex
        = some rf.log[(args.PrevLogIndex - rf.firstIndex).toNat] := by
      rw [entryAt_eq rf _ hp]; exact List.getElem?_eq_getElem hlt
    refine ⟨_, he, ?_⟩
    intro hne
    have hidx : index rf.log (args.PrevLogIndex - rf.firstIndex)
        = some rf.log[(args.PrevLogIndex - rf.firstIndex).toNat] := he
    have hcast : (((args.PrevLogIndex - rf.firstIndex + 1).toNat : Nat) : Int)
        = args.PrevLogIndex - rf.firstIndex + 1 := Int.toNat_of_nonneg (by omega)
    have hwl : (args.PrevLogIndex - rf.firstIndex + 1).toNat ≤ rf.log.length := by omega
    obtain ⟨i, hw, hi1, hi2, hall, hbrk⟩ :=
      walkBack_spec rf.log rf.log[(args.PrevLogIndex - rf.firstIndex).toNat].Term
        (args.PrevLogIndex - rf.firstIndex + 1).toNat hwl
    rw [hcast] at hi2
    -- the walk leaves the position of the predecessor
    have hi3 : i ≠ args.PrevLogIndex - rf.firstIndex := by
      intro hc
      rcases hbrk with hb | ⟨x, hx, hxt⟩
      · omega
      · rw [hc, hidx] at hx
        cases hx
        exact hxt rfl
    unfold AppendEntries appendEntriesResume appendEntriesLog
    have hnge : ¬ args.PrevLogIndex ≥ (rf.log.length : Int) + rf.firstIndex := by omega
    rw [if_neg hst, l1, l2, if_pos hp, if_neg hnge, hidx]
    simp only
    rw [if_pos hne, hw]
    refine ⟨_, _, rfl, rfl, by rw [persist_log, l1], ?_, ?_, ?_, ?_, ?_⟩
    · simp only; omega
    · simp only; omega
    · intro j hj1 hj2
      simp only at hj1
      obtain ⟨x, hx, hxt⟩ := hall (j - rf.firstIndex).toNat (by omega) (by omega)
      exact ⟨x, by rw [entryAt_eq rf j (by omega)]; exact hx, hxt⟩
    · intro j hj1 hj2 hj3
      simp only
      by_contra hc
      rcases hbrk with hb | ⟨x, hx, hxt⟩
      · omega
      · obtain ⟨y, hy, hyt⟩ := hj3 (i + rf.firstIndex) (by omega) (by omega)
        unfold entryAt at hy
        rw [show i + rf.firstIndex - rf.firstIndex = i by omega, hx] at hy
        cases hy
        exact hxt hyt
    · simp only
      rcases hbrk with hb | ⟨x, hx, hxt⟩
      · left; omega
      · right
        refine ⟨x, ?_, hxt⟩
        unfold entryAt
        rw [show i + 1 + rf.firstIndex - 1 - rf.firstIndex = i by omega]
        exact hx

theorem applyLoop_some (log : List Entry) (firstIndex : Int) :
    ∀ (n : Nat) (i : Int), firstIndex ≤ i → i + (n : Int) ≤ firstIndex + (log.length : Int) →
      ∃ ms, applyLoop log firstIndex i n = some ms := by
  intro n
  induction n with
  | zero => intro i _ _; exact ⟨[], rfl⟩
  | succ n ih =>
    intro i h1 h2
    unfold applyLoop
    have hlt : (i - firstIndex).toNat < log.length := by push_cast at h2; omega
    have hx : index log (i - firstIndex) = some log[(i - firstIndex).toNat] := by
      unfold index
      rw [if_neg (by omega)]
      exact List.getElem?_eq_getElem hlt
    obtain ⟨ms, hms⟩ := ih (i + 1) (by omega) (by push_cast at h2; omega)
    rw [hx, hms]
    exact ⟨_, rfl⟩

/-- The accepting part of `AppendEntries` returns when the merge block does and
the delivery loop reads inside the log. -/
theorem appendEntriesAccept_some (rf rf1 : Raft) (args : AppendEntriesArgs)
    (hm : mergeBlock rf args = some rf1)
    (h1 : rf.firstIndex ≤ rf.lastApplied + 1)
    (h2 : rf.commitIndex ≤ rf.firstIndex + (rf1.log.length : Int) - 1) :
    ∃ rf2 reply msgs, appendEntriesAccept rf args = some (rf2, reply, msgs) := by
  obtain ⟨-, -, -, f4, f5, f6⟩ := mergeBlock_frame rf rf1 args hm
  unfold appendEntriesAccept
  rw [hm]
  simp only
  by_cases hlc : args.LeaderCommit > rf1.commitIndex
  · simp only [hlc, if_true]
    by_cases hc : raft.min args.LeaderCommit (rf1.firstIndex + (rf1.log.length : Int) - 1)
        > rf1.lastApplied
    · rw [if_pos hc]
      have hle := min_le_right args.LeaderCommit (rf1.firstIndex + (rf1.log.length : Int) - 1)
      rw [← min_eq] at hle
      obtain ⟨ms, hms⟩ := applyLoop_some rf1.log rf1.firstIndex
        (raft.min args.LeaderCommit (rf1.firstIndex + (rf1.log.length : Int) - 1)
          - rf1.lastApplied).toNat (rf1.lastApplied + 1) (by omega) (by omega)
      rw [hms]
      exact ⟨_, _, _, rfl⟩
    · rw [if_neg hc]
      exact ⟨_, _, _, rfl⟩
  · simp only [hlc, if_false]
    by_cases hc : rf1.commitIndex > rf1.lastApplied
    · rw [if_pos hc]
      obtain ⟨ms, hms⟩ := applyLoop_some rf1.log rf1.firstIndex
        (rf1.commitIndex - rf1.lastApplied).toNat (rf1.lastApplied + 1) (by omega) (by omega)
      rw [hms]
      exact ⟨_, _, _, rfl⟩
    · rw [if_neg hc]
      exact ⟨_, _, _, rfl⟩

/-- What the code does on a non-stale `AppendEntries` with `prevLogIndex <
baseIndex`: it accepts as though the predecessor matched, and the merge block
does not run: whenever the handler returns it replies `Success = true` and has
left the log and `baseIndex` as they were, so that an entry is in the log
afterwards only where it was before; and the handler returns whenever `baseIndex
≤ lastApplied + 1` and `commitIndex ≤ lastIndex`, which keep the delivery loop
inside the log. -/
theorem AppendEntries_below_snapshot (rf : Raft) (args : AppendEntriesArgs)
    (hns : args.Term ≥ rf.currentTerm) (hp : args.PrevLogIndex < rf.firstIndex) :
    (∀ rf2 reply msgs, AppendEntries rf args = some (rf2, reply, msgs) →
      reply.Success = true ∧ rf2.log = rf.log ∧ rf2.firstIndex = rf.firstIndex ∧
      ∀ i, entryAt rf2 i = entryAt rf i) ∧
    (rf.firstIndex ≤ rf.lastApplied + 1 → rf.commitIndex ≤ lastIndex rf →
      ∃ rf2 reply msgs, AppendEntries rf args = some (rf2, reply, msgs)) := by
  obtain ⟨l1, l2, l3, l4⟩ := adoptTerm_log rf args
  have hst : ¬ args.Term < rf.currentTerm := by omega
  have hnp : ¬ args.PrevLogIndex ≥ rf.firstIndex := by omega
  have hAE : AppendEntries rf args = appendEntriesAccept (adoptTerm rf args) args := by
    unfold AppendEntries appendEntriesResume appendEntriesLog
    rw [if_neg hst, l2, if_neg hnp]
  have hm : mergeBlock (adoptTerm rf args) args = some (adoptTerm rf args) :=
    mergeBlock_skip _ args (Or.inr (by rw [l2]; exact hp))
  constructor
  · intro rf2 reply msgs h
    rw [hAE] at h
    obtain ⟨rf1, hm1, hlog, hfirst, -, -, -, hsucc, -⟩ :=
      appendEntriesAccept_spec _ rf2 args reply msgs h
    rw [hm] at hm1
    cases hm1
    rw [l1] at hlog
    rw [l2] at hfirst
    refine ⟨hsucc, hlog, hfirst, fun i => ?_⟩
    unfold entryAt
    rw [hlog, hfirst]
  · intro h1 h2
    rw [hAE]
    unfold lastIndex at h2
    exact appendEntriesAccept_some _ _ args hm (by rw [l2, l4]; exact h1)
      (by rw [l1, l2, l3]; exact h2)

/-! ## Witnesses at the scenarios of the spec -/

/-- Scenario S6 for C1: the voter with last entry (term 3, index 4) has a non-empty
log and grants its vote to candidate A (last term 3, last index 5). -/
theorem RequestVote_grant_iff_witness :
    s6Voter.log ≠ [] ∧
    ∃ rf2 reply, RequestVote s6Voter s6ArgsA = some (rf2, reply) ∧
      reply.VoteGranted = true ∧ rf2.votedFor = 0 ∧ reply.Term = 4 := by
  obtain ⟨rf2, reply, h, hiff, hg⟩ := RequestVote_grant_iff s6Voter s6ArgsA (by decide)
  have hgr : reply.VoteGranted = true := hiff.2 (by decide)
  have hterm : rf2.currentTerm = 4 := by
    have hc : (RequestVote s6Voter s6ArgsA).map (fun r => r.1.currentTerm) = some 4 := by decide
    rw [h] at hc
    simpa using hc
  exact ⟨by decide, rf2, reply, h, hgr, (hg hgr).1, by rw [(hg hgr).2, hterm]⟩

/-- Scenario S3 for C5: the follower `[sentinel, 10, 11, 12]` accepts the entry of
term 2 for index 2 behind index 1; index 1 keeps its entry, index 2 holds the new
entry, and the conflict at index 2 leaves `lastIndex = 2`. -/
theorem AppendEntries_merge_witness :
    ∃ rf2 reply msgs, AppendEntries s3Follower s3Args = some (rf2, reply, msgs) ∧
      reply.Success = true ∧ entryAt rf2 1 = some ⟨some 10, 1⟩ ∧
      entryAt rf2 2 = some ⟨some 13, 2⟩ ∧ lastIndex rf2 = 2 := by
  have hs : (AppendEntries s3Follower s3Args).map (fun r => r.2.1.Success) = some true := by
    decide
  cases h : AppendEntries s3Follower s3Args with
  | none => rw [h] at hs; cases hs
  | some r =>
    obtain ⟨rf2, reply, msgs⟩ := r
    rw [h] at hs
    have hs2 : reply.Success = true := by simpa using hs
    obtain ⟨hkeep, hnew, hlast⟩ :=
      AppendEntries_merge s3Follower rf2 s3Args reply msgs [⟨some 13, 2⟩] h hs2 rfl (by decide)
    refine ⟨rf2, reply, msgs, rfl, hs2, ?_, ?_, ?_⟩
    · rw [hkeep 1 (by decide)]; decide
    · exact hnew 0 _ rfl
    · exact hlast ⟨0, ⟨some 13, 2⟩, ⟨some 11, 1⟩, rfl, by decide, by decide⟩

/-- C6 (the code at the failing input): the follower stores `{11, term 1}` at
index 2 and receives, behind index 1, the entry `{99, term 1}` for index 2.  The
terms are equal and nothing conflicts, yet the handler accepts and leaves `{99,
term 1}` at index 2: the second loop of the merge starts from `0`, not from the
position the first loop reached, and overwrites the stored entry. -/
theorem AppendEntries_overwrites_matching :
    entryAt s3Follower 2 = some ⟨some 11, 1⟩ ∧
    s3Duplicate.Entries = some [⟨some 99, 1⟩] ∧
    ∃ rf2 reply msgs, AppendEntries s3Follower s3Duplicate = some (rf2, reply, msgs) ∧
      reply.Success = true ∧ entryAt rf2 2 = some ⟨some 99, 1⟩ ∧
      entryAt rf2 2 ≠ entryAt s3Follower 2 := by
  refine ⟨by decide, rfl, ?_⟩
  have hs : (AppendEntries s3Follower s3Duplicate).map
      (fun r => (r.2.1.Success, entryAt r.1 2)) = some (true, some ⟨some 99, 1⟩) := by decide
  cases h : AppendEntries s3Follower s3Duplicate with
  | none => rw [h] at hs; cases hs
  | some r =>
    obtain ⟨rf2, reply, msgs⟩ := r
    rw [h] at hs
    simp only [Option.map_some', Option.some.injEq, Prod.mk.injEq] at hs
    refine ⟨rf2, reply, msgs, rfl, hs.1, hs.2, ?_⟩
    rw [hs.2]
    decide

/-- The follower `compacted` (log compacted through index 5, sentinel of term 2)
accepts a request behind index 3 with four entries of term 2; the one existing
entry in the covered range, index 5, has the term of the incoming entry for
index 5; yet `lastIndex` stays 5, not `max(5, 3 + 4) = 7`. -/
theorem AppendEntries_no_truncation_counterexample :
    ∃ rf2 reply msgs, AppendEntries compacted behindSnapshot = some (rf2, reply, msgs) ∧
      reply.Success = true ∧
      (∀ (k : Nat) (e x : Entry), (behindSnapshot.Entries.getD [])[k]? = some e →
        entryAt compacted (behindSnapshot.PrevLogIndex + 1 + (k : Int)) = some x →
        x.Term = e.Term) ∧
      lastIndex rf2 ≠
        Max.max (lastIndex compacted)
          (behindSnapshot.PrevLogIndex + ((behindSnapshot.Entries.getD []).length : Int)) := by
  have hs : (AppendEntries compacted behindSnapshot).map
      (fun r => (r.2.1.Success, lastIndex r.1)) = some (true, 5) := by decide
  cases h : AppendEntries compacted behindSnapshot with
  | none => rw [h] at hs; cases hs
  | some r =>
    obtain ⟨rf2, reply, msgs⟩ := r
    rw [h] at hs
    simp only [Option.map_some', Option.some.injEq, Prod.mk.injEq] at hs
    refine ⟨rf2, reply, msgs, rfl, hs.1, ?_, ?_⟩
    · intro k e x hk hx
      have hk4 : k < 4 := by
        by_contra hc
        have : (behindSnapshot.Entries.getD [])[k]? = none :=
          List.getElem?_eq_none (by simp [behindSnapshot]; omega)
        rw [this] at hk
        cases hk
      interval_cases k
      · have hn : entryAt compacted (behindSnapshot.PrevLogIndex + 1 + ((0 : Nat) : Int))
            = none := by decide
        rw [hn] at hx
        cases hx
      · have e1 : e = ⟨some 25, 2⟩ := by
          have : (behindSnapshot.Entries.getD [])[1]? = some ⟨some 25, 2⟩ := by decide
          rw [this] at hk
          exact (Option.some.inj hk).symm
        have e2 : x = ⟨none, 2⟩ := by
          have : entryAt compacted (behindSnapshot.PrevLogIndex + 1 + ((1 : Nat) : Int))
              = some ⟨none, 2⟩ := by decide
          rw [this] at hx
          exact (Option.some.inj hx).symm
        rw [e1, e2]
      · have hn : entryAt compacted (behindSnapshot.PrevLogIndex + 1 + ((2 : Nat) : Int))
            = none := by decide
        rw [hn] at hx
        cases hx
      · have hn : entryAt compacted (behindSnapshot.PrevLogIndex + 1 + ((3 : Nat) : Int))
            = none := by decide
        rw [hn] at hx
        cases hx
    · rw [hs.2]
      decide

/-- Scenario S3 without a conflict: the follower `[sentinel, 10, 11, 12]` accepts
the duplicate for index 2; index 3 keeps its entry and `lastIndex` stays
`max(3, 1 + 1) = 3`. -/
theorem AppendEntries_no_truncation_witness :
    ∃ rf2 reply msgs, AppendEntries s3Follower s3Duplicate = some (rf2, reply, msgs) ∧
      reply.Success = true ∧ entryAt rf2 3 = some ⟨some 12, 1⟩ ∧ lastIndex rf2 = 3 := by
  have hs : (AppendEntries s3Follower s3Duplicate).map (fun r => r.2.1.Success) = some true := by
    decide
  cases h : AppendEntries s3Follower s3Duplicate with
  | none => rw [h] at hs; cases hs
  | some r =>
    obtain ⟨rf2, reply, msgs⟩ := r
    rw [h] at hs
    have hs2 : reply.Success = true := by simpa using hs
    have hmatch : ∀ (k : Nat) (e x : Entry), (s3Duplicate.Entries.getD [])[k]? = some e →
        entryAt s3Follower (s3Duplicate.PrevLogIndex + 1 + (k : Int)) = some x →
        x.Term = e.Term := by
      intro k e x hk hx
      have hk1 : k < 1 := by
        by_contra hc
        have : (s3Duplicate.Entries.getD [])[k]? = none :=
          List.getElem?_eq_none (by simp [s3Duplicate]; omega)
        rw [this] at hk
        cases hk
      interval_cases k
      have e1 : e = ⟨some 99, 1⟩ := by
        have : (s3Duplicate.Entries.getD [])[0]? = some ⟨some 99, 1⟩ := by decide
        rw [this] at hk
        exact (Option.some.inj hk).symm
      have e2 : x = ⟨some 11, 1⟩ := by
        have : entryAt s3Follower (s3Duplicate.PrevLogIndex + 1 + ((0 : Nat) : Int))
            = some ⟨some 11, 1⟩ := by decide
        rw [this] at hx
        exact (Option.some.inj hx).symm
      rw [e1, e2]
    obtain ⟨hbeyond, hmax, -⟩ :=
      AppendEntries_no_truncation s3Follower rf2 s3Duplicate reply msgs h hs2 hmatch
    refine ⟨rf2, reply, msgs, rfl, hs2, ?_, ?_⟩
    · rw [hbeyond 3 (by decide)]; decide
    · rw [hmax (by decide)]; decide

/-- C8 at scenario S3: the follower `[sentinel, 10, 11, 12]`, all of term 1, is
asked for term 2 at index 3; the request is not stale and `prevLogIndex ≥
baseIndex`; the reply is `Success = false` with `ConflictIndex = 1`, the first
index of the run of term-1 entries. -/
theorem AppendEntries_conflict_witness :
    s3Mismatch.Term ≥ s3Follower.currentTerm ∧
    s3Mismatch.PrevLogIndex ≥ s3Follower.firstIndex ∧
    ∃ rf2 reply, AppendEntries s3Follower s3Mismatch = some (rf2, reply, []) ∧
      reply.Success = false ∧ reply.ConflictIndex = 1 ∧ rf2.log = s3Follower.log := by
  refine ⟨by decide, by decide, ?_⟩
  obtain ⟨e, he, hrest⟩ :=
    (AppendEntries_conflict s3Follower s3Mismatch (by decide) (by decide)).2 (by decide)
  have he2 : entryAt s3Follower s3Mismatch.PrevLogIndex = some ⟨some 12, 1⟩ := by decide
  rw [he2] at he
  cases he
  obtain ⟨rf2, reply, h, hs, hlog, -⟩ := hrest (by decide)
  have hc : (AppendEntries s3Follower s3Mismatch).map (fun r => r.2.1.ConflictIndex)
      = some 1 := by decide
  rw [h] at hc
  exact ⟨rf2, reply, h, hs, by simpa using hc, hlog⟩

/-- The follower `compacted` (`baseIndex = 5`) gets a non-stale request behind
index 3 with the entries of the indices 4 to 7; it replies `Success = true`, and
the incoming entry of index 7, an index greater than `baseIndex`, is not in its
log afterwards. -/
theorem AppendEntries_below_snapshot_counterexample :
    behindSnapshot.Term ≥ compacted.currentTerm ∧
    behindSnapshot.PrevLogIndex < compacted.firstIndex ∧
    (behindSnapshot.Entries.getD [])[3]? = some ⟨some 27, 2⟩ ∧
    behindSnapshot.PrevLogIndex + 1 + 3 > compacted.firstIndex ∧
    ∃ rf2 reply msgs, AppendEntries compacted behindSnapshot = some (rf2, reply, msgs) ∧
      reply.Success = true ∧
      entryAt rf2 (behindSnapshot.PrevLogIndex + 1 + 3) ≠ some ⟨some 27, 2⟩ := by
  refine ⟨by decide, by decide, by decide, by decide, ?_⟩
  have hs : (AppendEntries compacted behindSnapshot).map
      (fun r => (r.2.1.Success, entryAt r.1 (behindSnapshot.PrevLogIndex + 1 + 3)))
      = some (true, none) := by decide
  cases h : AppendEntries compacted behindSnapshot with
  | none => rw [h] at hs; cases hs
  | some r =>
    obtain ⟨rf2, reply, msgs⟩ := r
    rw [h] at hs
    simp only [Option.map_some', Option.some.injEq, Prod.mk.injEq] at hs
    refine ⟨rf2, reply, msgs, rfl, hs.1, ?_⟩
    rw [hs.2]
    exact fun hc => by cases hc

/-- At `compacted` the request behind index 3 is not stale and `prevLogIndex <
baseIndex`; the handler returns, replies `Success = true` and leaves the log the
sentinel alone. -/
theorem AppendEntries_below_snapshot_witness :
    behindSnapshot.Term ≥ compacted.currentTerm ∧
    behindSnapshot.PrevLogIndex < compacted.firstIndex ∧
    ∃ rf2 reply msgs, AppendEntries compacted behindSnapshot = some (rf2, reply, msgs) ∧
      reply.Success = true ∧ rf2.log = [⟨none, 2⟩] ∧ rf2.firstIndex = 5 := by
  refine ⟨by decide, by decide, ?_⟩
  obtain ⟨hall, hex⟩ :=
    AppendEntries_below_snapshot compacted behindSnapshot (by decide) (by decide)
  obtain ⟨rf2, reply, msgs, h⟩ := hex (by decide) (by decide)
  obtain ⟨hs, hlog, hfirst, -⟩ := hall rf2 reply msgs h
  exact ⟨rf2, reply, msgs, h, hs, hlog, hfirst⟩

/-- C10 at scenario S3: `s3Follower` has `commitIndex = 0` and accepts a request
with `LeaderCommit = 2`; afterwards `commitIndex = min(2, lastIndex) = 2`. -/
theorem AppendEntries_commitIndex_witness :
    s3Args.LeaderCommit > s3Follower.commitIndex ∧
    ∃ rf2 reply msgs, AppendEntries s3Follower s3Args = some (rf2, reply, msgs) ∧
      reply.Success = true ∧ lastIndex rf2 = 2 ∧ rf2.commitIndex = 2 := by
  refine ⟨by decide, ?_⟩
  have hs : (AppendEntries s3Follower s3Args).map
      (fun r => (r.2.1.Success, lastIndex r.1)) = some (true, 2) := by decide
  cases h : AppendEntries s3Follower s3Args with
  | none => rw [h] at hs; cases hs
  | some r =>
    obtain ⟨rf2, reply, msgs⟩ := r
    rw [h] at hs
    simp only [Option.map_some', Option.some.injEq, Prod.mk.injEq] at hs
    obtain ⟨hgt, -⟩ := AppendEntries_commitIndex s3Follower rf2 s3Args reply msgs h hs.1
    refine ⟨rf2, reply, msgs, rfl, hs.1, hs.2, ?_⟩
    rw [hgt (by decide), hs.2]
    decide

/-! ## Terms and votes -/

/-- The term and the vote that `RequestVote` leaves. -/
theorem RequestVote_term (rf rf2 : Raft) (args : RequestVoteArgs) (reply : RequestVoteReply)
    (h : RequestVote rf args = some (rf2, reply)) :
    rf2.currentTerm = (if args.Term > rf.currentTerm then args.Term else rf.currentTerm) ∧
    (reply.VoteGranted = true → rf2.votedFor = args.CandidateId) ∧
    (reply.VoteGranted = false →
      rf2.votedFor = (if args.Term > rf.currentTerm then -1 else rf.votedFor)) ∧
    (reply.VoteGranted = true →
      (if args.Term > rf.currentTerm then -1 else rf.votedFor) = -1 ∨
      (if args.Term > rf.currentTerm then -1 else rf.votedFor) = args.CandidateId) := by
  unfold RequestVote at h
  by_cases hgt : args.Term > rf.currentTerm
  · simp only [hgt, if_true, persist_currentTerm] at h ⊢
    split at h
    · cases h
      refine ⟨rfl, ?_, ?_, ?_⟩
      · intro hc; cases hc
      · intro _; rfl
      · intro hc; cases hc
    · split at h
      · cases h
      · split at h
        · rename_i hc
          cases h
          refine ⟨rfl, ?_, ?_, ?_⟩
          · intro _; rfl
          · intro hf; cases hf
          · intro _; exact Or.inl trivial
        · cases h
          refine ⟨rfl, ?_, ?_, ?_⟩
          · intro hc; cases hc
          · intro _; rfl
          · intro hc; cases hc
  · simp only [hgt, if_false] at h ⊢
    split at h
    · cases h
      refine ⟨rfl, ?_, ?_, ?_⟩
      · intro hc; cases hc
      · intro _; rfl
      · intro hc; cases hc
    · split at h
      · cases h
      · split at h
        · rename_i hc
          cases h
          refine ⟨rfl, ?_, ?_, ?_⟩
          · intro _; rfl
          · intro hf; cases hf
          · intro _; exact hc.1
        · cases h
          refine ⟨rfl, ?_, ?_, ?_⟩
          · intro hc; cases hc
          · intro _; rfl
          · intro hc; cases hc

/-- The log part of `AppendEntries` leaves the term, the vote and the role. -/
theorem appendEntriesLog_frame (rf rf2 : Raft) (args : AppendEntriesArgs)
    (reply : AppendEntriesReply) (msgs : List ApplyMsg)
    (h : appendEntriesLog rf args = some (rf2, reply, msgs)) :
    rf2.currentTerm = rf.currentTerm ∧ rf2.votedFor = rf.votedFor ∧ rf2.state = rf.state := by
  have hacc : appendEntriesAccept rf args = some (rf2, reply, msgs) →
      rf2.currentTerm = rf.currentTerm ∧ rf2.votedFor = rf.votedFor ∧ rf2.state = rf.state := by
    intro ha
    obtain ⟨_, _, _, _, h1, h2, h3, _⟩ := appendEntriesAccept_spec rf rf2 args reply msgs ha
    exact ⟨h1, h2, h3⟩
  unfold appendEntriesLog at h
  split at h
  · split at h
    · cases h; exact ⟨rfl, rfl, rfl⟩
    · split at h
      · cases h
      · split at h
        · split at h
          · cases h
          · cases h; exact ⟨rfl, rfl, rfl⟩
        · exact hacc h
  · exact hacc h

/-- The term and the vote that the part of `AppendEntries` behind the timer reset
leaves. -/
theorem appendEntriesResume_term (rf rf2 : Raft) (args : AppendEntriesArgs)
    (reply : AppendEntriesReply) (msgs : List ApplyMsg)
    (h : appendEntriesResume rf args = some (rf2, reply, msgs)) :
    rf2.currentTerm = (if args.Term ≥ rf.currentTerm then args.Term else rf.currentTerm) ∧
    rf2.votedFor = (if args.Term > rf.currentTerm then -1 else rf.votedFor) := by
  unfold appendEntriesResume at h
  obtain ⟨h1, h2, -⟩ := appendEntriesLog_frame _ rf2 args reply msgs h
  rw [h1, h2, adoptTerm_currentTerm, adoptTerm_votedFor]
  exact ⟨rfl, rfl⟩

/-- The term and the vote that `AppendEntries` leaves. -/
theorem AppendEntries_term (rf rf2 : Raft) (args : AppendEntriesArgs)
    (reply : AppendEntriesReply) (msgs : List ApplyMsg)
    (h : AppendEntries rf args = some (rf2, reply, msgs)) :
    rf2.currentTerm = (if args.Term ≥ rf.currentTerm then args.Term else rf.currentTerm) ∧
    rf2.votedFor = (if args.Term > rf.currentTerm then -1 else rf.votedFor) := by
  unfold AppendEntries at h
  by_cases hst : args.Term < rf.currentTerm
  · rw [if_pos hst] at h
    cases h
    rw [if_neg (by omega), if_neg (by omega)]
    exact ⟨rfl, rfl⟩
  · rw [if_neg hst] at h
    exact appendEntriesResume_term rf rf2 args reply msgs h

/-- `InstallSnapshot` leaves the term and the vote. -/
theorem InstallSnapshot_frame (rf rf2 : Raft) (args : InstallSnapshotArgs)
    (reply : InstallSnapshotReply) (msgs : List ApplyMsg)
    (h : InstallSnapshot rf args = some (rf2, reply, msgs)) :
    rf2.currentTerm = rf.currentTerm ∧ rf2.votedFor = rf.votedFor := by
  unfold InstallSnapshot at h
  split at h
  · cases h; exact ⟨rfl, rfl⟩
  · split at h
    · cases h; exact ⟨rfl, rfl⟩
    · dsimp only at h
      split at h
      · cases h
      · cases h; exact ⟨rfl, rfl⟩

/-- The loop of `issueAppendEntries` leaves every field but `updateSnap`. -/
theorem issueLoop_frame (hb : Bool) :
    ∀ (ns : List Nat) (rf rf2 : Raft) (ts : List Task), issueLoop hb ns rf = some (rf2, ts) →
      rf2.currentTerm = rf.currentTerm ∧ rf2.votedFor = rf.votedFor ∧ rf2.state = rf.state ∧
      rf2.log = rf.log ∧ rf2.firstIndex = rf.firstIndex ∧ rf2.commitIndex = rf.commitIndex ∧
      rf2.lastApplied = rf.lastApplied := by
  intro ns
  induction ns with
  | nil =>
    intro rf rf2 ts h
    unfold issueLoop at h
    cases h
    exact ⟨rfl, rfl, rfl, rfl, rfl, rfl, rfl⟩
  | cons n ns ih =>
    intro rf rf2 ts h
    unfold issueLoop at h
    split at h
    · exact ih rf rf2 ts h
    · split at h
      · cases h
      · dsimp only at h
        split at h
        · cases h
        · split at h
          · cases h
          · rename_i rf3 ts3 heq
            cases h
            exact ih { rf with updateSnap := false } _ _ heq

/-- `Start` leaves the term. -/
theorem Start_term (rf rf2 : Raft) (command : Cmd) (ts : List Task) (out : Int × Int × Bool)
    (h : Start rf command = some (rf2, ts, out)) : rf2.currentTerm = rf.currentTerm := by
  unfold Start at h
  dsimp only at h
  split at h
  · split at h
    · cases h
    · rename_i rf3 ts3 heq
      cases h
      unfold issueAppendEntries at heq
      exact (issueLoop_frame false _ _ _ _ heq).1
  · cases h; rfl

/-- `IssueSnapshot` leaves the term, the vote and the role. -/
theorem IssueSnapshot_frame (rf rf2 : Raft) (idx : Int) (snapshot : Bytes)
    (h : IssueSnapshot rf idx snapshot = some rf2) :
    rf2.currentTerm = rf.currentTerm ∧ rf2.votedFor = rf.votedFor ∧ rf2.state = rf.state := by
  unfold IssueSnapshot at h
  split at h
  · cases h; exact ⟨rfl, rfl, rfl⟩
  · split at h
    · cases h
    · dsimp only at h
      split at h
      · cases h
      · cases h; exact ⟨rfl, rfl, rfl⟩

/-- `checkCommit` writes `commitIndex` only. -/
theorem checkCommit_frame (rf rf2 : Raft) (msgs : List ApplyMsg)
    (h : checkCommit rf = some (rf2, msgs)) :
    rf2.currentTerm = rf.currentTerm ∧ rf2.votedFor = rf.votedFor ∧ rf2.state = rf.state ∧
    rf2.log = rf.log ∧ rf2.firstIndex = rf.firstIndex ∧ rf2.lastApplied = rf.lastApplied ∧
    rf2.nextIndex = rf.nextIndex ∧ rf2.matchIndex = rf.matchIndex := by
  unfold checkCommit at h
  split at h
  · cases h
  · dsimp only at h
    split at h
    · split at h
      · cases h
      · cases h; exact ⟨rfl, rfl, rfl, rfl, rfl, rfl, rfl, rfl⟩
    · cases h; exact ⟨rfl, rfl, rfl, rfl, rfl, rfl, rfl, rfl⟩

/-- An addition whose result is a 64-bit `int` is not changed by the wrap. -/
theorem wrapInt_eq (x : Int) (h1 : -9223372036854775808 ≤ x) (h2 : x < 9223372036854775808) :
    wrapInt x = x := by
  unfold wrapInt
  omega

/-- The election timeout on a term below the largest `int` leaves `currentTerm`
at least what it was. -/
theorem electionTimeout_term (rf : Raft) (hlo : -9223372036854775808 ≤ rf.currentTerm)
    (hhi : rf.currentTerm < 9223372036854775807) :
    rf.currentTerm ≤ (electionTimeout rf).1.currentTerm := by
  have hw := wrapInt_eq (rf.currentTerm + 1) (by omega) (by omega)
  unfold electionTimeout
  split
  · simp only [persist_currentTerm]; omega
  · split
    · simp only [persist_currentTerm]; omega
    · exact le_refl _

/-- One round of the counting loop leaves the peer as it was, or steps down to
the higher term of the reply. -/
theorem tallyReply_state (rf : Raft) (t : Tally) (r : Option RequestVoteReply) :
    (tallyReply rf t r).1 = rf ∨
    ∃ rr, r = some rr ∧ rr.Term > rf.currentTerm ∧ rf.state = Role.CANDIDATE ∧
      t.args.Term = rf.currentTerm ∧
      (tallyReply rf t r).1 =
        persist { rf with currentTerm := rr.Term, state := Role.FOLLOWER, votedFor := -1 } := by
  unfold tallyReply
  dsimp only
  by_cases h1 : rf.state ≠ Role.CANDIDATE
  · rw [if_pos h1]; exact Or.inl rfl
  · rw [if_neg h1]
    by_cases h2 : t.args.Term ≠ rf.currentTerm
    · rw [if_pos h2]; exact Or.inl rfl
    · rw [if_neg h2]
      cases r with
      | none =>
        dsimp only
        split <;> exact Or.inl rfl
      | some rr =>
        dsimp only
        by_cases hgt : rr.Term > rf.currentTerm
        · rw [if_pos hgt]
          exact Or.inr ⟨rr, rfl, hgt, not_not.1 h1, not_not.1 h2, rfl⟩
        · rw [if_neg hgt]
          dsimp only
          by_cases hg : rr.VoteGranted = true
          · rw [if_pos hg]
            dsimp only
            split <;> exact Or.inl rfl
          · rw [if_neg hg]
            split <;> exact Or.inl rfl

theorem tallyReply_term (rf : Raft) (t : Tally) (r : Option RequestVoteReply) :
    rf.currentTerm ≤ (tallyReply rf t r).1.currentTerm := by
  rcases tallyReply_state rf t r with h | ⟨rr, -, hgt, -, -, h⟩
  · rw [h]
  · rw [h, persist_currentTerm]
    exact le_of_lt hgt

theorem replyFailure_frame (rf rf2 : Raft) (i : Int) (args : AppendEntriesArgs)
    (reply : AppendEntriesReply) (msgs : List ApplyMsg) (next : Option AppendEntriesArgs)
    (h : replyFailure rf i args reply = some (rf2, msgs, next)) :
    rf2.currentTerm = rf.currentTerm ∧ rf2.votedFor = rf.votedFor ∧ rf2.state = rf.state ∧
    rf2.log = rf.log ∧ rf2.commitIndex = rf.commitIndex ∧ rf2.matchIndex = rf.matchIndex := by
  unfold replyFailure at h
  dsimp only at h
  generalize (if reply.ConflictIndex ≠ 0 then reply.ConflictIndex else args.PrevLogIndex) = nx
    at h
  cases ha : assign rf.nextIndex i nx with
  | none => rw [ha] at h; cases h
  | some nextIndex1 =>
    rw [ha] at h
    dsimp only at h
    by_cases h1 : nx - 1 < rf.firstIndex
    · rw [if_pos h1] at h
      cases h; exact ⟨rfl, rfl, rfl, rfl, rfl, rfl⟩
    · rw [if_neg h1] at h
      by_cases h2 : nx - 1 < 0 ∨ nx - 1 ≥ (rf.log.length : Int) + rf.firstIndex
      · rw [if_pos h2] at h
        cases h; exact ⟨rfl, rfl, rfl, rfl, rfl, rfl⟩
      · rw [if_neg h2] at h
        cases hi : index rf.log (nx - 1 - rf.firstIndex) with
        | none => rw [hi] at h; cases h
        | some e =>
          rw [hi] at h
          cases h; exact ⟨rfl, rfl, rfl, rfl, rfl, rfl⟩

theorem replySuccess_frame (rf rf2 : Raft) (i : Int) (args : AppendEntriesArgs)
    (msgs : List ApplyMsg) (next : Option AppendEntriesArgs)
    (h : replySuccess rf i args = some (rf2, msgs, next)) :
    rf2.currentTerm = rf.currentTerm ∧ rf2.votedFor = rf.votedFor ∧ rf2.state = rf.state ∧
    rf2.log = rf.log := by
  unfold replySuccess at h
  split at h
  · cases h; exact ⟨rfl, rfl, rfl, rfl⟩
  · split at h
    · cases h
    · split at h
      · cases h
      · split at h
        · cases h
        · rename_i rf3 msgs3 heq
          cases h
          obtain ⟨h1, h2, h3, h4, -⟩ := checkCommit_frame _ _ _ heq
          exact ⟨h1, h2, h3, h4⟩

theorem appendEntriesReply_term (rf rf2 : Raft) (i curTerm commitIndex : Int)
    (args : AppendEntriesArgs) (res : Bool) (reply : AppendEntriesReply)
    (msgs : List ApplyMsg) (next : Option AppendEntriesArgs)
    (h : appendEntriesReply rf i curTerm commitIndex args res reply = some (rf2, msgs, next)) :
    rf.currentTerm ≤ rf2.currentTerm := by
  unfold appendEntriesReply at h
  split at h
  · cases h; exact le_refl _
  · split at h
    · split at h
      · rename_i hgt
        cases h
        simp only [persist_currentTerm]
        omega
      · split at h
        · cases h; exact le_refl _
        · split at h
          · cases h
          · split at h
            · cases h; exact le_refl _
            · split at h
              · rw [(replyFailure_frame rf rf2 i args reply msgs next h).1]
              · rw [(replySuccess_frame rf rf2 i args msgs next h).1]
    · cases h; exact le_refl _

theorem installSnapshotReply_term (rf rf2 : Raft) (i : Int) (args : InstallSnapshotArgs)
    (ok : Bool) (reply : InstallSnapshotReply)
    (h : installSnapshotReply rf i args ok reply = some rf2) :
    rf.currentTerm ≤ rf2.currentTerm := by
  unfold installSnapshotReply at h
  split at h
  · rename_i hc
    cases h
    dsimp only
    omega
  · split at h
    · split at h
      · cases h
      · split at h
        · cases h
        · split at h
          · cases h
          · cases h; exact le_refl _
    · cases h; exact le_refl _

/-- Every step of a peer leaves `currentTerm` at least what it was, the election
timeout when `currentTerm` is below the largest `int`. -/
theorem currentTerm_step_le (rf rf2 : Raft) (h : Step rf rf2)
    (hwrap : rf2 = (electionTimeout rf).1 →
      -9223372036854775808 ≤ rf.currentTerm ∧ rf.currentTerm < 9223372036854775807) :
    rf.currentTerm ≤ rf2.currentTerm := by
  cases h with
  | requestVote _ args reply h =>
    rw [(RequestVote_term rf rf2 args reply h).1]
    split <;> omega
  | appendEntries _ args reply msgs h =>
    rw [(AppendEntries_term rf rf2 args reply msgs h).1]
    split <;> omega
  | appendEntriesResume _ args reply msgs h =>
    rw [(appendEntriesResume_term rf rf2 args reply msgs h).1]
    split <;> omega
  | installSnapshot _ args reply msgs h =>
    rw [(InstallSnapshot_frame rf rf2 args reply msgs h).1]
  | electionTimeout => exact electionTimeout_term rf (hwrap rfl).1 (hwrap rfl).2
  | start _ command ts out h => rw [Start_term rf rf2 command ts out h]
  | issueSnapshot _ idx snapshot h => rw [(IssueSnapshot_frame rf rf2 idx snapshot h).1]
  | requestVoteReply t r => exact tallyReply_term rf t r
  | becomeLeader => exact le_refl _
  | appendEntriesReply _ i curTerm commitIndex args res reply msgs next h =>
    exact appendEntriesReply_term rf rf2 i curTerm commitIndex args res reply msgs next h
  | installSnapshotReply _ i args ok reply h =>
    exact installSnapshotReply_term rf rf2 i args ok reply h

/-- C4 (amended): term monotonicity.  Every step of a peer (the `RequestVote`,
`AppendEntries` and `InstallSnapshot` handlers, the part of `AppendEntries` behind
the timer reset run on its own, the election timeout, `Start`, `IssueSnapshot`,
and the processing of a `RequestVote`, `AppendEntries` or `InstallSnapshot` reply)
leaves `currentTerm` at least what it was, the election timeout when `currentTerm`
is an `int` below the largest one, `2^63 - 1`. -/
theorem currentTerm_monotone (rf rf2 : Raft) (h : Step rf rf2)
    (hwrap : rf2 = (electionTimeout rf).1 →
      -9223372036854775808 ≤ rf.currentTerm ∧ rf.currentTerm < 9223372036854775807) :
    rf.currentTerm ≤ rf2.currentTerm :=
  currentTerm_step_le rf rf2 h hwrap

/-- C4 at a follower whose election timer fires: the step takes `s6Voter` from
term 4 to term 5. -/
theorem currentTerm_monotone_witness :
    Step s6Voter (electionTimeout s6Voter).1 ∧
    (-9223372036854775808 ≤ s6Voter.currentTerm ∧ s6Voter.currentTerm < 9223372036854775807) ∧
    (electionTimeout s6Voter).1.currentTerm = 5 ∧
    s6Voter.currentTerm ≤ (electionTimeout s6Voter).1.currentTerm :=
  ⟨Step.electionTimeout s6Voter, by decide, by decide,
    currentTerm_monotone s6Voter _ (Step.electionTimeout s6Voter) (fun _ => by decide)⟩

/-- C4 fails as stated at the largest `int`.  The peer that `Make` builds handles
a `RequestVote` of term `2^63 - 1` and adopts that term; when its election timer
fires, `rf.currentTerm += 1` wraps and leaves `currentTerm = -2^63`. -/
theorem currentTerm_monotone_counterexample :
    ∃ (rf0 rf1 : Raft) (msgs : List ApplyMsg) (reply : RequestVoteReply),
      Make 3 0 { raftstate := none, snapshot := [] } = some (rf0, msgs) ∧
      RequestVote rf0 ⟨9223372036854775807, 1, 0, 0⟩ = some (rf1, reply) ∧
      rf1.currentTerm = 9223372036854775807 ∧
      Step rf1 (electionTimeout rf1).1 ∧
      (electionTimeout rf1).1.currentTerm = -9223372036854775808 ∧
      ¬ rf1.currentTerm ≤ (electionTimeout rf1).1.currentTerm := by
  refine ⟨
    { nPeers := 3, persister := { raftstate := none, snapshot := [] }, me := 0,
      state := Role.FOLLOWER, currentTerm := 0, votedFor := -1, log := [⟨none, 0⟩],
      firstIndex := 0, commitIndex := 0, lastApplied := 0, lastNewEntry := 0,
      nextIndex := [], matchIndex := [], updateSnap := false },
    { nPeers := 3,
      persister := { raftstate := some ⟨9223372036854775807, 1, [⟨none, 0⟩], 0⟩,
                     snapshot := [] },
      me := 0, state := Role.FOLLOWER, currentTerm := 9223372036854775807, votedFor := 1,
      log := [⟨none, 0⟩], firstIndex := 0, commitIndex := 0, lastApplied := 0,
      lastNewEntry := 0, nextIndex := [], matchIndex := [], updateSnap := false },
    [{ Index := -1, Command := none, UseSnapshot := true, Snapshot := [] }],
    ⟨9223372036854775807, true⟩, by decide, by decide, by decide,
    Step.electionTimeout _, by decide, by decide⟩

/-- A handler leaves `currentTerm` at least what it was. -/
theorem serve_term (rf rf2 : Raft) (req : Request) (g : Option Int)
    (h : serve rf req = some (rf2, g)) : rf.currentTerm ≤ rf2.currentTerm := by
  cases req with
  | vote args =>
    simp only [serve] at h
    split at h
    · cases h
    · rename_i rf3 reply heq
      cases h
      rw [(RequestVote_term rf rf2 args reply heq).1]
      split <;> omega
  | append args =>
    simp only [serve] at h
    split at h
    · cases h
    · rename_i rf3 reply msgs heq
      cases h
      rw [(AppendEntries_term rf rf2 args reply msgs heq).1]
      split <;> omega
  | snapshot args =>
    simp only [serve] at h
    split at h
    · cases h
    · rename_i rf3 reply msgs heq
      cases h
      rw [(InstallSnapshot_frame rf rf2 args reply msgs heq).1]

/-- One handler that leaves the term: a vote already cast stays, a grant goes to
the holder of the vote, and a grant is recorded in `votedFor`. -/
theorem serve_vote (rf rf2 : Raft) (req : Request) (g : Option Int)
    (h : serve rf req = some (rf2, g)) (hterm : rf2.currentTerm = rf.currentTerm) :
    (∀ c, rf.votedFor = c → c ≠ -1 → rf2.votedFor = c ∧ ∀ d, g = some d → d = c) ∧
    (∀ d, g = some d → rf2.votedFor = d) := by
  cases req with
  | vote args =>
    simp only [serve] at h
    split at h
    · cases h
    · rename_i rf3 reply heq
      cases h
      obtain ⟨ht, hgrant, hdeny, hcond⟩ := RequestVote_term rf rf2 args reply heq
      have hngt : ¬ args.Term > rf.currentTerm := by
        intro hc
        rw [if_pos hc] at ht
        omega
      rw [if_neg hngt] at hdeny hcond
      cases hv : reply.VoteGranted with
      | true =>
        rw [if_pos rfl]
        refine ⟨?_, ?_⟩
        · intro c hc hne
          have hcand : args.CandidateId = c := by
            rcases hcond hv with h1 | h1
            · rw [hc] at h1; exact absurd h1 hne
            · rw [← h1, hc]
          refine ⟨by rw [hgrant hv, hcand], ?_⟩
          intro d hd
          cases hd
          exact hcand
        · intro d hd
          cases hd
          exact hgrant hv
      | false =>
        rw [if_neg (by simp)]
        refine ⟨?_, ?_⟩
        · intro c hc _
          exact ⟨by rw [hdeny hv, hc], fun d hd => by cases hd⟩
        · intro d hd
          cases hd
  | append args =>
    simp only [serve] at h
    split at h
    · cases h
    · rename_i rf3 reply msgs heq
      cases h
      obtain ⟨ht, hv⟩ := AppendEntries_term rf rf2 args reply msgs heq
      have hngt : ¬ args.Term > rf.currentTerm := by
        intro hc
        rw [if_pos (le_of_lt hc)] at ht
        omega
      rw [if_neg hngt] at hv
      refine ⟨?_, ?_⟩
      · intro c hc _
        exact ⟨by rw [hv, hc], fun d hd => by cases hd⟩
      · intro d hd
        cases hd
  | snapshot args =>
    simp only [serve] at h
    split at h
    · cases h
    · rename_i rf3 reply msgs heq
      cases h
      obtain ⟨-, hv⟩ := InstallSnapshot_frame rf rf2 args reply msgs heq
      refine ⟨?_, ?_⟩
      · intro c hc _
        exact ⟨by rw [hv, hc], fun d hd => by cases hd⟩
      · intro d hd
        cases hd

theorem serveAll_term : ∀ (reqs : List Request) (rf rf2 : Raft) (gs : List Int),
    serveAll rf reqs = some (rf2, gs) → rf.currentTerm ≤ rf2.currentTerm := by
  intro reqs
  induction reqs with
  | nil =>
    intro rf rf2 gs h
    unfold serveAll at h
    cases h
    exact le_refl _
  | cons req rest ih =>
    intro rf rf2 gs h
    unfold serveAll at h
    split at h
    · cases h
    · rename_i rf1 g heq
      split at h
      · cases h
      · rename_i rf3 gs3 heq2
        cases h
        exact le_trans (serve_term rf rf1 req g heq) (ih rf1 rf2 gs3 heq2)

theorem serveAll_votes : ∀ (reqs : List Request) (rf rf2 : Raft) (gs : List Int),
    serveAll rf reqs = some (rf2, gs) → rf2.currentTerm = rf.currentTerm →
    (∀ d ∈ gs, d ≠ -1) →
    (∀ c, rf.votedFor = c → c ≠ -1 → ∀ d ∈ gs, d = c) ∧
    (∀ d1 ∈ gs, ∀ d2 ∈ gs, d1 = d2) := by
  intro reqs
  induction reqs with
  | nil =>
    intro rf rf2 gs h _ _
    unfold serveAll at h
    cases h
    refine ⟨?_, ?_⟩
    · intro c _ _ d hd
      cases hd
    · intro d1 hd1
      cases hd1
  | cons req rest ih =>
    intro rf rf2 gs h hterm hne
    unfold serveAll at h
    split at h
    · cases h
    · rename_i rf1 g heq
      split at h
      · cases h
      · rename_i rf3 gs3 heq2
        cases h
        have hle1 := serve_term rf rf1 req g heq
        have hle2 := serveAll_term rest rf1 rf2 gs3 heq2
        have ht1 : rf1.currentTerm = rf.currentTerm := by omega
        have ht2 : rf2.currentTerm = rf1.currentTerm := by omega
        obtain ⟨hkeep, hrec⟩ := serve_vote rf rf1 req g heq ht1
        obtain ⟨ihc, ihall⟩ := ih rf1 rf2 gs3 heq2 ht2
          (fun d hd => hne d (List.mem_append_right _ hd))
        refine ⟨?_, ?_⟩
        · intro c hc hcne d hd
          obtain ⟨hv1, hg⟩ := hkeep c hc hcne
          rcases List.mem_append.1 hd with hd1 | hd1
          · cases g with
            | none => cases hd1
            | some x =>
              simp only [Option.toList_some, List.mem_singleton] at hd1
              rw [hd1]
              exact hg x rfl
          · exact ihc c hv1 hcne d hd1
        · cases g with
          | none =>
            simpa using ihall
          | some x =>
            have hx : x ≠ -1 := hne x (by simp)
            have hall : ∀ d ∈ gs3, d = x := ihc x (hrec x rfl) hx
            intro d1 hd1 d2 hd2
            have e1 : d1 = x := by
              rcases List.mem_append.1 hd1 with hm | hm
              · simpa using hm
              · exact hall d1 hm
            have e2 : d2 = x := by
              rcases List.mem_append.1 hd2 with hm | hm
              · simpa using hm
              · exact hall d2 hm
            rw [e1, e2]

/-- C2: vote uniqueness.  A handler (`RequestVote`, `AppendEntries`,
`InstallSnapshot`) that leaves `currentTerm` as it was leaves a vote cast for a
candidate `c` (`votedFor = c`, not `-1`) as it was, and grants a `RequestVote` only
to `c`; so over any run of handlers that leaves `currentTerm` as it was, all
votes granted (to candidates, whose ids are not `-1`) go to one candidate. -/
theorem vote_unique :
    (∀ (rf rf2 : Raft) (req : Request) (g : Option Int) (c : Int),
      serve rf req = some (rf2, g) → rf2.currentTerm = rf.currentTerm →
      rf.votedFor = c → c ≠ -1 → rf2.votedFor = c ∧ ∀ d, g = some d → d = c) ∧
    (∀ (rf rf2 : Raft) (reqs : List Request) (gs : List Int),
      serveAll rf reqs = some (rf2, gs) → rf2.currentTerm = rf.currentTerm →
      (∀ d ∈ gs, d ≠ -1) → ∀ d1 ∈ gs, ∀ d2 ∈ gs, d1 = d2) :=
  ⟨fun rf rf2 req g c h ht hc hne => (serve_vote rf rf2 req g h ht).1 c hc hne,
   fun rf rf2 reqs gs h ht hne => (serveAll_votes reqs rf rf2 gs h ht hne).2⟩

/-! ## Elections in a cluster -/

/-- C2 at the voter of scenario S6, which has cast no vote in term 4.  It grants
the `RequestVote` of candidate 0, then refuses the one of candidate 1, whose log
is up to date and which it would have granted before, and grants candidate 0
again; the term stays 4, the vote stays with candidate 0, and both grants of
the run went to candidate 0. -/
theorem vote_unique_witness :
    ∃ rf1 : Raft,
      serve s6Voter (Request.vote s6ArgsA) = some (rf1, some 0) ∧
      (serve s6Voter (Request.vote s6ArgsLate)).map Prod.snd = some (some 1) ∧
      serve rf1 (Request.vote s6ArgsLate) = some (rf1, none) ∧
      serveAll s6Voter
        [Request.vote s6ArgsA, Request.vote s6ArgsLate, Request.vote s6ArgsA] =
        some (rf1, [0, 0]) ∧
      rf1.currentTerm = s6Voter.currentTerm ∧ rf1.votedFor = 0 ∧
      (∀ d1 ∈ ([0, 0] : List Int), ∀ d2 ∈ ([0, 0] : List Int), d1 = d2) := by
  have h1 : serve s6Voter (Request.vote s6ArgsA) =
      some ({ s6Voter with
        persister := { raftstate := some ⟨4, 0, s6Voter.log, 0⟩, snapshot := [] }
        votedFor := 0 }, some 0) := by decide
  have h2 : serve { s6Voter with
        persister := { raftstate := some ⟨4, 0, s6Voter.log, 0⟩, snapshot := [] }
        votedFor := 0 } (Request.vote s6ArgsLate) =
      some ({ s6Voter with
        persister := { raftstate := some ⟨4, 0, s6Voter.log, 0⟩, snapshot := [] }
        votedFor := 0 }, none) := by decide
  have h3 : serveAll s6Voter
        [Request.vote s6ArgsA, Request.vote s6ArgsLate, Request.vote s6ArgsA] =
      some ({ s6Voter with
        persister := { raftstate := some ⟨4, 0, s6Voter.log, 0⟩, snapshot := [] }
        votedFor := 0 }, [0, 0]) := by decide
  exact ⟨_, h1, by decide, h2, h3, rfl,
    (vote_unique.1 _ _ _ none 0 h2 rfl rfl (by decide)).1,
    vote_unique.2 s6Voter _ _ [0, 0] h3 rfl (by decide)⟩

/-- C3 (the code at the failing schedule): from the start of a cluster of three
peers the election steps of `raceSchedule` reach a state in which peer 0 and peer
2 are both Leader with `currentTerm = 2`, so election safety fails in a reachable
state.  Peer 0 counted the vote of peer 1 for term 1 and left the counting loop;
before its region `// Become Leader` took the mutex again, the `RequestVote` of
peer 2, Leader of term 2, moved peer 0 to term 2; the region sets `state = LEADER`
without looking at the role and the term again. -/
theorem election_race_two_leaders :
    ∃ c : Cluster, Cluster.Reachable 3 c ∧
      (∃ p0 p2 : Raft, c.peers[0]? = some p0 ∧ c.peers[2]? = some p2 ∧
        p0.state = Role.LEADER ∧ p2.state = Role.LEADER ∧
        p0.currentTerm = 2 ∧ p2.currentTerm = 2) ∧
      ¬ c.ElectionSafety := by
  have h0 : (((Cluster.init 3).run raceSchedule).bind (fun c => c.peers[0]?)).map
      (fun p => (p.state, p.currentTerm)) = some (Role.LEADER, 2) := by decide
  have h2 : (((Cluster.init 3).run raceSchedule).bind (fun c => c.peers[2]?)).map
      (fun p => (p.state, p.currentTerm)) = some (Role.LEADER, 2) := by decide
  cases h : (Cluster.init 3).run raceSchedule with
  | none => rw [h] at h0; cases h0
  | some c =>
    rw [h] at h0 h2
    simp only [Option.some_bind] at h0 h2
    cases hp0 : c.peers[0]? with
    | none => rw [hp0] at h0; cases h0
    | some p0 =>
      cases hp2 : c.peers[2]? with
      | none => rw [hp2] at h2; cases h2
      | some p2 =>
        rw [hp0] at h0
        rw [hp2] at h2
        simp only [Option.map_some', Option.some.injEq, Prod.mk.injEq] at h0 h2
        refine ⟨c, ⟨raceSchedule, h⟩, ⟨p0, p2, hp0, hp2, h0.1, h2.1, h0.2, h2.2⟩, ?_⟩
        intro hsafe
        have := hsafe 0 2 p0 p2 hp0 hp2 h0.1 h2.1 (by rw [h0.2, h2.2])
        omega

/-! ## The commit check of the leader -/

/-- The keys that the first loop of `checkCommit` collects: the indices of the
range whose entry is of the current term; every index of the range is read
inside the log. -/
theorem commitKeys_spec (log : List Entry) (firstIndex term : Int) :
    ∀ (n : Nat) (ele : Int) (ks : List Int),
      commitKeys log firstIndex term ele n = some ks →
      (∀ N, N ∈ ks ↔ (ele ≤ N ∧ N < ele + (n : Int) ∧
        (index log (N - firstIndex)).map Entry.Term = some term)) ∧
      (∀ N, ele ≤ N → N < ele + (n : Int) → ∃ e, index log (N - firstIndex) = some e) := by
  intro n
  induction n with
  | zero =>
    intro ele ks h
    unfold commitKeys at h
    cases h
    refine ⟨fun N => ?_, fun N h1 h2 => ?_⟩
    · constructor
      · intro hm
        cases hm
      · rintro ⟨a, b, -⟩
        simp only [Nat.cast_zero, add_zero] at b
        omega
    · simp only [Nat.cast_zero, add_zero] at h2
      omega
  | succ n ih =>
    intro ele ks h
    unfold commitKeys at h
    cases hi : index log (ele - firstIndex) with
    | none => rw [hi] at h; cases h
    | some e =>
      rw [hi] at h
      dsimp only at h
      cases hr : commitKeys log firstIndex term (ele + 1) n with
      | none => rw [hr] at h; cases h
      | some ks1 =>
        rw [hr] at h
        dsimp only at h
        obtain ⟨ih1, ih2⟩ := ih (ele + 1) ks1 hr
        have hks : ks = if e.Term = term then ele :: ks1 else ks1 := by
          cases h; rfl
        refine ⟨fun N => ?_, fun N h1 h2 => ?_⟩
        · rw [hks]
          constructor
          · intro hm
            by_cases ht : e.Term = term
            · rw [if_pos ht] at hm
              rcases List.mem_cons.1 hm with h0 | h0
              · subst h0
                refine ⟨le_refl _, by push_cast; omega, ?_⟩
                rw [hi]; simp [ht]
              · obtain ⟨a, b, c⟩ := (ih1 N).1 h0
                exact ⟨by omega, by push_cast; omega, c⟩
            · rw [if_neg ht] at hm
              obtain ⟨a, b, c⟩ := (ih1 N).1 hm
              exact ⟨by omega, by push_cast; omega, c⟩
          · rintro ⟨a, b, c⟩
            by_cases hN : N = ele
            · subst hN
              rw [hi] at c
              have ht : e.Term = term := by simpa using c
              rw [if_pos ht]
              exact List.mem_cons_self _ _
            · have hm : N ∈ ks1 := (ih1 N).2 ⟨by omega, by push_cast at b; omega, c⟩
              by_cases ht : e.Term = term
              · rw [if_pos ht]; exact List.mem_cons_of_mem _ hm
              · rw [if_neg ht]; exact hm
        · by_cases hN : N = ele
          · subst hN; exact ⟨e, hi⟩
          · exact ih2 N (by omega) (by push_cast at h2; omega)

/-- The first loop of `checkCommit` returns when its range lies inside the
log. -/
theorem commitKeys_some (log : List Entry) (firstIndex term : Int) :
    ∀ (n : Nat) (ele : Int), firstIndex ≤ ele →
      ele + (n : Int) ≤ firstIndex + (log.length : Int) →
      ∃ ks, commitKeys log firstIndex term ele n = some ks := by
  intro n
  induction n with
  | zero => intro ele _ _; exact ⟨[], rfl⟩
  | succ n ih =>
    intro ele h1 h2
    unfold commitKeys
    have hlt : (ele - firstIndex).toNat < log.length := by push_cast at h2; omega
    have hx : index log (ele - firstIndex) = some log[(ele - firstIndex).toNat] := by
      unfold index
      rw [if_neg (by omega)]
      exact List.getElem?_eq_getElem hlt
    obtain ⟨ks, hks⟩ := ih (ele + 1) (by omega) (by push_cast at h2; omega)
    rw [hx, hks]
    exact ⟨_, rfl⟩

/-- The value the third loop of `checkCommit` leaves in `M`: at least the start
value, the start value or a key whose count reaches `len(peers)/2`, and at
least every such key. -/
theorem majorityMax_spec (matchIndex : List Int) (nPeers : Nat) :
    ∀ (ks : List Int) (M : Int),
      M ≤ majorityMax matchIndex nPeers ks M ∧
      (majorityMax matchIndex nPeers ks M = M ∨
        (majorityMax matchIndex nPeers ks M ∈ ks ∧
          matchCount matchIndex (majorityMax matchIndex nPeers ks M)
            ≥ ((nPeers / 2 : Nat) : Int))) ∧
      (∀ k ∈ ks, matchCount matchIndex k ≥ ((nPeers / 2 : Nat) : Int) →
        k ≤ majorityMax matchIndex nPeers ks M) := by
  intro ks
  induction ks with
  | nil =>
    intro M
    unfold majorityMax
    exact ⟨le_refl _, Or.inl rfl, fun k hk => by cases hk⟩
  | cons key ks ih =>
    intro M
    unfold majorityMax
    by_cases hq : matchCount matchIndex key ≥ ((nPeers / 2 : Nat) : Int)
    · rw [if_pos hq]
      by_cases hge : key ≥ M
      · rw [if_pos hge]
        obtain ⟨h1, h2, h3⟩ := ih key
        refine ⟨le_trans hge h1, ?_, ?_⟩
        · rcases h2 with h2 | ⟨h2, h2q⟩
          · right
            rw [h2]
            exact ⟨List.mem_cons_self _ _, hq⟩
          · right
            exact ⟨List.mem_cons_of_mem _ h2, h2q⟩
        · intro k hk hkq
          rcases List.mem_cons.1 hk with h0 | h0
          · rw [h0]; exact h1
          · exact h3 k h0 hkq
      · rw [if_neg hge]
        obtain ⟨h1, h2, h3⟩ := ih M
        refine ⟨h1, ?_, ?_⟩
        · rcases h2 with h2 | ⟨h2, h2q⟩
          · exact Or.inl h2
          · exact Or.inr ⟨List.mem_cons_of_mem _ h2, h2q⟩
        · intro k hk hkq
          rcases List.mem_cons.1 hk with h0 | h0
          · rw [h0]; omega
          · exact h3 k h0 hkq
    · rw [if_neg hq]
      obtain ⟨h1, h2, h3⟩ := ih M
      refine ⟨h1, ?_, ?_⟩
      · rcases h2 with h2 | ⟨h2, h2q⟩
        · exact Or.inl h2
        · exact Or.inr ⟨List.mem_cons_of_mem _ h2, h2q⟩
      · intro k hk hkq
        rcases List.mem_cons.1 hk with h0 | h0
        · rw [h0] at hkq; exact absurd hkq hq
        · exact h3 k h0 hkq

/-- With the leader's own slot at `0`, the count that `checkCommit` takes over
all of `matchIndex` for a key `N ≥ 1` is the number of other peers at or beyond
`N`. -/
theorem matchCount_others (rf : Raft) (N : Int) (hown : index rf.matchIndex rf.me = some 0)
    (hN : 1 ≤ N) : matchCount rf.matchIndex N = (othersAtLeast rf N : Int) := by
  obtain ⟨hme, hget⟩ := (index_eq_some _ _ _).1 hown
  obtain ⟨hlt, hval⟩ := List.getElem?_eq_some.1 hget
  unfold matchCount othersAtLeast
  rw [List.eraseIdx_eq_take_drop_succ]
  conv_lhs => rw [← List.take_append_drop rf.me.toNat rf.matchIndex]
  rw [List.drop_eq_getElem_cons hlt, hval]
  simp only [List.filter_append, List.length_append]
  have h0 : List.filter (fun ele => decide (ele ≥ N)) ((0 : Int) :: List.drop (rf.me.toNat + 1)
      rf.matchIndex) = List.filter (fun ele => decide (ele ≥ N))
        (List.drop (rf.me.toNat + 1) rf.matchIndex) := by
    rw [List.filter_cons_of_neg]
    simp
    omega
  rw [h0]

/-- The two ways `checkCommit` returns: it advances `commitIndex` to the value
`M` of its third loop and delivers the entries in between, or it leaves the
peer as it was. -/
theorem checkCommit_cases (rf rf2 : Raft) (msgs : List ApplyMsg)
    (h : checkCommit rf = some (rf2, msgs)) :
    ∃ ks, commitKeys rf.log rf.firstIndex rf.currentTerm (rf.commitIndex + 1)
        ((rf.log.length : Int) + rf.firstIndex - (rf.commitIndex + 1)).toNat = some ks ∧
      (((majorityMax rf.matchIndex rf.nPeers ks (-1) ≠ -1 ∧
          majorityMax rf.matchIndex rf.nPeers ks (-1) > rf.commitIndex) ∧
        rf2 = { rf with commitIndex := majorityMax rf.matchIndex rf.nPeers ks (-1) } ∧
        applyLoop rf.log rf.firstIndex (rf.commitIndex + 1)
          (majorityMax rf.matchIndex rf.nPeers ks (-1) - rf.commitIndex).toNat = some msgs) ∨
       (¬ (majorityMax rf.matchIndex rf.nPeers ks (-1) ≠ -1 ∧
          majorityMax rf.matchIndex rf.nPeers ks (-1) > rf.commitIndex) ∧
        rf2 = rf ∧ msgs = [])) := by
  unfold checkCommit at h
  cases hk : commitKeys rf.log rf.firstIndex rf.currentTerm (rf.commitIndex + 1)
      ((rf.log.length : Int) + rf.firstIndex - (rf.commitIndex + 1)).toNat with
  | none => rw [hk] at h; cases h
  | some ks =>
    rw [hk] at h
    dsimp only at h
    refine ⟨ks, rfl, ?_⟩
    by_cases hM : majorityMax rf.matchIndex rf.nPeers ks (-1) ≠ -1 ∧
        majorityMax rf.matchIndex rf.nPeers ks (-1) > rf.commitIndex
    · rw [if_pos hM] at h
      cases ha : applyLoop rf.log rf.firstIndex (rf.commitIndex + 1)
          (majorityMax rf.matchIndex rf.nPeers ks (-1) - rf.commitIndex).toNat with
      | none => rw [ha] at h; cases h
      | some ms =>
        rw [ha] at h
        cases h
        exact Or.inl ⟨hM, rfl, rfl⟩
    · rw [if_neg hM] at h
      cases h
      exact Or.inr ⟨hM, rfl, rfl⟩

/-- The keys of `checkCommit` that reach the majority are the commit candidates
of the spec, for a leader with its own slot at `0` and `commitIndex ≥ 0`. -/
theorem commitCandidate_iff (rf : Raft) (ks : List Int)
    (hown : index rf.matchIndex rf.me = some 0) (hc : 0 ≤ rf.commitIndex)
    (hk : commitKeys rf.log rf.firstIndex rf.currentTerm (rf.commitIndex + 1)
        ((rf.log.length : Int) + rf.firstIndex - (rf.commitIndex + 1)).toNat = some ks)
    (N : Int) :
    CommitCandidate rf N ↔
      (N ∈ ks ∧ matchCount rf.matchIndex N ≥ ((rf.nPeers / 2 : Nat) : Int)) := by
  obtain ⟨hmem, -⟩ := commitKeys_spec _ _ _ _ _ _ hk
  unfold CommitCandidate lastIndex entryAt
  rw [hmem N]
  constructor
  · rintro ⟨h1, h2, h3, h4⟩
    rw [matchCount_others rf N hown (by omega)]
    exact ⟨⟨by omega, by omega, h3⟩, by omega⟩
  · rintro ⟨⟨h1, h2, h3⟩, h4⟩
    rw [matchCount_others rf N hown (by omega)] at h4
    exact ⟨by omega, by omega, h3, by omega⟩

/-- C11: for a leader whose own `matchIndex` slot is `0` and with `commitIndex ≥
0`, `checkCommit` leaves `commitIndex` at the largest `N` with `commitIndex < N ≤
lastIndex`, the entry at `N` of `currentTerm`, and `1 + |{other p : matchIndex[p]
≥ N}| > len(peers)/2`; without such an `N` it leaves `commitIndex` as it was; so
it never advances `commitIndex` to an entry of another term.  `checkCommit`
returns whenever `firstIndex ≤ commitIndex + 1`, which keeps its reads inside
the log. -/
theorem checkCommit_largest (rf : Raft) (hown : index rf.matchIndex rf.me = some 0)
    (hc : 0 ≤ rf.commitIndex) :
    (∀ rf2 msgs, checkCommit rf = some (rf2, msgs) →
      ((∃ N, CommitCandidate rf N) →
        CommitCandidate rf rf2.commitIndex ∧ ∀ N, CommitCandidate rf N → N ≤ rf2.commitIndex) ∧
      ((¬ ∃ N, CommitCandidate rf N) → rf2.commitIndex = rf.commitIndex) ∧
      (rf2.commitIndex ≠ rf.commitIndex →
        (entryAt rf rf2.commitIndex).map Entry.Term = some rf.currentTerm)) ∧
    (rf.firstIndex ≤ rf.commitIndex + 1 → ∃ rf2 msgs, checkCommit rf = some (rf2, msgs)) := by
  constructor
  · intro rf2 msgs h
    obtain ⟨ks, hk, hcases⟩ := checkCommit_cases rf rf2 msgs h
    have hiff := commitCandidate_iff rf ks hown hc hk
    obtain ⟨hmem, -⟩ := commitKeys_spec _ _ _ _ _ _ hk
    obtain ⟨hm1, hm2, hm3⟩ := majorityMax_spec rf.matchIndex rf.nPeers ks (-1)
    refine ⟨?_, ?_, ?_⟩
    · rintro ⟨N0, hN0⟩
      have hN0k := (hiff N0).1 hN0
      have hle := hm3 N0 hN0k.1 hN0k.2
      have hgt : rf.commitIndex < N0 := hN0.1
      rcases hcases with ⟨hM, hrf2, -⟩ | ⟨hM, -, -⟩
      · have hci : rf2.commitIndex = majorityMax rf.matchIndex rf.nPeers ks (-1) := by
          rw [hrf2]
        rw [hci]
        rcases hm2 with h2 | h2
        · exact absurd h2 hM.1
        · exact ⟨(hiff _).2 h2, fun N hN => hm3 N ((hiff N).1 hN).1 ((hiff N).1 hN).2⟩
      · exact absurd ⟨by omega, by omega⟩ hM
    · intro hnone
      rcases hcases with ⟨hM, -, -⟩ | ⟨-, hrf2, -⟩
      · rcases hm2 with h2 | h2
        · exact absurd h2 hM.1
        · exact absurd ⟨_, (hiff _).2 h2⟩ hnone
      · rw [hrf2]
    · intro hne
      rcases hcases with ⟨hM, hrf2, -⟩ | ⟨-, hrf2, -⟩
      · have hci : rf2.commitIndex = majorityMax rf.matchIndex rf.nPeers ks (-1) := by
          rw [hrf2]
        rw [hci]
        rcases hm2 with h2 | h2
        · exact absurd h2 hM.1
        · exact ((hmem _).1 h2.1).2.2
      · rw [hrf2] at hne
        exact absurd rfl hne
  · intro hfirst
    have hkeys : ∃ ks, commitKeys rf.log rf.firstIndex rf.currentTerm (rf.commitIndex + 1)
        ((rf.log.length : Int) + rf.firstIndex - (rf.commitIndex + 1)).toNat = some ks := by
      by_cases hempty : (rf.log.length : Int) + rf.firstIndex ≤ rf.commitIndex + 1
      · have h0 : ((rf.log.length : Int) + rf.firstIndex - (rf.commitIndex + 1)).toNat = 0 := by
          omega
        rw [h0]
        exact ⟨[], rfl⟩
      · exact commitKeys_some rf.log rf.firstIndex rf.currentTerm _ (rf.commitIndex + 1)
          hfirst (by omega)
    obtain ⟨ks, hk⟩ := hkeys
    obtain ⟨hmem, -⟩ := commitKeys_spec _ _ _ _ _ _ hk
    obtain ⟨-, hm2, -⟩ := majorityMax_spec rf.matchIndex rf.nPeers ks (-1)
    unfold checkCommit
    rw [hk]
    dsimp only
    by_cases hM : majorityMax rf.matchIndex rf.nPeers ks (-1) ≠ -1 ∧
        majorityMax rf.matchIndex rf.nPeers ks (-1) > rf.commitIndex
    · rw [if_pos hM]
      rcases hm2 with h2 | h2
      · exact absurd h2 hM.1
      · obtain ⟨-, hb, -⟩ := (hmem _).1 h2.1
        obtain ⟨ms, hms⟩ := applyLoop_some rf.log rf.firstIndex
          (majorityMax rf.matchIndex rf.nPeers ks (-1) - rf.commitIndex).toNat
          (rf.commitIndex + 1) hfirst (by omega)
        rw [hms]
        exact ⟨_, _, rfl⟩
    · rw [if_neg hM]
      exact ⟨_, _, rfl⟩

/-- C11 at `leaderOfThree` (own slot 0, peer 1 at index 1, `commitIndex = 0`):
index 1 is a commit candidate, `checkCommit` returns and leaves `commitIndex = 1`,
the largest candidate. -/
theorem checkCommit_largest_witness :
    index leaderOfThree.matchIndex leaderOfThree.me = some 0 ∧
    0 ≤ leaderOfThree.commitIndex ∧ CommitCandidate leaderOfThree 1 ∧
    ∃ rf2 msgs, checkCommit leaderOfThree = some (rf2, msgs) ∧ rf2.commitIndex = 1 ∧
      CommitCandidate leaderOfThree rf2.commitIndex := by
  obtain ⟨hpart, htotal⟩ := checkCommit_largest leaderOfThree (by decide) (by decide)
  obtain ⟨rf2, msgs, h⟩ := htotal (by decide)
  have hv : (checkCommit leaderOfThree).map (fun r => r.1.commitIndex) = some 1 := by decide
  rw [h] at hv
  have hci : rf2.commitIndex = 1 := by simpa using hv
  exact ⟨by decide, by decide, by decide, rf2, msgs, h, hci,
    ((hpart rf2 msgs h).1 ⟨1, by decide⟩).1⟩

/-! ## Snapshots, commit index and delivery -/

theorem sliceFrom_some {α : Type} (s : List α) (i : Int) (h1 : 0 ≤ i)
    (h2 : i ≤ (s.length : Int)) : sliceFrom s i = some (s.drop i.toNat) := by
  unfold sliceFrom
  rw [if_neg (by omega)]

theorem index_some_of_lt {α : Type} (s : List α) (i : Int) (h1 : 0 ≤ i)
    (h2 : i < (s.length : Int)) : ∃ a, index s i = some a ∧ s[i.toNat]? = some a := by
  have hlt : i.toNat < s.length := by omega
  refine ⟨s[i.toNat], ?_, List.getElem?_eq_getElem hlt⟩
  unfold index
  rw [if_neg (by omega)]
  exact List.getElem?_eq_getElem hlt

/-- The state that an `InstallSnapshot` that installs leaves. -/
theorem InstallSnapshot_install (rf : Raft) (args : InstallSnapshotArgs)
    (h1 : ¬ args.Term < rf.currentTerm) (h2 : ¬ args.LastIncludedIndex < rf.firstIndex) :
    InstallSnapshot rf args =
      some (persist { rf with
              state := Role.FOLLOWER
              persister := { rf.persister with snapshot := args.Data }
              log := installedLog rf.log rf.firstIndex args.LastIncludedIndex
                args.LastIncludedTerm
              firstIndex := args.LastIncludedIndex
              lastApplied := args.LastIncludedIndex
              commitIndex := args.LastIncludedIndex },
            { Term := 0 },
            [{ Index := -1, Command := none, UseSnapshot := true, Snapshot := args.Data }]) := by
  unfold InstallSnapshot installedLog
  rw [if_neg h1, if_neg h2]
  dsimp only
  by_cases hlen : (rf.log.length : Int) + rf.firstIndex ≤ args.LastIncludedIndex
  · rw [if_pos hlen, if_neg (by omega)]
  · rw [if_neg hlen]
    obtain ⟨e, he, -⟩ := index_some_of_lt rf.log (args.LastIncludedIndex - rf.firstIndex)
      (by omega) (by omega)
    rw [he]
    dsimp only
    by_cases ht : e.Term = args.LastIncludedTerm
    · rw [if_pos ht, sliceFrom_some _ _ (by omega) (by omega),
        if_pos ⟨by omega, by omega, by simp [ht]⟩]
    · rw [if_neg ht, if_neg (by
        rintro ⟨-, -, hc⟩
        simp at hc
        exact ht hc)]

/-- `InstallSnapshot` returns on every peer state and request: with the peer as
it was when the request is stale or its index is below `firstIndex`, else with
the snapshot installed. -/
theorem InstallSnapshot_cases (rf : Raft) (args : InstallSnapshotArgs) :
    (args.Term < rf.currentTerm ∧
      InstallSnapshot rf args = some (rf, { Term := rf.currentTerm }, [])) ∨
    (¬ args.Term < rf.currentTerm ∧ args.LastIncludedIndex < rf.firstIndex ∧
      InstallSnapshot rf args = some (rf, { Term := 0 }, [])) ∨
    (¬ args.Term < rf.currentTerm ∧ ¬ args.LastIncludedIndex < rf.firstIndex ∧
      InstallSnapshot rf args =
        some (persist { rf with
                state := Role.FOLLOWER
                persister := { rf.persister with snapshot := args.Data }
                log := installedLog rf.log rf.firstIndex args.LastIncludedIndex
                  args.LastIncludedTerm
                firstIndex := args.LastIncludedIndex
                lastApplied := args.LastIncludedIndex
                commitIndex := args.LastIncludedIndex },
              { Term := 0 },
              [{ Index := -1, Command := none, UseSnapshot := true,
                 Snapshot := args.Data }])) := by
  by_cases h1 : args.Term < rf.currentTerm
  · left
    refine ⟨h1, ?_⟩
    unfold InstallSnapshot
    rw [if_pos h1]
  · by_cases h2 : args.LastIncludedIndex < rf.firstIndex
    · right; left
      refine ⟨h1, h2, ?_⟩
      unfold InstallSnapshot
      rw [if_neg h1, if_pos h2]
    · right; right
      exact ⟨h1, h2, InstallSnapshot_install rf args h1 h2⟩

/-- `IssueSnapshot` outside `firstIndex < idx ≤ lastIndex` returns the peer as it
was; inside, it returns the peer compacted at `idx`. -/
theorem IssueSnapshot_cases (rf : Raft) (idx : Int) (snapshot : Bytes) :
    ((idx ≤ rf.firstIndex ∨ idx > (rf.log.length : Int) - 1 + rf.firstIndex) ∧
      IssueSnapshot rf idx snapshot = some rf) ∨
    (¬ (idx ≤ rf.firstIndex ∨ idx > (rf.log.length : Int) - 1 + rf.firstIndex) ∧ ∃ e0,
      index rf.log (idx - rf.firstIndex) = some e0 ∧
      IssueSnapshot rf idx snapshot =
        some { persist { rf with log := rf.log.drop (idx - rf.firstIndex).toNat
                                 firstIndex := idx, lastApplied := idx, commitIndex := idx } with
          persister :=
            { raftstate := some ⟨rf.currentTerm, rf.votedFor,
                rf.log.drop (idx - rf.firstIndex).toNat, idx⟩
              snapshot := gobInt idx ++ gobInt e0.Term ++ snapshot }
          updateSnap := true }) := by
  by_cases h : idx ≤ rf.firstIndex ∨ idx > (rf.log.length : Int) - 1 + rf.firstIndex
  · left
    refine ⟨h, ?_⟩
    unfold IssueSnapshot
    rw [if_pos h]
  · right
    refine ⟨h, ?_⟩
    have h1 : ¬ idx ≤ rf.firstIndex := fun hc => h (Or.inl hc)
    have h2 : ¬ idx > (rf.log.length : Int) - 1 + rf.firstIndex := fun hc => h (Or.inr hc)
    obtain ⟨e0, he0, hget⟩ := index_some_of_lt rf.log (idx - rf.firstIndex) (by omega) (by omega)
    refine ⟨e0, he0, ?_⟩
    unfold IssueSnapshot
    rw [if_neg h, sliceFrom_some _ _ (by omega) (by omega)]
    dsimp only
    have hhead : index (List.drop (idx - rf.firstIndex).toNat rf.log) 0 = some e0 := by
      unfold index
      rw [if_neg (by omega)]
      simp only [Int.toNat_zero, List.getElem?_drop, Nat.add_zero]
      exact hget
    simp only [persist_log] at hhead ⊢
    rw [hhead]
    rfl

/-- `checkCommit` leaves `commitIndex` at least what it was and `lastApplied` as
it was. -/
theorem checkCommit_cursors (rf rf2 : Raft) (msgs : List ApplyMsg)
    (h : checkCommit rf = some (rf2, msgs)) :
    rf.commitIndex ≤ rf2.commitIndex ∧ rf2.lastApplied = rf.lastApplied := by
  obtain ⟨ks, -, hcases⟩ := checkCommit_cases rf rf2 msgs h
  rcases hcases with ⟨hM, hrf2, -⟩ | ⟨-, hrf2, -⟩
  · rw [hrf2]
    exact ⟨le_of_lt hM.2, rfl⟩
  · rw [hrf2]
    exact ⟨le_refl _, rfl⟩

/-- The delivery cursor that the accepting part of `AppendEntries` leaves:
`lastApplied` follows `commitIndex` when `commitIndex` is beyond it. -/
theorem appendEntriesAccept_lastApplied (rf rf2 : Raft) (args : AppendEntriesArgs)
    (reply : AppendEntriesReply) (msgs : List ApplyMsg)
    (h : appendEntriesAccept rf args = some (rf2, reply, msgs)) :
    rf2.lastApplied =
      (if rf2.commitIndex > rf.lastApplied then rf2.commitIndex else rf.lastApplied) := by
  unfold appendEntriesAccept at h
  cases hm : mergeBlock rf args with
  | none => rw [hm] at h; cases h
  | some rf1 =>
    rw [hm] at h
    obtain ⟨-, -, -, -, -, f6⟩ := mergeBlock_frame rf rf1 args hm
    dsimp only at h
    by_cases hc : args.LeaderCommit > rf1.commitIndex
    · simp only [hc, if_true] at h
      by_cases hd : raft.min args.LeaderCommit (rf1.firstIndex + (rf1.log.length : Int) - 1)
          > rf1.lastApplied
      · rw [if_pos hd] at h
        split at h
        · cases h
        · cases h
          simp only [persist_lastApplied, persist_commitIndex]
          rw [if_pos (by rw [← f6]; exact hd)]
      · rw [if_neg hd] at h
        cases h
        simp only [persist_lastApplied, persist_commitIndex]
        rw [if_neg (by rw [← f6]; exact hd), f6]
    · simp only [hc, if_false] at h
      by_cases hd : rf1.commitIndex > rf1.lastApplied
      · rw [if_pos hd] at h
        split at h
        · cases h
        · cases h
          simp only [persist_lastApplied, persist_commitIndex]
          rw [if_pos (by rw [← f6]; exact hd)]
      · rw [if_neg hd] at h
        cases h
        simp only [persist_lastApplied, persist_commitIndex]
        rw [if_neg (by rw [← f6]; exact hd), f6]

/-- An `AppendEntries` that replies `Success = false` leaves the log and the
cursors as they were and delivers nothing. -/
theorem AppendEntries_reject (rf rf2 : Raft) (args : AppendEntriesArgs)
    (reply : AppendEntriesReply) (msgs : List ApplyMsg)
    (h : AppendEntries rf args = some (rf2, reply, msgs)) (hs : reply.Success = false) :
    rf2.commitIndex = rf.commitIndex ∧ rf2.lastApplied = rf.lastApplied ∧
    rf2.log = rf.log ∧ rf2.firstIndex = rf.firstIndex ∧ msgs = [] := by
  obtain ⟨l1, l2, l3, l4⟩ := adoptTerm_log rf args
  have hacc : appendEntriesAccept (adoptTerm rf args) args = some (rf2, reply, msgs) →
      rf2.commitIndex = rf.commitIndex ∧ rf2.lastApplied = rf.lastApplied ∧
      rf2.log = rf.log ∧ rf2.firstIndex = rf.firstIndex ∧ msgs = [] := by
    intro ha
    obtain ⟨_, _, _, _, _, _, _, hsucc, _⟩ := appendEntriesAccept_spec _ rf2 args reply msgs ha
    rw [hs] at hsucc
    cases hsucc
  unfold AppendEntries at h
  by_cases hst : args.Term < rf.currentTerm
  · rw [if_pos hst] at h
    cases h
    exact ⟨rfl, rfl, rfl, rfl, rfl⟩
  · rw [if_neg hst] at h
    unfold appendEntriesResume appendEntriesLog at h
    split at h
    · split at h
      · cases h
        exact ⟨l3, l4, l1, l2, rfl⟩
      · split at h
        · cases h
        · split at h
          · split at h
            · cases h
            · cases h
              exact ⟨l3, l4, l1, l2, rfl⟩
          · exact hacc h
    · exact hacc h

/-- The cursors that `AppendEntries` leaves: `commitIndex` is as it was, or
`LeaderCommit` was beyond it and it is `min(LeaderCommit, lastIndex)` of the log
left; `lastApplied` is as it was, or it was below the `commitIndex` left and is
that `commitIndex`. -/
theorem AppendEntries_cursors (rf rf2 : Raft) (args : AppendEntriesArgs)
    (reply : AppendEntriesReply) (msgs : List ApplyMsg)
    (h : AppendEntries rf args = some (rf2, reply, msgs)) :
    (rf2.commitIndex = rf.commitIndex ∨
      (args.LeaderCommit > rf.commitIndex ∧
        rf2.commitIndex = Min.min args.LeaderCommit (lastIndex rf2))) ∧
    (rf2.lastApplied = rf.lastApplied ∨
      (rf2.commitIndex > rf.lastApplied ∧ rf2.lastApplied = rf2.commitIndex)) ∧
    (reply.Success = true → ¬ rf2.commitIndex > rf.lastApplied →
      rf2.lastApplied = rf.lastApplied) := by
  cases hs : reply.Success with
  | false =>
    obtain ⟨h1, h2, -⟩ := AppendEntries_reject rf rf2 args reply msgs h hs
    exact ⟨Or.inl h1, Or.inl h2, fun hc => by cases hc⟩
  | true =>
    obtain ⟨_, hacc, _⟩ := AppendEntries_success rf rf2 args reply msgs h hs
    obtain ⟨-, l2, l3, l4⟩ := adoptTerm_log rf args
    obtain ⟨rf1, _, hlog, hfirst, -, -, -, -, -, hci⟩ :=
      appendEntriesAccept_spec _ rf2 args reply msgs hacc
    have hla := appendEntriesAccept_lastApplied _ rf2 args reply msgs hacc
    rw [l2, l3] at hci
    rw [l2] at hfirst
    rw [l4] at hla
    refine ⟨?_, ?_, ?_⟩
    · by_cases hgt : args.LeaderCommit > rf.commitIndex
      · right
        refine ⟨hgt, ?_⟩
        rw [hci, if_pos hgt, min_eq]
        unfold lastIndex
        rw [hfirst, hlog]
      · left
        rw [hci, if_neg hgt]
    · by_cases hd : rf2.commitIndex > rf.lastApplied
      · rw [if_pos hd] at hla
        exact Or.inr ⟨hd, hla⟩
      · rw [if_neg hd] at hla
        exact Or.inl hla
    · intro _ hd
      rw [if_neg hd] at hla
      exact hla

/-- `readSnapshot` returns on every peer state and leaves `lastApplied =
commitIndex`. -/
theorem readSnapshot_cursors (rf : Raft) (data : Bytes) :
    ∃ rf2 msgs, readSnapshot rf data = some (rf2, msgs) ∧
      rf2.lastApplied = rf2.commitIndex := by
  unfold readSnapshot
  dsimp only
  generalize (match gobReadInt data with
    | none => ((0 : Int), (0 : Int))
    | some (i, rest) =>
      match gobReadInt rest with
      | none => (i, 0)
      | some (t, _) => (i, t)) = decoded
  generalize readPersist rf = rf1
  by_cases hout : (rf1.log.length : Int) + rf1.firstIndex ≤ decoded.1 ∨ decoded.1 < rf1.firstIndex
  · rw [if_pos hout]
    exact ⟨_, _, rfl, rfl⟩
  · rw [if_neg hout]
    have h1 : ¬ (rf1.log.length : Int) + rf1.firstIndex ≤ decoded.1 := fun hc => hout (Or.inl hc)
    have h2 : ¬ decoded.1 < rf1.firstIndex := fun hc => hout (Or.inr hc)
    obtain ⟨e, he, -⟩ := index_some_of_lt rf1.log (decoded.1 - rf1.firstIndex)
      (by omega) (by omega)
    rw [he]
    dsimp only
    by_cases ht : e.Term = decoded.2
    · rw [if_pos ht, sliceFrom_some _ _ (by omega) (by omega)]
      exact ⟨_, _, rfl, rfl⟩
    · rw [if_neg ht]
      exact ⟨_, _, rfl, rfl⟩

/-- C12 (amended): `checkCommit` leaves `commitIndex` at least what it was;
`AppendEntries` does whenever the log it leaves reaches the old `commitIndex`;
`InstallSnapshot` and `IssueSnapshot` return, leave `commitIndex` as it was when
the request is ignored (a stale term or `LastIncludedIndex < firstIndex`; `idx ≤
firstIndex` or `idx > lastIndex`), and leave it at least what it was whenever
the snapshot index (`LastIncludedIndex`, `idx`) is not below the old
`commitIndex`; each leaves `commitIndex` as it was or at the snapshot index. -/
theorem commitIndex_le (rf : Raft) :
    (∀ rf2 msgs, checkCommit rf = some (rf2, msgs) → rf.commitIndex ≤ rf2.commitIndex) ∧
    (∀ args rf2 reply msgs, AppendEntries rf args = some (rf2, reply, msgs) →
      rf.commitIndex ≤ lastIndex rf2 → rf.commitIndex ≤ rf2.commitIndex) ∧
    (∀ args, ∃ rf2 reply msgs, InstallSnapshot rf args = some (rf2, reply, msgs) ∧
      (args.Term < rf.currentTerm ∨ args.LastIncludedIndex < rf.firstIndex →
        rf2.commitIndex = rf.commitIndex) ∧
      (rf2.commitIndex = rf.commitIndex ∨ rf2.commitIndex = args.LastIncludedIndex) ∧
      (rf.commitIndex ≤ args.LastIncludedIndex → rf.commitIndex ≤ rf2.commitIndex)) ∧
    (∀ idx snapshot, ∃ rf2, IssueSnapshot rf idx snapshot = some rf2 ∧
      (idx ≤ rf.firstIndex ∨ idx > lastIndex rf → rf2.commitIndex = rf.commitIndex) ∧
      (rf2.commitIndex = rf.commitIndex ∨ rf2.commitIndex = idx) ∧
      (rf.commitIndex ≤ idx → rf.commitIndex ≤ rf2.commitIndex)) := by
  refine ⟨?_, ?_, ?_, ?_⟩
  · intro rf2 msgs h
    exact (checkCommit_cursors rf rf2 msgs h).1
  · intro args rf2 reply msgs h hlast
    rcases (AppendEntries_cursors rf rf2 args reply msgs h).1 with hc | ⟨hgt, hc⟩
    · rw [hc]
    · rw [hc]
      exact le_min (le_of_lt hgt) hlast
  · intro args
    rcases InstallSnapshot_cases rf args with ⟨-, he⟩ | ⟨-, -, he⟩ | ⟨h1, h2, he⟩
    · exact ⟨_, _, _, he, fun _ => rfl, Or.inl rfl, fun _ => le_refl _⟩
    · exact ⟨_, _, _, he, fun _ => rfl, Or.inl rfl, fun _ => le_refl _⟩
    · refine ⟨_, _, _, he, ?_, Or.inr rfl, fun hc => hc⟩
      rintro (hc | hc)
      · exact absurd hc h1
      · exact absurd hc h2
  · intro idx snapshot
    rcases IssueSnapshot_cases rf idx snapshot with ⟨-, he⟩ | ⟨hin, e0, -, he⟩
    · exact ⟨_, he, fun _ => rfl, Or.inl rfl, fun _ => le_refl _⟩
    · refine ⟨_, he, ?_, Or.inr rfl, fun hc => hc⟩
      intro hc
      exfalso
      apply hin
      unfold lastIndex at hc
      rcases hc with hc | hc
      · exact Or.inl hc
      · right; omega

/-- The amended C12 on the four operations.  `checkCommit` takes `leaderOfThree`
from `commitIndex` 0 to 1.  `AppendEntries` with `LeaderCommit = 4` takes
`pendingThree` from 3 to 4.  On `appliedThree` (term 1, `commitIndex = 3`) a
stale `InstallSnapshot` through index 2 leaves 3 and one of term 2 through index
5 leaves 5; on `compactedAhead` (`firstIndex = 5`, `commitIndex = 6`) an
`InstallSnapshot` through index 4 leaves 6, `IssueSnapshot` at 5 and at 7, out
of range, leave 6, and `IssueSnapshot` at 6 leaves 6. -/
theorem commitIndex_le_witness :
    (∃ rf2 msgs, checkCommit leaderOfThree = some (rf2, msgs) ∧ rf2.commitIndex = 1 ∧
      leaderOfThree.commitIndex ≤ rf2.commitIndex) ∧
    (∃ rf2 reply msgs, AppendEntries pendingThree appendAtFour = some (rf2, reply, msgs) ∧
      rf2.commitIndex = 4 ∧ pendingThree.commitIndex ≤ rf2.commitIndex) ∧
    (∃ rf2 reply msgs, InstallSnapshot appliedThree snapshotTwoStale = some (rf2, reply, msgs) ∧
      rf2.commitIndex = 3) ∧
    (∃ rf2 reply msgs, InstallSnapshot appliedThree snapshotFive = some (rf2, reply, msgs) ∧
      appliedThree.commitIndex ≤ rf2.commitIndex) ∧
    (∃ rf2 reply msgs, InstallSnapshot compactedAhead snapshotFourLater =
        some (rf2, reply, msgs) ∧ rf2.commitIndex = 6) ∧
    (∃ rf2, IssueSnapshot compactedAhead 5 [] = some rf2 ∧ rf2.commitIndex = 6) ∧
    (∃ rf2, IssueSnapshot compactedAhead 7 [] = some rf2 ∧ rf2.commitIndex = 6) ∧
    (∃ rf2, IssueSnapshot compactedAhead 6 [] = some rf2 ∧
      compactedAhead.commitIndex ≤ rf2.commitIndex) := by
  refine ⟨?_, ?_, ?_, ?_, ?_, ?_, ?_, ?_⟩
  · have hv : (checkCommit leaderOfThree).map (fun r => r.1.commitIndex) = some 1 := by decide
    cases h : checkCommit leaderOfThree with
    | none => rw [h] at hv; cases hv
    | some r =>
      obtain ⟨rf2, msgs⟩ := r
      rw [h] at hv
      exact ⟨rf2, msgs, rfl, by simpa using hv, (commitIndex_le leaderOfThree).1 rf2 msgs h⟩
  · have hv : (AppendEntries pendingThree appendAtFour).map
        (fun r => (r.1.commitIndex, lastIndex r.1)) = some (4, 4) := by decide
    cases h : AppendEntries pendingThree appendAtFour with
    | none => rw [h] at hv; cases hv
    | some r =>
      obtain ⟨rf2, reply, msgs⟩ := r
      rw [h] at hv
      simp only [Option.map_some', Option.some.injEq, Prod.mk.injEq] at hv
      refine ⟨rf2, reply, msgs, rfl, hv.1,
        (commitIndex_le pendingThree).2.1 appendAtFour rf2 reply msgs h ?_⟩
      rw [hv.2]
      decide
  · obtain ⟨rf2, reply, msgs, h, hkeep, -, -⟩ :=
      (commitIndex_le appliedThree).2.2.1 snapshotTwoStale
    exact ⟨rf2, reply, msgs, h, hkeep (Or.inl (by decide))⟩
  · obtain ⟨rf2, reply, msgs, h, -, -, hle⟩ :=
      (commitIndex_le appliedThree).2.2.1 snapshotFive
    exact ⟨rf2, reply, msgs, h, hle (by decide)⟩
  · obtain ⟨rf2, reply, msgs, h, hkeep, -, -⟩ :=
      (commitIndex_le compactedAhead).2.2.1 snapshotFourLater
    exact ⟨rf2, reply, msgs, h, hkeep (Or.inr (by decide))⟩
  · obtain ⟨rf2, h, hkeep, -, -⟩ := (commitIndex_le compactedAhead).2.2.2 5 []
    exact ⟨rf2, h, hkeep (Or.inl (by decide))⟩
  · obtain ⟨rf2, h, hkeep, -, -⟩ := (commitIndex_le compactedAhead).2.2.2 7 []
    exact ⟨rf2, h, hkeep (Or.inr (by decide))⟩
  · obtain ⟨rf2, h, -, -, hle⟩ := (commitIndex_le compactedAhead).2.2.2 6 []
    exact ⟨rf2, h, hle (by decide)⟩

/-- C12 as stated fails: on `appliedThree` (`commitIndex = 3`) the call
`IssueSnapshot(2, _)` leaves `commitIndex = 2`, an `InstallSnapshot` through index 2
leaves `commitIndex = 2`, and an accepted `AppendEntries` that cuts the log back to
index 1 leaves `commitIndex = 1`. -/
theorem commitIndex_le_counterexample :
    appliedThree.commitIndex = 3 ∧
    (∃ rf2, IssueSnapshot appliedThree 2 [] = some rf2 ∧ rf2.commitIndex = 2 ∧
      ¬ appliedThree.commitIndex ≤ rf2.commitIndex) ∧
    (∃ rf2 reply msgs, InstallSnapshot appliedThree snapshotTwo = some (rf2, reply, msgs) ∧
      rf2.commitIndex = 2 ∧ ¬ appliedThree.commitIndex ≤ rf2.commitIndex) ∧
    (∃ rf2 reply msgs, AppendEntries appliedThree rewriteFromOne = some (rf2, reply, msgs) ∧
      reply.Success = true ∧ rf2.commitIndex = 1 ∧
      ¬ appliedThree.commitIndex ≤ rf2.commitIndex) := by
  refine ⟨rfl, ?_, ?_, ?_⟩
  · have hv : (IssueSnapshot appliedThree 2 []).map (fun r => r.commitIndex) = some 2 := by
      decide
    cases h : IssueSnapshot appliedThree 2 [] with
    | none => rw [h] at hv; cases hv
    | some rf2 =>
      rw [h] at hv
      have hc : rf2.commitIndex = 2 := by simpa using hv
      refine ⟨rf2, rfl, hc, ?_⟩
      rw [hc]
      decide
  · have hv : (InstallSnapshot appliedThree snapshotTwo).map (fun r => r.1.commitIndex)
        = some 2 := by decide
    cases h : InstallSnapshot appliedThree snapshotTwo with
    | none => rw [h] at hv; cases hv
    | some r =>
      obtain ⟨rf2, reply, msgs⟩ := r
      rw [h] at hv
      have hc : rf2.commitIndex = 2 := by simpa using hv
      refine ⟨rf2, reply, msgs, rfl, hc, ?_⟩
      rw [hc]
      decide
  · have hv : (AppendEntries appliedThree rewriteFromOne).map
        (fun r => (r.2.1.Success, r.1.commitIndex)) = some (true, 1) := by decide
    cases h : AppendEntries appliedThree rewriteFromOne with
    | none => rw [h] at hv; cases hv
    | some r =>
      obtain ⟨rf2, reply, msgs⟩ := r
      rw [h] at hv
      simp only [Option.map_some', Option.some.injEq, Prod.mk.injEq] at hv
      refine ⟨rf2, reply, msgs, rfl, hv.1, hv.2, ?_⟩
      rw [hv.2]
      decide

/-- C13 (the code at the failing run): `leaderOfThree` runs `checkCommit`, which
delivers index 1 and advances `commitIndex` but not `lastApplied`; as a follower
it then accepts the heartbeat of the next leader, whose delivery loop starts at
`lastApplied + 1` and delivers index 1 a second time. -/
theorem delivery_repeats_after_checkCommit :
    (deliverAll leaderOfThree
      [DeliveryStep.checkCommit, DeliveryStep.appendEntries heartbeatTwo]).map
        (fun r => r.2.map (fun m => m.Index)) = some [1, 1] ∧
    (checkCommit leaderOfThree).map
      (fun r => (r.2.map (fun m => m.Index), r.1.commitIndex, r.1.lastApplied))
        = some ([1], 1, 0) := by
  constructor <;> decide

/-- `Make` returns on every persister and builds a peer with `lastApplied =
commitIndex`. -/
theorem Make_cursors (nPeers : Nat) (me : Int) (persister : Persister) :
    ∃ rf msgs, Make nPeers me persister = some (rf, msgs) ∧
      rf.lastApplied = rf.commitIndex := by
  unfold Make
  exact readSnapshot_cursors _ _

/-- C14 (amended): `lastApplied ≤ commitIndex` holds in the state built by `Make`
and is preserved by `checkCommit`, `InstallSnapshot`, `IssueSnapshot` and
`readSnapshot`, and by `AppendEntries` whenever the log it leaves reaches the old
`lastApplied`. -/
theorem lastApplied_le_commitIndex :
    (∀ (nPeers : Nat) (me : Int) (persister : Persister),
      ∃ rf msgs, Make nPeers me persister = some (rf, msgs) ∧
        rf.lastApplied ≤ rf.commitIndex) ∧
    (∀ rf : Raft, rf.lastApplied ≤ rf.commitIndex →
      (∀ args rf2 reply msgs, AppendEntries rf args = some (rf2, reply, msgs) →
        rf.lastApplied ≤ lastIndex rf2 → rf2.lastApplied ≤ rf2.commitIndex) ∧
      (∀ rf2 msgs, checkCommit rf = some (rf2, msgs) → rf2.lastApplied ≤ rf2.commitIndex) ∧
      (∀ args rf2 reply msgs, InstallSnapshot rf args = some (rf2, reply, msgs) →
        rf2.lastApplied ≤ rf2.commitIndex) ∧
      (∀ idx snapshot rf2, IssueSnapshot rf idx snapshot = some rf2 →
        rf2.lastApplied ≤ rf2.commitIndex) ∧
      (∀ data rf2 msgs, readSnapshot rf data = some (rf2, msgs) →
        rf2.lastApplied ≤ rf2.commitIndex)) := by
  constructor
  · intro nPeers me persister
    obtain ⟨rf, msgs, h, heq⟩ := Make_cursors nPeers me persister
    exact ⟨rf, msgs, h, le_of_eq heq⟩
  · intro rf hinv
    refine ⟨?_, ?_, ?_, ?_, ?_⟩
    · intro args rf2 reply msgs h hlast
      obtain ⟨hc, hl, -⟩ := AppendEntries_cursors rf rf2 args reply msgs h
      rcases hl with hl | ⟨-, hl⟩
      · rw [hl]
        rcases hc with hc | ⟨hgt, hc⟩
        · rw [hc]; exact hinv
        · rw [hc]
          exact le_min (by omega) hlast
      · rw [hl]
    · intro rf2 msgs h
      obtain ⟨h1, h2⟩ := checkCommit_cursors rf rf2 msgs h
      omega
    · intro args rf2 reply msgs h
      rcases InstallSnapshot_cases rf args with ⟨-, he⟩ | ⟨-, -, he⟩ | ⟨-, -, he⟩
      · rw [he] at h; cases h; exact hinv
      · rw [he] at h; cases h; exact hinv
      · rw [he] at h; cases h; exact le_refl _
    · intro idx snapshot rf2 h
      rcases IssueSnapshot_cases rf idx snapshot with ⟨-, he⟩ | ⟨-, e0, -, he⟩
      · rw [he] at h; cases h; exact hinv
      · rw [he] at h; cases h; exact le_refl _
    · intro data rf2 msgs h
      obtain ⟨rf3, msgs3, h3, heq⟩ := readSnapshot_cursors rf data
      rw [h3] at h
      cases h
      exact le_of_eq heq

/-- The amended C14 at scenario S3: `s3Follower` has `lastApplied = commitIndex =
0`; the accepted `AppendEntries` leaves a log that reaches index 0 and `lastApplied
= commitIndex = 2`. -/
theorem lastApplied_le_commitIndex_witness :
    s3Follower.lastApplied ≤ s3Follower.commitIndex ∧
    ∃ rf2 reply msgs, AppendEntries s3Follower s3Args = some (rf2, reply, msgs) ∧
      s3Follower.lastApplied ≤ lastIndex rf2 ∧ rf2.commitIndex = 2 ∧
      rf2.lastApplied ≤ rf2.commitIndex := by
  refine ⟨by decide, ?_⟩
  have hv : (AppendEntries s3Follower s3Args).map
      (fun r => (lastIndex r.1, r.1.commitIndex)) = some (2, 2) := by decide
  cases h : AppendEntries s3Follower s3Args with
  | none => rw [h] at hv; cases hv
  | some r =>
    obtain ⟨rf2, reply, msgs⟩ := r
    rw [h] at hv
    simp only [Option.map_some', Option.some.injEq, Prod.mk.injEq] at hv
    have hlast : s3Follower.lastApplied ≤ lastIndex rf2 := by rw [hv.1]; decide
    exact ⟨rf2, reply, msgs, rfl, hlast, hv.2,
      ((lastApplied_le_commitIndex.2 s3Follower (by decide)).1 s3Args rf2 reply msgs h hlast)⟩

/-- C14 as stated fails: `appliedThree` has `lastApplied = commitIndex = 3`; the
`AppendEntries` of term 2 behind index 0 is accepted, cuts the log back to index 1
and leaves `commitIndex = min(4, 1) = 1` below `lastApplied = 3`. -/
theorem lastApplied_le_commitIndex_counterexample :
    appliedThree.lastApplied ≤ appliedThree.commitIndex ∧
    ∃ rf2 reply msgs, AppendEntries appliedThree rewriteFromOne = some (rf2, reply, msgs) ∧
      reply.Success = true ∧ rf2.lastApplied = 3 ∧ rf2.commitIndex = 1 ∧
      ¬ rf2.lastApplied ≤ rf2.commitIndex := by
  refine ⟨by decide, ?_⟩
  have hv : (AppendEntries appliedThree rewriteFromOne).map
      (fun r => (r.2.1.Success, r.1.lastApplied, r.1.commitIndex)) = some (true, 3, 1) := by
    decide
  cases h : AppendEntries appliedThree rewriteFromOne with
  | none => rw [h] at hv; cases hv
  | some r =>
    obtain ⟨rf2, reply, msgs⟩ := r
    rw [h] at hv
    simp only [Option.map_some', Option.some.injEq, Prod.mk.injEq] at hv
    refine ⟨rf2, reply, msgs, rfl, hv.1, hv.2.1, hv.2.2, ?_⟩
    rw [hv.2.1, hv.2.2]
    decide

/-! ## Stale and later terms -/

/-- C15: a stale request (`args.Term < currentTerm`) is rejected without effect.
`RequestVote` replies `Term = currentTerm`, `VoteGranted = false`; `AppendEntries`
replies `Term = currentTerm`, `Success = false`, `ConflictIndex = 0`;
`InstallSnapshot` replies `Term = currentTerm` and delivers nothing; each handler
returns and leaves `currentTerm`, `votedFor`, the role, the log, `firstIndex`,
`commitIndex` and `lastApplied` as they were (`RequestVote` and `InstallSnapshot`
leave the whole peer state, `AppendEntries` writes the persister only). -/
theorem stale_rejected (rf : Raft) :
    (∀ args : RequestVoteArgs, args.Term < rf.currentTerm →
      RequestVote rf args = some (rf, { Term := rf.currentTerm, VoteGranted := false })) ∧
    (∀ args : AppendEntriesArgs, args.Term < rf.currentTerm →
      ∃ rf2, AppendEntries rf args =
          some (rf2, { Term := rf.currentTerm, Success := false, ConflictIndex := 0 }, []) ∧
        rf2.currentTerm = rf.currentTerm ∧ rf2.votedFor = rf.votedFor ∧
        rf2.state = rf.state ∧ rf2.log = rf.log ∧ rf2.firstIndex = rf.firstIndex ∧
        rf2.commitIndex = rf.commitIndex ∧ rf2.lastApplied = rf.lastApplied) ∧
    (∀ args : InstallSnapshotArgs, args.Term < rf.currentTerm →
      InstallSnapshot rf args = some (rf, { Term := rf.currentTerm }, [])) := by
  refine ⟨?_, ?_, ?_⟩
  · intro args h
    unfold RequestVote
    have hngt : ¬ args.Term > rf.currentTerm := by omega
    simp only [hngt, if_false, h, if_true]
  · intro args h
    unfold AppendEntries
    rw [if_pos h]
    exact ⟨_, rfl, rfl, rfl, rfl, rfl, rfl, rfl, rfl⟩
  · intro args h
    unfold InstallSnapshot
    rw [if_pos h]

/-- C15 at `s6Voter` (term 4) and requests of term 3: the three handlers reply
term 4 with a negative result and leave the peer's term, vote, role, log and
cursors. -/
theorem stale_rejected_witness :
    RequestVote s6Voter { s6ArgsA with Term := 3 } =
      some (s6Voter, { Term := 4, VoteGranted := false }) ∧
    InstallSnapshot s6Voter { snapshotTwo with Term := 3 } = some (s6Voter, { Term := 4 }, []) ∧
    ∃ rf2, AppendEntries s6Voter { s3Args with Term := 3 } =
        some (rf2, { Term := 4, Success := false, ConflictIndex := 0 }, []) ∧
      rf2.log = s6Voter.log ∧ rf2.commitIndex = s6Voter.commitIndex := by
  obtain ⟨h1, h2, h3⟩ := stale_rejected s6Voter
  refine ⟨h1 _ (by decide), h3 _ (by decide), ?_⟩
  obtain ⟨rf2, h, -, -, -, hl, -, hc, -⟩ := h2 { s3Args with Term := 3 } (by decide)
  exact ⟨rf2, h, hl, hc⟩

/-- C16 (the code at the failing inputs): `InstallSnapshot` does not adopt a
higher term.  `appliedThree` (term 1, voted for peer 0) installs a snapshot sent
with term 2 and stays in term 1 with its vote; `compactedAhead` (Candidate of
term 2) gets a snapshot of term 3 whose index is below its `firstIndex` and stays
Candidate of term 2. -/
theorem InstallSnapshot_keeps_lower_term :
    snapshotTwoLater.Term > appliedThree.currentTerm ∧
    (InstallSnapshot appliedThree snapshotTwoLater).map
      (fun r => (r.1.currentTerm, r.1.votedFor, r.1.state)) = some (1, 0, Role.FOLLOWER) ∧
    snapshotFourLater.Term > compactedAhead.currentTerm ∧
    (InstallSnapshot compactedAhead snapshotFourLater).map
      (fun r => (r.1.currentTerm, r.1.votedFor, r.1.state)) = some (2, 1, Role.CANDIDATE) := by
  refine ⟨by decide, by decide, by decide, by decide⟩

/-! ## Start -/

/-- The loop of `issueAppendEntries` returns when `nextIndex` has a slot for
every peer it visits. -/
theorem issueLoop_some (hb : Bool) :
    ∀ (ns : List Nat) (rf : Raft), (∀ n ∈ ns, n < rf.nextIndex.length) →
      ∃ r, issueLoop hb ns rf = some r := by
  intro ns
  induction ns with
  | nil => intro rf _; exact ⟨_, rfl⟩
  | cons n ns ih =>
    intro rf hall
    unfold issueLoop
    by_cases hme : (n : Int) = rf.me
    · rw [if_pos hme]
      exact ih rf (fun m hm => hall m (List.mem_cons_of_mem _ hm))
    · rw [if_neg hme]
      have hn : n < rf.nextIndex.length := hall n (List.mem_cons_self _ _)
      have hidx : index rf.nextIndex (n : Int) = some rf.nextIndex[n] := by
        rw [index_natCast]; exact List.getElem?_eq_getElem hn
      rw [hidx]
      dsimp only
      obtain ⟨r, hr⟩ := ih { rf with updateSnap := false }
        (fun m hm => hall m (List.mem_cons_of_mem _ hm))
      by_cases h1 : rf.nextIndex[n] ≤ rf.firstIndex
      · rw [if_pos h1]
        dsimp only
        rw [hr]
        exact ⟨_, rfl⟩
      · rw [if_neg h1]
        by_cases h2 : rf.nextIndex[n] - 1 - rf.firstIndex ≥ 0 ∧
            rf.nextIndex[n] - 1 - rf.firstIndex < (rf.log.length : Int)
        · rw [if_pos h2]
          obtain ⟨e, he, -⟩ := index_some_of_lt rf.log (rf.nextIndex[n] - 1 - rf.firstIndex)
            h2.1 h2.2
          rw [he]
          dsimp only
          rw [hr]
          exact ⟨_, rfl⟩
        · rw [if_neg h2]
          dsimp only
          rw [hr]
          exact ⟨_, rfl⟩

/-- C17: `Start(command)` on a Leader returns `(old lastIndex + 1, currentTerm,
true)` and leaves the old log with the one entry `{command, currentTerm}`
appended, every entry that was there as it was; it returns whenever `nextIndex`
has a slot for every peer, as `leaderInit` makes it.  On a peer that is not
Leader it returns `(-1, currentTerm, false)` and leaves the peer state as it
was. -/
theorem Start_spec (rf : Raft) (command : Cmd) :
    (rf.state = Role.LEADER →
      (∀ rf2 ts out, Start rf command = some (rf2, ts, out) →
        out = (lastIndex rf + 1, rf.currentTerm, true) ∧
        rf2.log = rf.log ++ [{ Command := command, Term := rf.currentTerm }] ∧
        rf2.firstIndex = rf.firstIndex ∧
        (∀ i e, entryAt rf i = some e → entryAt rf2 i = some e) ∧
        entryAt rf2 (lastIndex rf + 1) = some { Command := command, Term := rf.currentTerm } ∧
        lastIndex rf2 = lastIndex rf + 1) ∧
      (rf.nPeers ≤ rf.nextIndex.length → ∃ rf2 ts out, Start rf command = some (rf2, ts, out))) ∧
    (rf.state ≠ Role.LEADER →
      Start rf command = some (rf, [], (-1, rf.currentTerm, false))) := by
  constructor
  · intro hlead
    constructor
    · intro rf2 ts out h
      unfold Start at h
      dsimp only at h
      rw [if_pos hlead] at h
      split at h
      · cases h
      · rename_i rf3 ts3 heq
        cases h
        unfold issueAppendEntries at heq
        obtain ⟨-, -, -, hlog, hfirst, -, -⟩ := issueLoop_frame false _ _ _ _ heq
        simp only [persist_log, persist_firstIndex] at hlog hfirst
        have hlast : lastIndex rf2 = lastIndex rf + 1 := by
          unfold lastIndex
          rw [hlog, hfirst, List.length_append]
          simp only [List.length_singleton]
          push_cast
          omega
        refine ⟨?_, hlog, hfirst, ?_, ?_, hlast⟩
        · unfold lastIndex
          simp only [Prod.mk.injEq, and_true]
          omega
        · intro i e he
          unfold entryAt at he ⊢
          rw [hlog, hfirst]
          obtain ⟨h0, hget⟩ := (index_eq_some _ _ _).1 he
          apply (index_eq_some _ _ _).2
          refine ⟨h0, ?_⟩
          obtain ⟨hlt, -⟩ := List.getElem?_eq_some.1 hget
          rw [List.getElem?_append_left hlt]
          exact hget
        · unfold entryAt lastIndex
          rw [hlog, hfirst]
          apply (index_eq_some _ _ _).2
          refine ⟨by omega, ?_⟩
          have : (rf.firstIndex + (rf.log.length : Int) - 1 + 1 - rf.firstIndex).toNat
              = rf.log.length := by omega
          rw [this, List.getElem?_append_right (le_refl _)]
          simp
    · intro hslots
      unfold Start
      dsimp only
      rw [if_pos hlead]
      have hr : ∃ r, issueAppendEntries
          (persist { rf with log := rf.log ++ [{ Command := command, Term := rf.currentTerm }] })
          false = some r := by
        unfold issueAppendEntries
        apply issueLoop_some
        intro n hn
        have := List.mem_range.1 hn
        show n < rf.nextIndex.length
        have hnp : (persist { rf with
            log := rf.log ++ [{ Command := command, Term := rf.currentTerm }] }).nPeers
            = rf.nPeers := rfl
        omega
      obtain ⟨r, hr⟩ := hr
      rw [hr]
      obtain ⟨rf3, ts3⟩ := r
      exact ⟨_, _, _, rfl⟩
  · intro hnl
    unfold Start
    dsimp only
    rw [if_neg hnl]

/-- C17 at `leaderOfThree`: the peer is Leader and `nextIndex` has three slots;
`Start(7)` returns `(2, 1, true)` and leaves the log `[sentinel, 10, 7]`. -/
theorem Start_spec_witness :
    leaderOfThree.state = Role.LEADER ∧
    ∃ rf2 ts, Start leaderOfThree (some 7) = some (rf2, ts, (2, 1, true)) ∧
      rf2.log = [⟨none, 0⟩, ⟨some 10, 1⟩, ⟨some 7, 1⟩] := by
  obtain ⟨hpart, htotal⟩ := (Start_spec leaderOfThree (some 7)).1 rfl
  obtain ⟨rf2, ts, out, h⟩ := htotal (by decide)
  obtain ⟨hout, hlog, -⟩ := hpart rf2 ts out h
  refine ⟨rfl, rf2, ts, ?_, ?_⟩
  · rw [h, hout]
    rfl
  · rw [hlog]
    rfl

/-! ## Installing a snapshot -/

/-- The head of the log that `InstallSnapshot` leaves carries the term of the
snapshot. -/
theorem installedLog_head (log : List Entry) (b L lastTerm : Int) :
    ∃ e, index (installedLog log b L lastTerm) 0 = some e ∧ e.Term = lastTerm := by
  unfold installedLog
  split
  · rename_i hc
    obtain ⟨h1, h2, h3⟩ := hc
    cases hi : index log (L - b) with
    | none => rw [hi] at h3; cases h3
    | some e =>
      rw [hi] at h3
      have ht : e.Term = lastTerm := by simpa using h3
      obtain ⟨-, hget⟩ := (index_eq_some _ _ _).1 hi
      refine ⟨e, ?_, ht⟩
      unfold index
      rw [if_neg (by omega)]
      simp only [Int.toNat_zero, List.getElem?_drop, Nat.add_zero]
      exact hget
  · exact ⟨_, rfl, rfl⟩

/-- A log whose head carries the term of the snapshot is left as it is when the
snapshot through its own first index is installed. -/
theorem installedLog_self (l : List Entry) (L lastTerm : Int)
    (h : ∃ e, index l 0 = some e ∧ e.Term = lastTerm) :
    installedLog l L L lastTerm = l := by
  obtain ⟨e, he0, het⟩ := h
  have hlen : 0 < l.length := by
    obtain ⟨-, hget⟩ := (index_eq_some _ _ _).1 he0
    obtain ⟨hlt, -⟩ := List.getElem?_eq_some.1 hget
    exact Nat.lt_of_le_of_lt (Nat.zero_le _) hlt
  have hcond : L ≤ L ∧ L < (l.length : Int) + L ∧
      (index l (L - L)).map Entry.Term = some lastTerm := by
    refine ⟨le_refl _, by omega, ?_⟩
    rw [sub_self, he0]
    simp [het]
  unfold installedLog
  rw [if_pos hcond]
  simp

/-- C18: an accepted `InstallSnapshot` (term not stale, `L = LastIncludedIndex`
above `firstIndex`) returns with `firstIndex = L`, `lastApplied = commitIndex = L`,
role Follower, a log whose head carries `LastIncludedTerm`, and the one delivery
event `UseSnapshot`; if `L ≤` old `lastIndex` and the old term at `L` is
`LastIncludedTerm`, every entry with index `> L` is as it was and `lastIndex` is
as it was, otherwise the log is a single sentinel. -/
theorem InstallSnapshot_accepted (rf : Raft) (args : InstallSnapshotArgs)
    (h1 : args.Term ≥ rf.currentTerm) (h2 : args.LastIncludedIndex > rf.firstIndex) :
    ∃ rf2 reply, InstallSnapshot rf args =
        some (rf2, reply,
          [{ Index := -1, Command := none, UseSnapshot := true, Snapshot := args.Data }]) ∧
      rf2.firstIndex = args.LastIncludedIndex ∧ rf2.lastApplied = args.LastIncludedIndex ∧
      rf2.commitIndex = args.LastIncludedIndex ∧ rf2.state = Role.FOLLOWER ∧
      (∃ e, index rf2.log 0 = some e ∧ e.Term = args.LastIncludedTerm) ∧
      ((args.LastIncludedIndex ≤ lastIndex rf ∧
          (entryAt rf args.LastIncludedIndex).map Entry.Term = some args.LastIncludedTerm) →
        (∀ i, i > args.LastIncludedIndex → entryAt rf2 i = entryAt rf i) ∧
        lastIndex rf2 = lastIndex rf) ∧
      (¬ (args.LastIncludedIndex ≤ lastIndex rf ∧
          (entryAt rf args.LastIncludedIndex).map Entry.Term = some args.LastIncludedTerm) →
        rf2.log = [{ Command := none, Term := args.LastIncludedTerm }]) := by
  have hi := InstallSnapshot_install rf args (by omega) (by omega)
  refine ⟨_, _, hi, rfl, rfl, rfl, rfl, ?_, ?_, ?_⟩
  · simp only [persist_log]
    exact installedLog_head _ _ _ _
  · rintro ⟨hle, hterm⟩
    unfold lastIndex at hle
    unfold entryAt at hterm
    have hlog : installedLog rf.log rf.firstIndex args.LastIncludedIndex args.LastIncludedTerm
        = rf.log.drop (args.LastIncludedIndex - rf.firstIndex).toNat := by
      unfold installedLog
      rw [if_pos ⟨by omega, by omega, hterm⟩]
    constructor
    · intro i hgt
      unfold entryAt index
      simp only [persist_log, persist_firstIndex]
      rw [hlog, if_neg (by omega), if_neg (by omega), List.getElem?_drop]
      congr 1
      omega
    · unfold lastIndex
      simp only [persist_log, persist_firstIndex]
      rw [hlog, List.length_drop]
      omega
  · intro hnot
    simp only [persist_log]
    unfold installedLog
    rw [if_neg]
    rintro ⟨ha, hb, hc⟩
    apply hnot
    unfold lastIndex entryAt
    exact ⟨by omega, hc⟩

/-- C18 at `appliedThree`: the snapshot through index 2 of term 1 is not stale
and above `firstIndex = 0`; the handler leaves `firstIndex = 2`, the entry of index
3 as it was and `lastIndex = 3`. -/
theorem InstallSnapshot_accepted_witness :
    snapshotTwo.Term ≥ appliedThree.currentTerm ∧
    snapshotTwo.LastIncludedIndex > appliedThree.firstIndex ∧
    ∃ rf2 reply, InstallSnapshot appliedThree snapshotTwo =
        some (rf2, reply, [{ Index := -1, Command := none, UseSnapshot := true,
                             Snapshot := [7] }]) ∧
      rf2.firstIndex = 2 ∧ rf2.commitIndex = 2 ∧ rf2.lastApplied = 2 ∧
      entryAt rf2 3 = some ⟨some 12, 1⟩ ∧ lastIndex rf2 = 3 := by
  refine ⟨by decide, by decide, ?_⟩
  obtain ⟨rf2, reply, h, hf, hl, hc, -, -, hkeep, -⟩ :=
    InstallSnapshot_accepted appliedThree snapshotTwo (by decide) (by decide)
  obtain ⟨hk1, hk2⟩ := hkeep (by decide)
  refine ⟨rf2, reply, h, hf, hc, hl, ?_, ?_⟩
  · rw [hk1 3 (by decide)]
    decide
  · rw [hk2]
    decide

/-- C19 (amended): a non-stale `InstallSnapshot` with `LastIncludedIndex` strictly
below `firstIndex` is ignored: the handler returns the peer state as it was
(log, `firstIndex`, `commitIndex`, `lastApplied`, role, stored snapshot) and
delivers nothing.  With `LastIncludedIndex = firstIndex` the snapshot is installed:
role Follower, `lastApplied = commitIndex = LastIncludedIndex`, the data stored
as the snapshot, and one `UseSnapshot` event delivered. -/
theorem InstallSnapshot_below (rf : Raft) (args : InstallSnapshotArgs)
    (h1 : args.Term ≥ rf.currentTerm) :
    (args.LastIncludedIndex < rf.firstIndex →
      InstallSnapshot rf args = some (rf, { Term := 0 }, [])) ∧
    (args.LastIncludedIndex = rf.firstIndex →
      ∃ rf2 reply, InstallSnapshot rf args =
          some (rf2, reply,
            [{ Index := -1, Command := none, UseSnapshot := true, Snapshot := args.Data }]) ∧
        rf2.state = Role.FOLLOWER ∧ rf2.lastApplied = args.LastIncludedIndex ∧
        rf2.commitIndex = args.LastIncludedIndex ∧ rf2.firstIndex = rf.firstIndex ∧
        rf2.persister.snapshot = args.Data) := by
  constructor
  · intro h2
    unfold InstallSnapshot
    rw [if_neg (by omega), if_pos h2]
  · intro h2
    have hi := InstallSnapshot_install rf args (by omega) (by omega)
    exact ⟨_, _, hi, rfl, rfl, rfl, h2, rfl⟩

/-- The amended C19 at `compactedAhead` (`firstIndex = 5`): the snapshot through
index 4 is not stale and is ignored. -/
theorem InstallSnapshot_below_witness :
    snapshotFourLater.Term ≥ compactedAhead.currentTerm ∧
    snapshotFourLater.LastIncludedIndex < compactedAhead.firstIndex ∧
    InstallSnapshot compactedAhead snapshotFourLater = some (compactedAhead, { Term := 0 }, []) :=
  ⟨by decide, by decide,
    (InstallSnapshot_below compactedAhead snapshotFourLater (by decide)).1 (by decide)⟩

/-- C19 as stated fails at equality: `compactedAhead` has `firstIndex = 5`; the
non-stale snapshot with `LastIncludedIndex = 5` is not ignored: the role goes from
Candidate to Follower, `commitIndex` and `lastApplied` from 6 to 5, the stored
snapshot from `[5]` to `[7]`, and a `UseSnapshot` event is delivered. -/
theorem InstallSnapshot_below_counterexample :
    snapshotFive.Term ≥ compactedAhead.currentTerm ∧
    snapshotFive.LastIncludedIndex ≤ compactedAhead.firstIndex ∧
    compactedAhead.state = Role.CANDIDATE ∧ compactedAhead.commitIndex = 6 ∧
    compactedAhead.lastApplied = 6 ∧ compactedAhead.persister.snapshot = [5] ∧
    (InstallSnapshot compactedAhead snapshotFive).map
      (fun r => (r.1.state, r.1.commitIndex, r.1.lastApplied, r.1.persister.snapshot,
        r.2.2.map (fun m => m.UseSnapshot)))
      = some (Role.FOLLOWER, 5, 5, [7], [true]) := by
  refine ⟨by decide, by decide, rfl, rfl, rfl, rfl, by decide⟩

/-- C20: snapshot idempotence.  `InstallSnapshot` returns on every peer state
and request, and handling the same request again on the state it left returns
that very state (log, `firstIndex`, `commitIndex`, `lastApplied`, role,
`currentTerm`, `votedFor`, the persister with the stored snapshot, and every
other field). -/
theorem InstallSnapshot_idempotent (rf : Raft) (args : InstallSnapshotArgs) :
    ∃ rf1 reply1 msgs1, InstallSnapshot rf args = some (rf1, reply1, msgs1) ∧
      ∃ reply2 msgs2, InstallSnapshot rf1 args = some (rf1, reply2, msgs2) := by
  rcases InstallSnapshot_cases rf args with ⟨-, he⟩ | ⟨-, -, he⟩ | ⟨hs, hb, he⟩
  · exact ⟨_, _, _, he, _, _, he⟩
  · exact ⟨_, _, _, he, _, _, he⟩
  · refine ⟨_, _, _, he, ?_⟩
    have h2 := InstallSnapshot_install
      (persist { rf with
        state := Role.FOLLOWER
        persister := { rf.persister with snapshot := args.Data }
        log := installedLog rf.log rf.firstIndex args.LastIncludedIndex args.LastIncludedTerm
        firstIndex := args.LastIncludedIndex
        lastApplied := args.LastIncludedIndex
        commitIndex := args.LastIncludedIndex }) args hs (by
          show ¬ args.LastIncludedIndex < args.LastIncludedIndex
          omega)
    have hsame := installedLog_self
      (installedLog rf.log rf.firstIndex args.LastIncludedIndex args.LastIncludedTerm)
      args.LastIncludedIndex args.LastIncludedTerm (installedLog_head _ _ _ _)
    simp only [persist_log, persist_firstIndex] at h2
    rw [hsame] at h2
    exact ⟨_, _, h2⟩

/-! ## IssueSnapshot -/

/-- C21: `IssueSnapshot(idx, snapshot)` with `firstIndex < idx ≤ lastIndex`
returns; afterwards `firstIndex = idx`, `lastIndex` is what it was, the entry at
every logical index `i ≥ idx` is what it was, so that the new sentinel `log[0]`
is the old entry at `idx` and carries its term, `lastApplied` and `commitIndex`
are `idx` (hence at least `idx`), and `currentTerm`, `votedFor` and the role are
what they were. -/
theorem IssueSnapshot_compacts (rf : Raft) (idx : Int) (snapshot : Bytes)
    (h1 : rf.firstIndex < idx) (h2 : idx ≤ lastIndex rf) :
    ∃ rf2, IssueSnapshot rf idx snapshot = some rf2 ∧
      rf2.firstIndex = idx ∧ lastIndex rf2 = lastIndex rf ∧
      (∀ i, idx ≤ i → entryAt rf2 i = entryAt rf i) ∧
      (∃ e, index rf2.log 0 = some e ∧ entryAt rf idx = some e) ∧
      rf2.lastApplied = idx ∧ rf2.lastApplied ≥ idx ∧
      rf2.commitIndex = idx ∧ rf2.commitIndex ≥ idx ∧
      rf2.currentTerm = rf.currentTerm ∧ rf2.votedFor = rf.votedFor ∧
      rf2.state = rf.state := by
  unfold lastIndex at h2
  rcases IssueSnapshot_cases rf idx snapshot with ⟨hout, -⟩ | ⟨-, e0, he0, hrun⟩
  · exfalso
    rcases hout with hc | hc
    · omega
    · omega
  · refine ⟨_, hrun, rfl, ?_, ?_, ?_, rfl, le_refl _, rfl, le_refl _, rfl, rfl, rfl⟩
    · unfold lastIndex
      simp only [persist_log, persist_firstIndex, List.length_drop]
      have hlen : (idx - rf.firstIndex).toNat ≤ rf.log.length := by omega
      rw [Nat.cast_sub hlen, Int.toNat_of_nonneg (by omega)]
      omega
    · intro i hi
      unfold entryAt index
      simp only [persist_log, persist_firstIndex]
      have e1 : ¬ (i - idx < 0) := by omega
      have e2 : ¬ (i - rf.firstIndex < 0) := by omega
      rw [if_neg e1, if_neg e2, List.getElem?_drop]
      congr 1
      omega
    · refine ⟨e0, ?_, he0⟩
      unfold index
      simp only [persist_log]
      rw [if_neg (by omega)]
      simp only [Int.toNat_zero, List.getElem?_drop, Nat.add_zero]
      exact ((index_eq_some _ _ _).mp he0).2

/-- C21 at the peer `appliedThree`: compaction at index 2 leaves the log
`[11, 12]` from index 2 on. -/
theorem IssueSnapshot_compacts_witness :
    appliedThree.firstIndex < 2 ∧ (2 : Int) ≤ lastIndex appliedThree ∧
    ∃ rf2, IssueSnapshot appliedThree 2 [7] = some rf2 ∧
      rf2.firstIndex = 2 ∧ lastIndex rf2 = lastIndex appliedThree ∧
      (∀ i, 2 ≤ i → entryAt rf2 i = entryAt appliedThree i) ∧
      (∃ e, index rf2.log 0 = some e ∧ entryAt appliedThree 2 = some e) ∧
      rf2.lastApplied = 2 ∧ rf2.lastApplied ≥ 2 ∧
      rf2.commitIndex = 2 ∧ rf2.commitIndex ≥ 2 ∧
      rf2.currentTerm = appliedThree.currentTerm ∧ rf2.votedFor = appliedThree.votedFor ∧
      rf2.state = appliedThree.state :=
  ⟨by decide, by decide, IssueSnapshot_compacts appliedThree 2 [7] (by decide) (by decide)⟩

/-- C22: `IssueSnapshot(idx, snapshot)` with `idx ≤ firstIndex` or
`idx > lastIndex` returns and leaves the peer as it was: the log, `firstIndex`,
`commitIndex`, `lastApplied` and what the persister holds, state and snapshot,
are unchanged. -/
theorem IssueSnapshot_out_of_range (rf : Raft) (idx : Int) (snapshot : Bytes)
    (h : idx ≤ rf.firstIndex ∨ idx > lastIndex rf) :
    ∃ rf2, IssueSnapshot rf idx snapshot = some rf2 ∧
      rf2.log = rf.log ∧ rf2.firstIndex = rf.firstIndex ∧
      rf2.commitIndex = rf.commitIndex ∧ rf2.lastApplied = rf.lastApplied ∧
      rf2.persister.raftstate = rf.persister.raftstate ∧
      rf2.persister.snapshot = rf.persister.snapshot ∧ rf2 = rf := by
  unfold lastIndex at h
  rcases IssueSnapshot_cases rf idx snapshot with ⟨-, hrun⟩ | ⟨hin, -⟩
  · exact ⟨rf, hrun, rfl, rfl, rfl, rfl, rfl, rfl, rfl⟩
  · exfalso
    apply hin
    rcases h with hc | hc
    · exact Or.inl hc
    · right; omega

/-- C22 at the peer `compactedAhead`, whose log holds the indices 5 and 6: index
5 is not above `firstIndex` and index 7 is beyond the log. -/
theorem IssueSnapshot_out_of_range_witness :
    ((5 : Int) ≤ compactedAhead.firstIndex ∧ (7 : Int) > lastIndex compactedAhead) ∧
    IssueSnapshot compactedAhead 5 [9] = some compactedAhead ∧
    IssueSnapshot compactedAhead 7 [9] = some compactedAhead := by
  refine ⟨⟨by decide, by decide⟩, ?_, ?_⟩
  · obtain ⟨rf2, h, -, -, -, -, -, -, he⟩ :=
      IssueSnapshot_out_of_range compactedAhead 5 [9] (Or.inl (by decide))
    rw [h, he]
  · obtain ⟨rf2, h, -, -, -, -, -, -, he⟩ :=
      IssueSnapshot_out_of_range compactedAhead 7 [9] (Or.inr (by decide))
    rw [h, he]

/-! ## The leader on a successful reply -/

/-- `checkCommit` returns whenever `firstIndex ≤ commitIndex + 1`, which keeps
its reads inside the log. -/
theorem checkCommit_some (rf : Raft) (hfirst : rf.firstIndex ≤ rf.commitIndex + 1) :
    ∃ rf2 msgs, checkCommit rf = some (rf2, msgs) := by
  have hkeys : ∃ ks, commitKeys rf.log rf.firstIndex rf.currentTerm (rf.commitIndex + 1)
      ((rf.log.length : Int) + rf.firstIndex - (rf.commitIndex + 1)).toNat = some ks := by
    by_cases hempty : (rf.log.length : Int) + rf.firstIndex ≤ rf.commitIndex + 1
    · have h0 : ((rf.log.length : Int) + rf.firstIndex - (rf.commitIndex + 1)).toNat = 0 := by
        omega
      rw [h0]
      exact ⟨[], rfl⟩
    · exact commitKeys_some rf.log rf.firstIndex rf.currentTerm _ (rf.commitIndex + 1)
        hfirst (by omega)
  obtain ⟨ks, hk⟩ := hkeys
  obtain ⟨hmem, -⟩ := commitKeys_spec _ _ _ _ _ _ hk
  obtain ⟨-, hm2, -⟩ := majorityMax_spec rf.matchIndex rf.nPeers ks (-1)
  unfold checkCommit
  rw [hk]
  dsimp only
  by_cases hM : majorityMax rf.matchIndex rf.nPeers ks (-1) ≠ -1 ∧
      majorityMax rf.matchIndex rf.nPeers ks (-1) > rf.commitIndex
  · rw [if_pos hM]
    rcases hm2 with h2 | h2
    · exact absurd h2 hM.1
    · obtain ⟨-, hb, -⟩ := (hmem _).1 h2.1
      obtain ⟨ms, hms⟩ := applyLoop_some rf.log rf.firstIndex
        (majorityMax rf.matchIndex rf.nPeers ks (-1) - rf.commitIndex).toNat
        (rf.commitIndex + 1) hfirst (by omega)
      rw [hms]
      exact ⟨_, _, rfl⟩
  · rw [if_neg hM]
    exact ⟨_, _, rfl⟩

/-- A reply of `AppendEntries` with `Success = true` carries the term of the
request. -/
theorem AppendEntries_success_term (f f2 : Raft) (args : AppendEntriesArgs)
    (reply : AppendEntriesReply) (msgs : List ApplyMsg)
    (h : AppendEntries f args = some (f2, reply, msgs)) (hs : reply.Success = true) :
    reply.Term = args.Term := by
  obtain ⟨hge, hacc, -⟩ := AppendEntries_success f f2 args reply msgs h hs
  obtain ⟨rf1, -, -, -, -, -, -, -, ht, -⟩ := appendEntriesAccept_spec _ _ _ _ _ hacc
  rw [ht, adoptTerm_currentTerm, if_pos hge]

/-- The assignment `s[i] = v`, when it does not panic, leaves `v` at `i` and the
length as it was. -/
theorem assign_index (s s1 : List Int) (i v : Int) (h : assign s i v = some s1) :
    index s1 i = some v ∧ s1.length = s.length := by
  unfold assign at h
  split at h
  · cases h
  · rename_i hb
    cases h
    have h0 : ¬ i < 0 := fun hc => hb (Or.inl hc)
    have h1 : ¬ (s.length : Int) ≤ i := fun hc => hb (Or.inr hc)
    have hlt : i.toNat < s.length := by omega
    refine ⟨?_, List.length_set _ _ _⟩
    unfold index
    rw [if_neg h0, List.getElem?_set_self hlt]

/-- The assignment `s[i] = v` does not panic for `0 ≤ i < len(s)`. -/
theorem assign_some (s : List Int) (i v : Int) (h0 : 0 ≤ i) (h1 : i < (s.length : Int)) :
    ∃ s1, assign s i v = some s1 := by
  unfold assign
  rw [if_neg (by omega)]
  exact ⟨_, rfl⟩

/-- The branch `else if reply.Success` on a request that carried entries: the
slots of peer `i` that it leaves. -/
theorem replySuccess_entries (rf rf2 : Raft) (i : Int) (args : AppendEntriesArgs)
    (entries : List Entry) (msgs : List ApplyMsg) (next : Option AppendEntriesArgs)
    (he : args.Entries = some entries)
    (h : replySuccess rf i args = some (rf2, msgs, next)) :
    index rf2.matchIndex i = some (args.PrevLogIndex + (entries.length : Int)) ∧
    index rf2.nextIndex i = some (args.PrevLogIndex + (entries.length : Int) + 1) ∧
    next = none := by
  unfold replySuccess at h
  rw [he] at h
  dsimp only at h
  cases hm : assign rf.matchIndex i (args.PrevLogIndex + 1 + (entries.length : Int) - 1) with
  | none => rw [hm] at h; cases h
  | some matchIndex1 =>
    rw [hm] at h
    dsimp only at h
    cases hn : assign rf.nextIndex i (args.PrevLogIndex + 1 + (entries.length : Int)) with
    | none => rw [hn] at h; cases h
    | some nextIndex1 =>
      rw [hn] at h
      dsimp only at h
      cases hc : checkCommit { rf with matchIndex := matchIndex1, nextIndex := nextIndex1 } with
      | none => rw [hc] at h; cases h
      | some r =>
        obtain ⟨rf3, msgs3⟩ := r
        rw [hc] at h
        cases h
        obtain ⟨-, -, -, -, -, -, hnx, hmx⟩ := checkCommit_frame _ _ _ hc
        rw [hnx, hmx]
        obtain ⟨hm1, -⟩ := assign_index _ _ _ _ hm
        obtain ⟨hn1, -⟩ := assign_index _ _ _ _ hn
        refine ⟨?_, ?_, rfl⟩
        · rw [hm1]; congr 1; omega
        · rw [hn1]; congr 1; omega

/-- The region of `issueSingleAppendEntries` behind the send, on a delivered
reply with `Success = true` and the term of the leader, while the role, the
term and the anchor are valid and `nextIndex[i]` is still `PrevLogIndex + 1`: it
is the branch `else if reply.Success`. -/
theorem appendEntriesReply_success (rf : Raft) (i curTerm commitIndex : Int)
    (args : AppendEntriesArgs) (reply : AppendEntriesReply)
    (hs : reply.Success = true) (hrt : reply.Term = args.Term)
    (hterm : rf.currentTerm = curTerm) (hstate : rf.state = Role.LEADER)
    (hanchor : rf.commitIndex = commitIndex) (hargs : args.Term = curTerm)
    (hnext : index rf.nextIndex i = some (args.PrevLogIndex + 1)) :
    appendEntriesReply rf i curTerm commitIndex args true reply = replySuccess rf i args := by
  unfold appendEntriesReply
  have g1 : ¬ (rf.currentTerm ≠ curTerm ∨ rf.state ≠ Role.LEADER ∨
      rf.commitIndex ≠ commitIndex) := by
    rintro (hc | hc | hc)
    · exact hc hterm
    · exact hc hstate
    · exact hc hanchor
  have g2 : ¬ reply.Term > rf.currentTerm := by omega
  have g3 : ¬ (reply.Term < rf.currentTerm ∨ args.Term ≠ rf.currentTerm) := by
    rintro (hc | hc)
    · omega
    · omega
  rw [if_neg g1, if_pos rfl, if_neg g2, if_neg g3, hnext]
  dsimp only
  rw [if_neg (fun hc => hc rfl), if_neg (by rw [hs]; decide)]

/-- The region of `issueSingleAppendEntries` behind the send, on a delivered
reply of a later term, while the role, the term and the anchor are valid: the
leader steps down, and `nextIndex` and `matchIndex` are left. -/
theorem appendEntriesReply_higher (rf : Raft) (i curTerm commitIndex : Int)
    (args : AppendEntriesArgs) (reply : AppendEntriesReply)
    (hterm : rf.currentTerm = curTerm) (hstate : rf.state = Role.LEADER)
    (hanchor : rf.commitIndex = commitIndex) (hgt : reply.Term > rf.currentTerm) :
    appendEntriesReply rf i curTerm commitIndex args true reply =
      some (persist { rf with currentTerm := reply.Term, state := Role.FOLLOWER,
                              votedFor := -1 }, [], none) := by
  unfold appendEntriesReply
  have g1 : ¬ (rf.currentTerm ≠ curTerm ∨ rf.state ≠ Role.LEADER ∨
      rf.commitIndex ≠ commitIndex) := by
    rintro (hc | hc | hc)
    · exact hc hterm
    · exact hc hstate
    · exact hc hanchor
  rw [if_neg g1, if_pos rfl, if_pos hgt]

/-- The region of `issueSingleAppendEntries` behind the send, on a delivered
reply of an earlier term, while the role, the term and the anchor are valid: it
returns with the peer as it was. -/
theorem appendEntriesReply_lower (rf : Raft) (i curTerm commitIndex : Int)
    (args : AppendEntriesArgs) (reply : AppendEntriesReply)
    (hterm : rf.currentTerm = curTerm) (hstate : rf.state = Role.LEADER)
    (hanchor : rf.commitIndex = commitIndex) (hlt : reply.Term < rf.currentTerm) :
    appendEntriesReply rf i curTerm commitIndex args true reply = some (rf, [], none) := by
  unfold appendEntriesReply
  have g1 : ¬ (rf.currentTerm ≠ curTerm ∨ rf.state ≠ Role.LEADER ∨
      rf.commitIndex ≠ commitIndex) := by
    rintro (hc | hc | hc)
    · exact hc hterm
    · exact hc hstate
    · exact hc hanchor
  rw [if_neg g1, if_pos rfl, if_neg (by omega), if_pos (Or.inl hlt)]

/-- C30 (amended): a delivered reply with `Success = true`, processed while the
role is Leader, the term and the anchored `commitIndex` are those of the send,
the request carries the term of the send and `nextIndex[i] = PrevLogIndex + 1`.
If the reply carries the term of the leader and the request carried entries
(`args.Entries` not nil), then afterwards `matchIndex[i] = PrevLogIndex +
len(Entries)` and `nextIndex[i] = matchIndex[i] + 1`, and the region returns
whenever `i` is a slot of `matchIndex` and `firstIndex ≤ commitIndex + 1`.  If
the reply carries the term of the leader and the request was a heartbeat that
carried no entries (`args.Entries` nil), the region returns with the peer as it
was: `matchIndex[i]` and `nextIndex[i]` are not updated.  If the reply carries a
later term, the leader steps down to Follower of that term and `matchIndex` and
`nextIndex` are not updated; a reply of an earlier term is dropped. -/
theorem appendEntriesReply_progress (rf : Raft) (i curTerm commitIndex : Int)
    (args : AppendEntriesArgs) (reply : AppendEntriesReply)
    (hs : reply.Success = true)
    (hterm : rf.currentTerm = curTerm) (hstate : rf.state = Role.LEADER)
    (hanchor : rf.commitIndex = commitIndex) (hargs : args.Term = curTerm)
    (hnext : index rf.nextIndex i = some (args.PrevLogIndex + 1)) :
    (reply.Term = rf.currentTerm →
      (∀ entries, args.Entries = some entries →
        (∀ rf2 msgs next,
          appendEntriesReply rf i curTerm commitIndex args true reply = some (rf2, msgs, next) →
          index rf2.matchIndex i = some (args.PrevLogIndex + (entries.length : Int)) ∧
          index rf2.nextIndex i = some (args.PrevLogIndex + (entries.length : Int) + 1) ∧
          next = none) ∧
        (i < (rf.matchIndex.length : Int) → rf.firstIndex ≤ rf.commitIndex + 1 →
          ∃ r, appendEntriesReply rf i curTerm commitIndex args true reply = some r)) ∧
      (args.Entries = none →
        appendEntriesReply rf i curTerm commitIndex args true reply = some (rf, [], none))) ∧
    (reply.Term > rf.currentTerm →
      ∃ rf2, appendEntriesReply rf i curTerm commitIndex args true reply = some (rf2, [], none) ∧
        rf2.state = Role.FOLLOWER ∧ rf2.currentTerm = reply.Term ∧ rf2.votedFor = -1 ∧
        rf2.matchIndex = rf.matchIndex ∧ rf2.nextIndex = rf.nextIndex) ∧
    (reply.Term < rf.currentTerm →
      appendEntriesReply rf i curTerm commitIndex args true reply = some (rf, [], none)) := by
  refine ⟨?_, ?_, ?_⟩
  · intro hrt
    have hrun := appendEntriesReply_success rf i curTerm commitIndex args reply hs
      (by omega) hterm hstate hanchor hargs hnext
    rw [hrun]
    refine ⟨?_, ?_⟩
    · intro entries he
      refine ⟨?_, ?_⟩
      · intro rf2 msgs next h
        exact replySuccess_entries rf rf2 i args entries msgs next he h
      · intro hi hfirst
        obtain ⟨h0, hget⟩ := (index_eq_some _ _ _).mp hnext
        have hlt : i.toNat < rf.nextIndex.length := by
          by_contra hc
          rw [List.getElem?_eq_none (by omega)] at hget
          cases hget
        obtain ⟨m1, hm1⟩ := assign_some rf.matchIndex i
          (args.PrevLogIndex + 1 + (entries.length : Int) - 1) h0 hi
        obtain ⟨n1, hn1⟩ := assign_some rf.nextIndex i
          (args.PrevLogIndex + 1 + (entries.length : Int)) h0 (by omega)
        obtain ⟨rf3, msgs3, hc⟩ := checkCommit_some
          { rf with matchIndex := m1, nextIndex := n1 } hfirst
        unfold replySuccess
        rw [he]
        dsimp only
        rw [hm1]
        dsimp only
        rw [hn1]
        dsimp only
        rw [hc]
        exact ⟨_, rfl⟩
    · intro he
      unfold replySuccess
      rw [he]
  · intro hgt
    exact ⟨_, appendEntriesReply_higher rf i curTerm commitIndex args reply hterm hstate
      hanchor hgt, rfl, rfl, rfl, rfl, rfl⟩
  · intro hlt
    exact appendEntriesReply_lower rf i curTerm commitIndex args reply hterm hstate hanchor hlt

/-- The request that `leaderOfThreeAhead` sends to peer 2 behind index 1 when it
is not a heartbeat: it carries the entry of index 2. -/
theorem appendEntriesSend_ahead :
    appendEntriesSend leaderOfThreeAhead leaderOfThreeAhead.log 1 false 0
        (issueSingleAppendEntries leaderOfThreeAhead 1 1 1 0).1 =
      some (some { Term := 1, LeaderId := 0, PrevLogIndex := 1, PrevLogTerm := 1,
                   Entries := some [⟨some 11, 1⟩], LeaderCommit := 0 }) := by
  decide

/-- C30 at `leaderOfThreeAhead` and the reply of `followerOfThree` to the request
behind index 1 that carries the entry of index 2: the reply has `Success = true`
and the term 1 of the leader, and afterwards `matchIndex[2] = 2` and
`nextIndex[2] = 3`. -/
theorem appendEntriesReply_progress_witness :
    ∃ f2 reply fmsgs rf2 msgs,
      AppendEntries followerOfThree
        { Term := 1, LeaderId := 0, PrevLogIndex := 1, PrevLogTerm := 1,
          Entries := some [⟨some 11, 1⟩], LeaderCommit := 0 } = some (f2, reply, fmsgs) ∧
      reply.Success = true ∧ reply.Term = leaderOfThreeAhead.currentTerm ∧
      appendEntriesReply leaderOfThreeAhead 2 1 0
        { Term := 1, LeaderId := 0, PrevLogIndex := 1, PrevLogTerm := 1,
          Entries := some [⟨some 11, 1⟩], LeaderCommit := 0 } true reply =
        some (rf2, msgs, none) ∧
      index rf2.matchIndex 2 = some 2 ∧ index rf2.nextIndex 2 = some 3 := by
  have hf : (AppendEntries followerOfThree
      { Term := 1, LeaderId := 0, PrevLogIndex := 1, PrevLogTerm := 1,
        Entries := some [⟨some 11, 1⟩], LeaderCommit := 0 }).map
        (fun r => (r.2.1.Success, r.2.1.Term)) = some (true, 1) := by decide
  cases hrun : AppendEntries followerOfThree
      { Term := 1, LeaderId := 0, PrevLogIndex := 1, PrevLogTerm := 1,
        Entries := some [⟨some 11, 1⟩], LeaderCommit := 0 } with
  | none => rw [hrun] at hf; cases hf
  | some r =>
    obtain ⟨f2, reply, fmsgs⟩ := r
    rw [hrun] at hf
    simp only [Option.map_some', Option.some.injEq, Prod.mk.injEq] at hf
    obtain ⟨hent, -⟩ := (appendEntriesReply_progress leaderOfThreeAhead 2 1 0
      { Term := 1, LeaderId := 0, PrevLogIndex := 1, PrevLogTerm := 1,
        Entries := some [⟨some 11, 1⟩], LeaderCommit := 0 } reply hf.1
      (by decide) (by decide) (by decide) (by decide) (by decide)).1 hf.2
    obtain ⟨hpart, htotal⟩ := hent [⟨some 11, 1⟩] rfl
    obtain ⟨r2, hr2⟩ := htotal (by decide) (by decide)
    obtain ⟨rf2, msgs, next⟩ := r2
    obtain ⟨hm, hn, hnone⟩ := hpart rf2 msgs next hr2
    subst hnone
    exact ⟨f2, reply, fmsgs, rf2, msgs, rfl, hf.1, hf.2, hr2, hm, hn⟩

/-- C30 fails as stated, for a heartbeat that carried no entries and for a reply
of a later term.  First, `leaderOfThree` (log through index 1, `nextIndex[2] =
2`, `matchIndex[2] = 0`) sends peer 2 a heartbeat behind index 1; nothing is
new, so `args.Entries` stays nil; `followerOfThree` replies `Success = true`; the
leader, still Leader of term 1 with `commitIndex = 0`, processes the reply and
leaves `matchIndex[2] = 0`, not `PrevLogIndex + len(entries) = 1`, and
`nextIndex[2] = 2`, not `matchIndex[2] + 1`.  Second, `leaderOfThreeAhead` sends
peer 2 the entry of index 2 behind index 1; `followerOfThree` passes the stale
test of the handler, and while the handler has released the mutex for the timer
reset, the `RequestVote` of term 2 of peer 1 moves the follower to term 2; the
handler goes on, appends the entry and replies `Success = true` with term 2; on
this reply the leader steps down and leaves `matchIndex[2] = 0`, not
`PrevLogIndex + len(entries) = 2`. -/
theorem appendEntriesReply_progress_counterexample :
    (∃ args f2 reply fmsgs rf2 msgs next m n,
      appendEntriesSend leaderOfThree leaderOfThree.log 1 true 0
        (issueSingleAppendEntries leaderOfThree 1 1 1 0).1 = some (some args) ∧
      args.Entries = none ∧ args.PrevLogIndex = 1 ∧
      AppendEntries followerOfThree args = some (f2, reply, fmsgs) ∧
      reply.Success = true ∧
      leaderOfThree.state = Role.LEADER ∧ leaderOfThree.currentTerm = 1 ∧
      leaderOfThree.commitIndex = 0 ∧
      index leaderOfThree.nextIndex 2 = some (args.PrevLogIndex + 1) ∧
      appendEntriesReply leaderOfThree 2 1 0 args true reply = some (rf2, msgs, next) ∧
      index rf2.matchIndex 2 = some m ∧ index rf2.nextIndex 2 = some n ∧
      ¬ (m = args.PrevLogIndex + 0) ∧ ¬ (n = m + 1)) ∧
    (∃ args f1 vote f2 reply fmsgs rf2 msgs next m,
      appendEntriesSend leaderOfThreeAhead leaderOfThreeAhead.log 1 false 0
        (issueSingleAppendEntries leaderOfThreeAhead 1 1 1 0).1 = some (some args) ∧
      args.Entries = some [⟨some 11, 1⟩] ∧ args.PrevLogIndex = 1 ∧
      ¬ args.Term < followerOfThree.currentTerm ∧
      RequestVote followerOfThree ⟨2, 1, 1, 1⟩ = some (f1, vote) ∧
      appendEntriesResume f1 args = some (f2, reply, fmsgs) ∧
      reply.Success = true ∧ reply.Term = 2 ∧
      entryAt f2 2 = some ⟨some 11, 1⟩ ∧
      leaderOfThreeAhead.state = Role.LEADER ∧ leaderOfThreeAhead.currentTerm = 1 ∧
      leaderOfThreeAhead.commitIndex = 0 ∧
      index leaderOfThreeAhead.nextIndex 2 = some (args.PrevLogIndex + 1) ∧
      appendEntriesReply leaderOfThreeAhead 2 1 0 args true reply = some (rf2, msgs, next) ∧
      rf2.state = Role.FOLLOWER ∧ rf2.currentTerm = 2 ∧
      index rf2.matchIndex 2 = some m ∧ ¬ (m = args.PrevLogIndex + 1)) := by
  refine ⟨?_, ?_⟩
  · refine ⟨{ Term := 1, LeaderId := 0, PrevLogIndex := 1, PrevLogTerm := 1,
              Entries := none, LeaderCommit := 0 },
      persist followerOfThree, { Term := 1, Success := true, ConflictIndex := 0 }, [],
      leaderOfThree, [], none, 0, 2, ?_⟩
    decide
  · refine ⟨{ Term := 1, LeaderId := 0, PrevLogIndex := 1, PrevLogTerm := 1,
              Entries := some [⟨some 11, 1⟩], LeaderCommit := 0 },
      { followerOfThree with
        persister := { raftstate := some ⟨2, 1, [⟨none, 0⟩, ⟨some 10, 1⟩], 0⟩, snapshot := [] }
        currentTerm := 2, votedFor := 1 },
      { Term := 2, VoteGranted := true },
      { followerOfThree with
        persister := { raftstate := some ⟨2, 1, [⟨none, 0⟩, ⟨some 10, 1⟩, ⟨some 11, 1⟩], 0⟩,
                       snapshot := [] }
        currentTerm := 2, votedFor := 1
        log := [⟨none, 0⟩, ⟨some 10, 1⟩, ⟨some 11, 1⟩], lastNewEntry := 2 },
      { Term := 2, Success := true, ConflictIndex := 0 }, [],
      { leaderOfThreeAhead with
        persister := { raftstate := some ⟨2, -1, [⟨none, 0⟩, ⟨some 10, 1⟩, ⟨some 11, 1⟩], 0⟩,
                       snapshot := [] }
        currentTerm := 2, state := Role.FOLLOWER, votedFor := -1 },
      [], none, 0, ?_⟩
    and_intros
    all_goals decide

/-! ## Cancellation of the replication regions -/

/-- C31: the region of `issueSingleAppendEntries` behind the send leaves the peer
as it was and returns when the role is no longer Leader, `currentTerm` is not
the term of the send or `commitIndex` is not the anchored one, and so does the
region before the send; the snapshot goroutine of `issueAppendEntries` makes no
such check behind `sendInstallSnapshot`.  `snapshotLeader`, Leader of term 2,
sends peer 1 its snapshot through index 5; `snapshotFollower` installs it and
replies; meanwhile the `RequestVote` of term 3 of peer 2 turns `snapshotLeader`
into a Follower of term 3; the reply is then processed and writes
`matchIndex[1] = 5` and `nextIndex[1] = 6`, although the role is Follower and
`currentTerm = 3` is not the term 2 of the request. -/
theorem snapshot_reply_not_cancelled :
    (∀ (rf : Raft) (i curTerm commitIndex : Int) (args : AppendEntriesArgs) (res : Bool)
        (reply : AppendEntriesReply),
      (rf.state ≠ Role.LEADER ∨ rf.currentTerm ≠ curTerm ∨ rf.commitIndex ≠ commitIndex) →
      appendEntriesReply rf i curTerm commitIndex args res reply = some (rf, [], none)) ∧
    (∀ (rf : Raft) (log : List Entry) (curTerm commitIndex : Int) (hb : Bool)
        (args : AppendEntriesArgs),
      (rf.state ≠ Role.LEADER ∨ rf.currentTerm ≠ curTerm ∨ rf.commitIndex ≠ commitIndex) →
      appendEntriesSend rf log curTerm hb commitIndex args = some none) ∧
    ∃ (tasks : List Task) (args : InstallSnapshotArgs) (f2 : Raft)
      (reply : InstallSnapshotReply) (fmsgs : List ApplyMsg) (rf rf2 : Raft)
      (vote : RequestVoteReply),
      issueAppendEntries snapshotLeader true = some (snapshotLeader, tasks) ∧
      Task.sendSnapshot 1 ∈ tasks ∧
      installSnapshotSend snapshotLeader snapshotLeader.log = some args ∧
      InstallSnapshot snapshotFollower args = some (f2, reply, fmsgs) ∧
      RequestVote snapshotLeader voteThree = some (rf, vote) ∧
      rf.state = Role.FOLLOWER ∧ rf.currentTerm = 3 ∧ args.Term = 2 ∧
      rf.matchIndex = [0, 0, 6] ∧ rf.nextIndex = [7, 5, 7] ∧
      installSnapshotReply rf 1 args true reply = some rf2 ∧
      rf2.matchIndex = [0, 5, 6] ∧ rf2.nextIndex = [7, 6, 7] ∧
      rf2.matchIndex ≠ rf.matchIndex ∧ rf2.nextIndex ≠ rf.nextIndex := by
  refine ⟨?_, ?_, ?_⟩
  · intro rf i curTerm commitIndex args res reply h
    have g : rf.currentTerm ≠ curTerm ∨ rf.state ≠ Role.LEADER ∨
        rf.commitIndex ≠ commitIndex := by
      rcases h with h | h | h
      · exact Or.inr (Or.inl h)
      · exact Or.inl h
      · exact Or.inr (Or.inr h)
    unfold appendEntriesReply
    rw [if_pos g]
  · intro rf log curTerm commitIndex hb args h
    have g : rf.state ≠ Role.LEADER ∨ curTerm ≠ rf.currentTerm ∨
        rf.commitIndex ≠ commitIndex := by
      rcases h with h | h | h
      · exact Or.inl h
      · exact Or.inr (Or.inl (fun hc => h hc.symm))
      · exact Or.inr (Or.inr h)
    unfold appendEntriesSend
    rw [if_pos g]
  · refine ⟨[Task.sendSnapshot 1, Task.sendAppendEntries 2 2 true 6 2 6],
      { Term := 2, LeaderId := 0, LastIncludedIndex := 5, LastIncludedTerm := 2,
        Data := [0, 5, 0, 2, 9] },
      { snapshotFollower with
        persister := { raftstate := some ⟨2, 0, [⟨none, 2⟩], 5⟩, snapshot := [0, 5, 0, 2, 9] }
        log := [⟨none, 2⟩], firstIndex := 5, commitIndex := 5, lastApplied := 5 },
      { Term := 0 },
      [{ Index := -1, Command := none, UseSnapshot := true, Snapshot := [0, 5, 0, 2, 9] }],
      { snapshotLeader with
        persister := { raftstate := some ⟨3, 2, [⟨none, 2⟩, ⟨some 26, 2⟩], 5⟩,
                       snapshot := [0, 5, 0, 2, 9] }
        state := Role.FOLLOWER, currentTerm := 3, votedFor := 2 },
      { snapshotLeader with
        persister := { raftstate := some ⟨3, 2, [⟨none, 2⟩, ⟨some 26, 2⟩], 5⟩,
                       snapshot := [0, 5, 0, 2, 9] }
        state := Role.FOLLOWER, currentTerm := 3, votedFor := 2
        matchIndex := [0, 5, 6], nextIndex := [7, 6, 7] },
      { Term := 3, VoteGranted := true }, ?_⟩
    and_intros
    all_goals decide

/-! ## Winning an election -/

/-- One round of the counting loop keeps `args`; it leaves `successReplies` as
they were, or appends the reply of the round, which then has `VoteGranted =
true` and is processed with the peer Candidate in the term of `args`. -/
theorem tallyReply_counted (rf : Raft) (t : Tally) (r : Option RequestVoteReply) :
    (tallyReply rf t r).2.1.args = t.args ∧
    ((tallyReply rf t r).2.1.successReplies = t.successReplies ∨
      ∃ rr, r = some rr ∧ rr.VoteGranted = true ∧ rf.state = Role.CANDIDATE ∧
        rf.currentTerm = t.args.Term ∧
        (tallyReply rf t r).2.1.successReplies = t.successReplies ++ [rr]) := by
  unfold tallyReply
  dsimp only
  by_cases h1 : rf.state ≠ Role.CANDIDATE
  · rw [if_pos h1]; exact ⟨rfl, Or.inl rfl⟩
  · rw [if_neg h1]
    by_cases h2 : t.args.Term ≠ rf.currentTerm
    · rw [if_pos h2]; exact ⟨rfl, Or.inl rfl⟩
    · rw [if_neg h2]
      cases r with
      | none =>
        dsimp only
        split <;> exact ⟨rfl, Or.inl rfl⟩
      | some rr =>
        dsimp only
        by_cases hgt : rr.Term > rf.currentTerm
        · rw [if_pos hgt]
          exact ⟨rfl, Or.inl rfl⟩
        · rw [if_neg hgt]
          dsimp only
          by_cases hg : rr.VoteGranted = true
          · rw [if_pos hg]
            dsimp only
            split <;>
              exact ⟨rfl, Or.inr ⟨rr, rfl, hg, not_not.1 h1, (not_not.1 h2).symm, rfl⟩⟩
          · rw [if_neg hg]
            split <;> exact ⟨rfl, Or.inl rfl⟩

/-- The count of granted replies of a list of rounds, by its first round. -/
theorem grantedCount_cons (args : RequestVoteArgs) (x : Raft × Option RequestVoteReply)
    (xs : List (Raft × Option RequestVoteReply)) :
    grantedCount args (x :: xs) = grantedCount args [x] + grantedCount args xs := by
  unfold grantedCount
  rw [show x :: xs = [x] ++ xs from rfl, List.filter_append, List.length_append]

/-- A round that appends its reply counts as a granted reply. -/
theorem grantedCount_one (args : RequestVoteArgs) (rf : Raft) (rr : RequestVoteReply)
    (hg : rr.VoteGranted = true) (hs : rf.state = Role.CANDIDATE)
    (ht : rf.currentTerm = args.Term) : grantedCount args [(rf, some rr)] = 1 := by
  unfold grantedCount
  simp [List.filter, hg, hs, ht]

/-- The counting goroutine keeps `args`, and the `successReplies` behind the loop
are those before it and replies with `VoteGranted = true` of rounds that the
peer ran as Candidate in the term of `args`. -/
theorem countVotes_counted (nPeers : Nat) :
    ∀ (rounds : List (Raft × Option RequestVoteReply)) (t t2 : Tally) (lead : Bool),
      countVotes nPeers t rounds = some (t2, lead) →
      t2.args = t.args ∧
      t2.successReplies.length ≤ t.successReplies.length + grantedCount t.args rounds ∧
      (∀ rr ∈ t2.successReplies, rr ∈ t.successReplies ∨
        ∃ rf, (rf, some rr) ∈ rounds ∧ rr.VoteGranted = true ∧ rf.state = Role.CANDIDATE ∧
          rf.currentTerm = t.args.Term) ∧
      (lead = true → (t2.successReplies.length : Int) ≥ ((nPeers / 2 : Nat) : Int)) := by
  intro rounds
  induction rounds with
  | nil =>
    intro t t2 lead h
    cases h
  | cons x xs ih =>
    intro t t2 lead h
    obtain ⟨rf, r⟩ := x
    obtain ⟨hargs, hsucc⟩ := tallyReply_counted rf t r
    have hone : ∀ t1 : Tally, t1 = (tallyReply rf t r).2.1 →
        t1.successReplies.length ≤ t.successReplies.length + grantedCount t.args [(rf, r)] ∧
        (∀ rr ∈ t1.successReplies, rr ∈ t.successReplies ∨
          ∃ rf0, (rf0, some rr) ∈ (rf, r) :: xs ∧ rr.VoteGranted = true ∧
            rf0.state = Role.CANDIDATE ∧ rf0.currentTerm = t.args.Term) := by
      intro t1 ht1
      rcases hsucc with hsame | ⟨rr, hr, hg, hs, ht, happ⟩
      · rw [ht1, hsame]
        exact ⟨Nat.le_add_right _ _, fun rr hrr => Or.inl hrr⟩
      · rw [ht1, happ, hr, grantedCount_one t.args rf rr hg hs ht]
        refine ⟨by simp, ?_⟩
        intro q hq
        rcases List.mem_append.mp hq with hq | hq
        · exact Or.inl hq
        · right
          have hqe : q = rr := by simpa using hq
          subst hqe
          exact ⟨rf, List.mem_cons_self _ _, hg, hs, ht⟩
    rw [grantedCount_cons]
    unfold countVotes at h
    generalize hout : tallyReply rf t r = out at h hargs hone
    obtain ⟨rf1, t1, next⟩ := out
    dsimp only at hargs
    obtain ⟨hlen, hmem⟩ := hone t1 rfl
    cases next with
    | returned =>
      dsimp only at h
      cases h
      refine ⟨hargs, by omega, hmem, ?_⟩
      intro hc
      cases hc
    | again =>
      dsimp only at h
      obtain ⟨g1, g2, g3, g4⟩ := ih t1 t2 lead h
      rw [hargs] at g1 g2 g3
      refine ⟨g1, by omega, ?_, g4⟩
      intro rr hrr
      rcases g3 rr hrr with hq | ⟨rf0, hin, hrest⟩
      · exact hmem rr hq
      · exact Or.inr ⟨rf0, List.mem_cons_of_mem _ hin, hrest⟩
    | left =>
      dsimp only at h
      cases h
      refine ⟨hargs, by omega, hmem, ?_⟩
      intro hc
      exact of_decide_eq_true hc

/-- The region `// Become Leader` leaves the role Leader, `nextIndex[p] =
lastIndex + 1` and `matchIndex[p] = 0` for every peer `p`, and the term as it
was. -/
theorem becomeLeader_spec (rf : Raft) :
    (becomeLeader rf).state = Role.LEADER ∧
    (becomeLeader rf).currentTerm = rf.currentTerm ∧
    ∀ p : Nat, p < rf.nPeers →
      index (becomeLeader rf).nextIndex (p : Int) = some (lastIndex rf + 1) ∧
      index (becomeLeader rf).matchIndex (p : Int) = some 0 := by
  refine ⟨rfl, rfl, ?_⟩
  intro p hp
  have hn : (becomeLeader rf).nextIndex =
      List.replicate rf.nPeers (rf.firstIndex + (rf.log.length : Int)) := rfl
  have hm : (becomeLeader rf).matchIndex = List.replicate rf.nPeers 0 := rfl
  rw [hn, hm, index_natCast, index_natCast]
  unfold lastIndex
  simp only [List.getElem?_replicate, if_pos hp]
  refine ⟨?_, trivial⟩
  congr 1
  omega

/-- C32: the counting goroutine of `issueRequestVote`, on any sequence of
messages and whatever the other regions do between its rounds, goes on to the
region `// Become Leader` only if the replies with `VoteGranted = true` that it
processed while the peer was Candidate in the term of the request, together
with the vote of the candidate for itself, are more than half of the `N` peers;
every reply that it counted is one of these.  The region `// Become Leader` then
leaves the role Leader, `nextIndex[p] = lastIndex + 1` and `matchIndex[p] = 0`
for every peer `p`. -/
theorem election_majority (N : Nat) (args : RequestVoteArgs)
    (rounds : List (Raft × Option RequestVoteReply)) (t : Tally)
    (h : countVotes N { args := args, nReplies := 0, successReplies := [] } rounds =
      some (t, true)) :
    2 * (grantedCount args rounds + 1) > N ∧ grantedCount args rounds + 1 > N / 2 ∧
    (∀ rr ∈ t.successReplies, ∃ rf, (rf, some rr) ∈ rounds ∧ rr.VoteGranted = true ∧
      rf.state = Role.CANDIDATE ∧ rf.currentTerm = args.Term) ∧
    (∀ rf : Raft, rf.nPeers = N →
      (becomeLeader rf).state = Role.LEADER ∧
      ∀ p : Nat, p < N →
        index (becomeLeader rf).nextIndex (p : Int) = some (lastIndex rf + 1) ∧
        index (becomeLeader rf).matchIndex (p : Int) = some 0) := by
  obtain ⟨-, hle, hmem, hlead⟩ := countVotes_counted N rounds _ t true h
  have hge := hlead rfl
  simp only [List.length_nil, Nat.zero_add] at hle
  have hge2 : N / 2 ≤ t.successReplies.length := by exact_mod_cast hge
  refine ⟨by omega, by omega, ?_, ?_⟩
  · intro rr hrr
    rcases hmem rr hrr with hc | hc
    · cases hc
    · exact hc
  · intro rf hn
    obtain ⟨h1, -, h3⟩ := becomeLeader_spec rf
    refine ⟨h1, ?_⟩
    intro p hp
    exact h3 p (by omega)

/-- C32 with three peers: `candidateOfThree` gets the grant of one peer, which
with its own vote is two of three, and becomes Leader with `nextIndex = [1, 1,
1]` and `matchIndex = [0, 0, 0]`. -/
theorem election_majority_witness :
    issueRequestVote candidateOfThree = some ⟨1, 0, 0, 0⟩ ∧
    countVotes 3 { args := ⟨1, 0, 0, 0⟩, nReplies := 0, successReplies := [] }
      [(candidateOfThree, some ⟨1, true⟩)] = some (⟨⟨1, 0, 0, 0⟩, 1, [⟨1, true⟩]⟩, true) ∧
    2 * (grantedCount ⟨1, 0, 0, 0⟩ [(candidateOfThree, some ⟨1, true⟩)] + 1) > 3 ∧
    (becomeLeader candidateOfThree).state = Role.LEADER ∧
    (becomeLeader candidateOfThree).nextIndex = [1, 1, 1] ∧
    (becomeLeader candidateOfThree).matchIndex = [0, 0, 0] := by
  have hrun : countVotes 3 { args := ⟨1, 0, 0, 0⟩, nReplies := 0, successReplies := [] }
      [(candidateOfThree, some ⟨1, true⟩)] = some (⟨⟨1, 0, 0, 0⟩, 1, [⟨1, true⟩]⟩, true) := by
    decide
  obtain ⟨h1, -, -, h4⟩ := election_majority 3 ⟨1, 0, 0, 0⟩
    [(candidateOfThree, some ⟨1, true⟩)] _ hrun
  exact ⟨by decide, hrun, h1, (h4 candidateOfThree rfl).1, by decide, by decide⟩

/-! ## The log accesses of AppendEntries -/

/-- The accepting part of `AppendEntries` returns on a peer with `firstIndex ≤
lastApplied ≤ commitIndex ≤ lastIndex` when the predecessor is inside the log or
behind the snapshot and no incoming entry conflicts with an entry at an index
up to `commitIndex`. -/
theorem appendEntriesAccept_total (rf : Raft) (args : AppendEntriesArgs)
    (h1 : rf.firstIndex ≤ rf.lastApplied) (h3 : rf.commitIndex ≤ lastIndex rf)
    (hprev : args.PrevLogIndex < (rf.log.length : Int) + rf.firstIndex)
    (hnc : ∀ (k : Nat) (e x : Entry), (args.Entries.getD [])[k]? = some e →
      entryAt rf (args.PrevLogIndex + 1 + (k : Int)) = some x →
      args.PrevLogIndex + 1 + (k : Int) ≤ rf.commitIndex → x.Term = e.Term) :
    ∃ rf2 reply msgs, appendEntriesAccept rf args = some (rf2, reply, msgs) := by
  unfold lastIndex at h3
  cases he : args.Entries with
  | none =>
    exact appendEntriesAccept_some rf rf args (mergeBlock_skip rf args (Or.inl he))
      (by omega) h3
  | some es =>
    by_cases hp : rf.firstIndex ≤ args.PrevLogIndex
    · obtain ⟨rf1, tl, hm, hlog, hall, hconf⟩ := mergeBlock_log rf args es he hp hprev
      apply appendEntriesAccept_some rf rf1 args hm (by omega)
      have hb : (args.PrevLogIndex + 1 - rf.firstIndex).toNat ≤ rf.log.length := by omega
      by_cases hex : ∃ k e x, es[k]? = some e ∧
          rf.log[(args.PrevLogIndex + 1 - rf.firstIndex).toNat + k]? = some x ∧ x.Term ≠ e.Term
      · obtain ⟨k, e, x, hk, hx, hne⟩ := hex
        have htl := hconf ⟨k, e, x, hk, hx, hne⟩
        have hklt : k < es.length := by
          by_contra hc
          rw [List.getElem?_eq_none (by omega)] at hk
          cases hk
        have hent : entryAt rf (args.PrevLogIndex + 1 + (k : Int)) = some x := by
          rw [entryAt_eq rf _ (by omega)]
          rw [show (args.PrevLogIndex + 1 + (k : Int) - rf.firstIndex).toNat =
            (args.PrevLogIndex + 1 - rf.firstIndex).toNat + k by omega]
          exact hx
        have hgt : ¬ args.PrevLogIndex + 1 + (k : Int) ≤ rf.commitIndex := by
          intro hc
          exact hne (hnc k e x (by rw [he]; exact hk) hent hc)
        rw [hlog, htl]
        simp only [List.append_nil, List.length_append, List.length_take]
        rw [Nat.min_eq_left hb]
        push_cast
        rw [Int.toNat_of_nonneg (by omega)]
        omega
      · have hallm : ∀ k e x, es[k]? = some e →
            rf.log[(args.PrevLogIndex + 1 - rf.firstIndex).toNat + k]? = some x →
            x.Term = e.Term := by
          intro k e x hk hx
          by_contra hc
          exact hex ⟨k, e, x, hk, hx, hc⟩
        have htl := hall hallm
        rw [hlog, htl]
        simp only [List.length_append, List.length_take, List.length_drop]
        rw [Nat.min_eq_left hb]
        push_cast
        omega
    · exact appendEntriesAccept_some rf rf args
        (mergeBlock_skip rf args (Or.inr (by omega))) (by omega) h3

/-- The log part of `AppendEntries` returns under the same conditions; the
predecessor check and the walk-back read inside the log. -/
theorem appendEntriesLog_total (rf : Raft) (args : AppendEntriesArgs)
    (h1 : rf.firstIndex ≤ rf.lastApplied) (h2 : rf.lastApplied ≤ rf.commitIndex)
    (h3 : rf.commitIndex ≤ lastIndex rf)
    (hnc : ∀ (k : Nat) (e x : Entry), (args.Entries.getD [])[k]? = some e →
      entryAt rf (args.PrevLogIndex + 1 + (k : Int)) = some x →
      args.PrevLogIndex + 1 + (k : Int) ≤ rf.commitIndex → x.Term = e.Term) :
    ∃ rf2 reply msgs, appendEntriesLog rf args = some (rf2, reply, msgs) := by
  have h3' := h3
  unfold lastIndex at h3'
  unfold appendEntriesLog
  by_cases hp : args.PrevLogIndex ≥ rf.firstIndex
  · rw [if_pos hp]
    by_cases hlen : args.PrevLogIndex ≥ (rf.log.length : Int) + rf.firstIndex
    · rw [if_pos hlen]
      exact ⟨_, _, _, rfl⟩
    · rw [if_neg hlen]
      obtain ⟨e, he, -⟩ := index_some_of_lt rf.log (args.PrevLogIndex - rf.firstIndex)
        (by omega) (by omega)
      rw [he]
      dsimp only
      by_cases ht : e.Term ≠ args.PrevLogTerm
      · rw [if_pos ht]
        obtain ⟨i, hi, -⟩ := walkBack_spec rf.log e.Term
          (args.PrevLogIndex - rf.firstIndex + 1).toNat (by omega)
        rw [hi]
        exact ⟨_, _, _, rfl⟩
      · rw [if_neg ht]
        exact appendEntriesAccept_total rf args h1 h3 (by omega) hnc
  · rw [if_neg hp]
    exact appendEntriesAccept_total rf args h1 h3 (by omega) hnc

/-- C33 (amended): on a peer with `firstIndex ≤ lastApplied ≤ commitIndex ≤
lastIndex`, and so with a log that is not empty, `AppendEntries` returns, that is,
the predecessor check, the walk-back, the merge and the delivery loop read and
write inside the log, for every request none of whose entries conflicts (has
another term) with the entry that the log holds at the same index when that
index is at most `commitIndex`.  A slice access outside the log is the `none` of
the embedding. -/
theorem AppendEntries_in_bounds (rf : Raft) (args : AppendEntriesArgs)
    (h1 : rf.firstIndex ≤ rf.lastApplied) (h2 : rf.lastApplied ≤ rf.commitIndex)
    (h3 : rf.commitIndex ≤ lastIndex rf)
    (hnc : ∀ (k : Nat) (e x : Entry), (args.Entries.getD [])[k]? = some e →
      entryAt rf (args.PrevLogIndex + 1 + (k : Int)) = some x →
      args.PrevLogIndex + 1 + (k : Int) ≤ rf.commitIndex → x.Term = e.Term) :
    rf.log ≠ [] ∧ ∃ rf2 reply msgs, AppendEntries rf args = some (rf2, reply, msgs) := by
  refine ⟨?_, ?_⟩
  · intro hc
    unfold lastIndex at h3
    rw [hc] at h3
    simp only [List.length_nil, Nat.cast_zero] at h3
    omega
  · unfold AppendEntries
    by_cases hs : args.Term < rf.currentTerm
    · rw [if_pos hs]
      exact ⟨_, _, _, rfl⟩
    · rw [if_neg hs]
      unfold appendEntriesResume
      obtain ⟨g1, g2, g3, g4⟩ := adoptTerm_log rf args
      apply appendEntriesLog_total
      · rw [g2, g4]; exact h1
      · rw [g3, g4]; exact h2
      · unfold lastIndex
        rw [g1, g2, g3]
        exact h3
      · intro k e x hk hx hle
        rw [g3] at hle
        have hx' : entryAt rf (args.PrevLogIndex + 1 + (k : Int)) = some x := by
          unfold entryAt at hx ⊢
          rw [g1, g2] at hx
          exact hx
        exact hnc k e x hk hx' hle

/-- C33 at `pendingThree` (log through index 3 of term 1, committed through 3,
delivered through 1) and a request of term 2 that appends index 4 behind index 3
with `LeaderCommit = 4`: the handler returns and delivers the indices 2, 3
and 4. -/
theorem AppendEntries_in_bounds_witness :
    pendingThree.firstIndex ≤ pendingThree.lastApplied ∧
    pendingThree.lastApplied ≤ pendingThree.commitIndex ∧
    pendingThree.commitIndex ≤ lastIndex pendingThree ∧
    (∃ rf2 reply msgs, AppendEntries pendingThree appendAtFour = some (rf2, reply, msgs)) ∧
    (AppendEntries pendingThree appendAtFour).map (fun r => r.2.2.map ApplyMsg.Index) =
      some [2, 3, 4] := by
  refine ⟨by decide, by decide, by decide, ?_, by decide⟩
  refine (AppendEntries_in_bounds pendingThree appendAtFour (by decide) (by decide) (by decide)
    ?_).2
  intro k e x hk hx hle
  have hk3 : (3 : Int) + 1 + (k : Int) ≤ 3 := hle
  omega

/-- C33 fails as stated.  `pendingThree` has `firstIndex = 0 ≤ lastApplied = 1 ≤
commitIndex = 3 ≤ lastIndex = 3`.  The request `conflictAtOne` of term 2 passes
the predecessor check at index 0; its entry for index 1 has term 2, the stored
one term 1, so the merge cuts the log behind index 0 and appends: the log is
`[sentinel, 13]`.  `LeaderCommit = 0` leaves `commitIndex = 3`, and the delivery
loop, from `lastApplied + 1 = 2` to 3, reads `rf.log[2]` in a log of length 2:
the handler panics. -/
theorem AppendEntries_in_bounds_counterexample :
    pendingThree.log ≠ [] ∧
    pendingThree.firstIndex ≤ pendingThree.lastApplied ∧
    pendingThree.lastApplied ≤ pendingThree.commitIndex ∧
    pendingThree.commitIndex ≤ lastIndex pendingThree ∧
    (mergeBlock (adoptTerm pendingThree conflictAtOne) conflictAtOne).map Raft.log =
      some [⟨none, 0⟩, ⟨some 13, 2⟩] ∧
    applyLoop [⟨none, 0⟩, ⟨some 13, 2⟩] 0 2 2 = none ∧
    index ([⟨none, 0⟩, ⟨some 13, 2⟩] : List Entry) 2 = none ∧
    AppendEntries pendingThree conflictAtOne = none := by
  decide

/-! ## Requests behind the snapshot -/

/-- C9 (the code at the failing run): `staleLeader` sends peer 1 the request
behind index 6; `staleFollower`, compacted through index 5, holds 66 of term 1 at
index 6, finds the mismatch and replies `ConflictIndex = 5`; the leader moves
`nextIndex[1]` to 5 and sends the entries of the indices 5 to 7 behind index 4,
which the snapshot of the follower covers.  The follower skips the merge and
replies `Success = true`: of the incoming entries above `baseIndex`, 36 for
index 6 and 37 for index 7, none is in its log; it keeps 66 at index 6, takes
`commitIndex = 6` from `LeaderCommit` and delivers 66 at index 6, where the
leader holds 36.  The leader, on the reply, sets `matchIndex[1] = 7`. -/
theorem AppendEntries_behind_snapshot_keeps_stale :
    ∃ (ts : List Task) (args1 args2 : AppendEntriesArgs) (f1 f2 l1 l2 : Raft)
      (reply1 reply2 : AppendEntriesReply) (msgs : List ApplyMsg),
      issueAppendEntries staleLeader false = some (staleLeader, ts) ∧
      Task.sendAppendEntries 1 2 false 6 2 7 ∈ ts ∧
      appendEntriesSend staleLeader staleLeader.log 2 false 7
        (issueSingleAppendEntries staleLeader 2 6 2 7).1 = some (some args1) ∧
      AppendEntries staleFollower args1 = some (f1, reply1, []) ∧
      reply1.Success = false ∧ reply1.ConflictIndex = 5 ∧
      appendEntriesReply staleLeader 1 2 7 args1 true reply1 = some (l1, [], some args2) ∧
      appendEntriesSend l1 staleLeader.log 2 false 7 args2 =
        some (some { Term := 2, LeaderId := 0, PrevLogIndex := 4, PrevLogTerm := 1,
                     Entries := some [⟨some 35, 1⟩, ⟨some 36, 2⟩, ⟨some 37, 2⟩],
                     LeaderCommit := 7 }) ∧
      (4 : Int) < f1.firstIndex ∧
      AppendEntries f1
        { Term := 2, LeaderId := 0, PrevLogIndex := 4, PrevLogTerm := 1,
          Entries := some [⟨some 35, 1⟩, ⟨some 36, 2⟩, ⟨some 37, 2⟩],
          LeaderCommit := 7 } = some (f2, reply2, msgs) ∧
      reply2.Success = true ∧
      entryAt f2 6 = some ⟨some 66, 1⟩ ∧ entryAt f2 7 = none ∧
      entryAt staleLeader 6 = some ⟨some 36, 2⟩ ∧
      f2.commitIndex = 6 ∧
      msgs = [{ Index := 6, Command := some 66, UseSnapshot := false, Snapshot := [] }] ∧
      appendEntriesReply l1 1 2 7
        { Term := 2, LeaderId := 0, PrevLogIndex := 4, PrevLogTerm := 1,
          Entries := some [⟨some 35, 1⟩, ⟨some 36, 2⟩, ⟨some 37, 2⟩],
          LeaderCommit := 7 } true reply2 = some (l2, [], none) ∧
      l2.matchIndex = [0, 7, 7] := by
  refine ⟨[Task.sendAppendEntries 1 2 false 6 2 7, Task.sendAppendEntries 2 2 false 7 2 7],
    { Term := 2, LeaderId := 0, PrevLogIndex := 6, PrevLogTerm := 2,
      Entries := some [⟨some 37, 2⟩], LeaderCommit := 7 },
    { Term := 2, LeaderId := 0, PrevLogIndex := 4, PrevLogTerm := 1,
      Entries := some [⟨some 37, 2⟩], LeaderCommit := 7 },
    persist staleFollower,
    persist { staleFollower with commitIndex := 6, lastApplied := 6 },
    { staleLeader with nextIndex := [8, 5, 8] },
    { staleLeader with nextIndex := [8, 8, 8], matchIndex := [0, 7, 7] },
    { Term := 2, Success := false, ConflictIndex := 5 },
    { Term := 2, Success := true, ConflictIndex := 0 },
    [{ Index := 6, Command := some 66, UseSnapshot := false, Snapshot := [] }], ?_⟩
  and_intros
  all_goals decide

/-- C7 (the code at the failing input): `leaderOfSeven` sends peer 1 the request
`behindSnapshot`, behind index 3 with the entries of the indices 4 to 7.
`compacted`, whose log was compacted through index 5, holds in the covered range
the sentinel of index 5 alone, of the term of the incoming entry for index 5, so
nothing conflicts; it replies `Success = true` and skips the merge: `lastIndex`
stays 5, not `max(5, 3 + 4) = 7`, and the indices 6 and 7 are not in its log.
The leader, on the reply, sets `matchIndex[1] = 7` and commits through index 7,
counting peer 1. -/
theorem AppendEntries_behind_snapshot_lastIndex :
    ∃ (ts : List Task) (f2 l2 : Raft) (reply : AppendEntriesReply)
      (msgs lmsgs : List ApplyMsg),
      issueAppendEntries leaderOfSeven false = some (leaderOfSeven, ts) ∧
      Task.sendAppendEntries 1 2 false 3 2 5 ∈ ts ∧
      appendEntriesSend leaderOfSeven leaderOfSeven.log 2 false 5
        (issueSingleAppendEntries leaderOfSeven 2 3 2 5).1 = some (some behindSnapshot) ∧
      (∀ (k : Nat) (e x : Entry), (behindSnapshot.Entries.getD [])[k]? = some e →
        entryAt compacted (behindSnapshot.PrevLogIndex + 1 + (k : Int)) = some x →
        x.Term = e.Term) ∧
      AppendEntries compacted behindSnapshot = some (f2, reply, msgs) ∧
      reply.Success = true ∧
      lastIndex compacted = 5 ∧ lastIndex f2 = 5 ∧
      Max.max (lastIndex compacted)
        (behindSnapshot.PrevLogIndex + ((behindSnapshot.Entries.getD []).length : Int)) = 7 ∧
      entryAt f2 6 = none ∧ entryAt f2 7 = none ∧
      appendEntriesReply leaderOfSeven 1 2 5 behindSnapshot true reply =
        some (l2, lmsgs, none) ∧
      l2.matchIndex = [0, 7, 5] ∧ l2.commitIndex = 7 := by
  refine ⟨[Task.sendAppendEntries 1 2 false 3 2 5, Task.sendAppendEntries 2 2 false 7 2 5],
    persist compacted,
    { leaderOfSeven with nextIndex := [8, 8, 8], matchIndex := [0, 7, 5], commitIndex := 7 },
    { Term := 2, Success := true, ConflictIndex := 0 }, [],
    [{ Index := 6, Command := some 26, UseSnapshot := false, Snapshot := [] },
     { Index := 7, Command := some 27, UseSnapshot := false, Snapshot := [] }], ?_⟩
  refine ⟨by decide, by decide, by decide, ?_, by decide, by decide, by decide, by decide,
    by decide, by decide, by decide, by decide, by decide, by decide⟩
  intro k e x hk hx
  have hlen : k < 4 := by
    by_contra hc
    have : (behindSnapshot.Entries.getD [])[k]? = none :=
      List.getElem?_eq_none (by
        show ([⟨some 24, 2⟩, ⟨some 25, 2⟩, ⟨some 26, 2⟩, ⟨some 27, 2⟩] : List Entry).length ≤ k
        simp only [List.length_cons, List.length_nil]
        omega)
    rw [this] at hk
    cases hk
  interval_cases k
  · have hn : entryAt compacted (behindSnapshot.PrevLogIndex + 1 + ((0 : Nat) : Int)) = none := by
      decide
    rw [hn] at hx
    cases hx
  · have hn : entryAt compacted (behindSnapshot.PrevLogIndex + 1 + ((1 : Nat) : Int)) =
        some ⟨none, 2⟩ := by decide
    rw [hn] at hx
    cases hx
    have he : (behindSnapshot.Entries.getD [])[1]? = some ⟨some 25, 2⟩ := by decide
    rw [he] at hk
    cases hk
    rfl
  · have hn : entryAt compacted (behindSnapshot.PrevLogIndex + 1 + ((2 : Nat) : Int)) = none := by
      decide
    rw [hn] at hx
    cases hx
  · have hn : entryAt compacted (behindSnapshot.PrevLogIndex + 1 + ((3 : Nat) : Int)) = none := by
      decide
    rw [hn] at hx
    cases hx

end raft

/-! # Theorems on the primary-backup replica -/

namespace simplepb

/-! ## Prepare -/

/-- The first three branches of `Prepare` fail and the handler goes on to retry
or to recover exactly when the view of the request is ahead, or it is the view
of the server and the log is too short; the view and the log are then left. -/
theorem Prepare_frame (srv : PBServer) (args : PrepareArgs)
    (h : ¬ (srv.currentView = args.View ∧ (srv.log.length : Int) = args.Index)) :
    (Prepare srv args).1.log = srv.log ∧
    (Prepare srv args).1.currentView = srv.currentView ∧
    (Prepare srv args).1.commitIndex = srv.commitIndex := by
  unfold Prepare
  rw [if_neg h]
  split
  · exact ⟨rfl, rfl, rfl⟩
  · split
    · exact ⟨rfl, rfl, rfl⟩
    · split
      · exact ⟨rfl, rfl, rfl⟩
      · exact ⟨rfl, rfl, rfl⟩

/-- The nested calls of `Prepare` on itself leave the log when the first call
does not append. -/
theorem prepareNested_log (args : PrepareArgs) :
    ∀ (n : Nat) (srv : PBServer),
      ¬ (srv.currentView = args.View ∧ (srv.log.length : Int) = args.Index) →
      (prepareNested n srv args).1.log = srv.log ∧
      (prepareNested n srv args).1.currentView = srv.currentView ∧
      (prepareNested n srv args).1.commitIndex = srv.commitIndex := by
  intro n
  induction n with
  | zero =>
    intro srv h
    exact Prepare_frame srv args h
  | succ n ih =>
    intro srv h
    obtain ⟨h1, h2, h3⟩ := Prepare_frame srv args h
    unfold prepareNested
    generalize hp : Prepare srv args = p at h1 h2 h3
    obtain ⟨srv1, reply, next⟩ := p
    cases next with
    | done => exact ⟨h1, h2, h3⟩
    | recover v => exact ⟨h1, h2, h3⟩
    | resend =>
      dsimp only at h1 h2 h3 ⊢
      have h' : ¬ (srv1.currentView = args.View ∧ (srv1.log.length : Int) = args.Index) := by
        rw [h1, h2]; exact h
      obtain ⟨g1, g2, g3⟩ := ih srv1 h'
      exact ⟨g1.trans h1, g2.trans h2, g3.trans h3⟩

/-- C23: `Prepare` appends to the log exactly when `currentView = args.View` and
`len(log) = args.Index`: then the log becomes the old log followed by
`args.Entry`, `lastNormalView = currentView`, `commitIndex = args.PrimaryCommit`
and the reply is `Success = true`; in every other case the log is left, also by
the calls of `Prepare` on itself that the handler makes while it retries.  With
`currentView = args.View` and `len(log) > args.Index` the reply is `Success =
true` and the state is left; with `currentView > args.View` the reply is
`Success = false` and the state is left. -/
theorem Prepare_spec (srv : PBServer) (args : PrepareArgs) :
    ((srv.currentView = args.View ∧ (srv.log.length : Int) = args.Index) →
      (Prepare srv args).1.log = srv.log ++ [args.Entry] ∧
      (Prepare srv args).1.lastNormalView = srv.currentView ∧
      (Prepare srv args).1.currentView = srv.currentView ∧
      (Prepare srv args).1.commitIndex = args.PrimaryCommit ∧
      (Prepare srv args).2.1.Success = true ∧
      (Prepare srv args).2.2 = PrepareNext.done) ∧
    (¬ (srv.currentView = args.View ∧ (srv.log.length : Int) = args.Index) →
      (Prepare srv args).1.log = srv.log ∧
      ∀ n, (prepareNested n srv args).1.log = srv.log) ∧
    ((srv.currentView = args.View ∧ (srv.log.length : Int) > args.Index) →
      (Prepare srv args).2.1.Success = true ∧ (Prepare srv args).1 = srv ∧
      (Prepare srv args).2.2 = PrepareNext.done) ∧
    (srv.currentView > args.View →
      (Prepare srv args).2.1.Success = false ∧ (Prepare srv args).1 = srv ∧
      (Prepare srv args).2.2 = PrepareNext.done) := by
  refine ⟨?_, ?_, ?_, ?_⟩
  · intro h
    unfold Prepare
    rw [if_pos h]
    exact ⟨rfl, rfl, rfl, rfl, rfl, rfl⟩
  · intro h
    exact ⟨(Prepare_frame srv args h).1, fun n => (prepareNested_log args n srv h).1⟩
  · intro h
    have h1 : ¬ (srv.currentView = args.View ∧ (srv.log.length : Int) = args.Index) := by
      rintro ⟨-, hc⟩; omega
    unfold Prepare
    rw [if_neg h1, if_pos h]
    exact ⟨rfl, rfl, rfl⟩
  · intro h
    have h1 : ¬ (srv.currentView = args.View ∧ (srv.log.length : Int) = args.Index) := by
      rintro ⟨hc, -⟩; omega
    have h2 : ¬ (srv.currentView = args.View ∧ (srv.log.length : Int) > args.Index) := by
      rintro ⟨hc, -⟩; omega
    unfold Prepare
    rw [if_neg h1, if_neg h2, if_pos h]
    exact ⟨rfl, rfl, rfl⟩

/-- C23 on the replica 1 that `Make` builds, whose log has length 1: a `Prepare`
of view 0 for index 1 is appended, one for index 2 is not. -/
theorem Prepare_spec_witness :
    (Prepare (Make 3 1 0) ⟨0, 0, 1, some 1⟩).1.log = [none, some 1] ∧
    (Prepare (Make 3 1 0) ⟨0, 0, 1, some 1⟩).2.1.Success = true ∧
    (Prepare (Make 3 1 0) ⟨0, 0, 2, some 2⟩).1.log = [none] := by
  obtain ⟨h1, -, -, -, h5, -⟩ :=
    (Prepare_spec (Make 3 1 0) ⟨0, 0, 1, some 1⟩).1 ⟨by decide, by decide⟩
  obtain ⟨h6, -⟩ := (Prepare_spec (Make 3 1 0) ⟨0, 0, 2, some 2⟩).2.1 (by decide)
  exact ⟨h1, h5, h6⟩

/-! ## The quorum of the primary -/

/-- The counting loop of `issuePrepares` leaves at most as many
`successReplies` as it had plus the successful replies among the messages. -/
theorem prepareCount_le (nPeers : Nat) :
    ∀ (msgs : List (Option PrepareReply)) (successReplies out : List PrepareReply)
      (nReplies : Int),
      prepareCount nPeers msgs successReplies nReplies = some out →
      out.length ≤ successReplies.length + successCount msgs := by
  intro msgs
  induction msgs with
  | nil =>
    intro successReplies out nReplies h
    cases h
  | cons r rs ih =>
    intro successReplies out nReplies h
    have hnone : successCount (none :: rs) = successCount rs := by
      unfold successCount
      simp [List.filter]
    have hsome : ∀ reply : PrepareReply, successCount (some reply :: rs) =
        (if reply.Success = true then 1 else 0) + successCount rs := by
      intro reply
      unfold successCount
      by_cases hsucc : reply.Success = true
      · simp [List.filter, hsucc]; omega
      · simp [List.filter, hsucc]
    cases r with
    | none =>
      unfold prepareCount at h
      dsimp only at h
      rw [hnone]
      split at h
      · cases h
        omega
      · exact ih successReplies out (nReplies + 1) h
    | some reply =>
      unfold prepareCount at h
      dsimp only at h
      rw [hsome]
      by_cases hsucc : reply.Success = true
      · rw [if_pos hsucc] at h ⊢
        split at h
        · cases h
          simp only [List.length_append, List.length_singleton]
          omega
        · have := ih (successReplies ++ [reply]) out (nReplies + 1) h
          simp only [List.length_append, List.length_singleton] at this
          omega
      · rw [if_neg hsucc] at h ⊢
        split at h
        · cases h
          omega
        · have := ih successReplies out (nReplies + 1) h
          omega

/-- C24 (amended): the counting goroutine of `issuePrepares` goes on to commit
only when at least `len(peers)/2`, rounded down, of the backups replied
`Success = true`; for an even number of servers this is `⌈N/2⌉`.  The commit
itself is the loop that waits for `commitIndex + 1 = index` and then sets
`commitIndex = index`. -/
theorem issuePrepares_quorum (nPeers : Nat) (msgs : List (Option PrepareReply))
    (h : issuePrepares nPeers msgs = some PrepareOutcome.commit) :
    nPeers / 2 ≤ successCount msgs ∧
    (nPeers % 2 = 0 → ceilHalf nPeers ≤ successCount msgs) ∧
    (∀ (srv : PBServer) (index : Int),
      (srv.commitIndex + 1 = index →
        (prepareCommit srv index).1.commitIndex = index ∧ (prepareCommit srv index).2 = true) ∧
      (srv.commitIndex + 1 ≠ index → prepareCommit srv index = (srv, false))) := by
  unfold issuePrepares at h
  cases hc : prepareCount nPeers msgs [] 0 with
  | none => rw [hc] at h; cases h
  | some out =>
    rw [hc] at h
    dsimp only at h
    have hle := prepareCount_le nPeers msgs [] out 0 hc
    simp only [List.length_nil, Nat.zero_add] at hle
    by_cases hq : out.length ≥ nPeers / 2
    · refine ⟨by omega, ?_, ?_⟩
      · intro heven
        unfold ceilHalf
        omega
      · intro srv index
        unfold prepareCommit
        refine ⟨?_, ?_⟩
        · intro hi
          rw [if_pos hi]
          exact ⟨rfl, rfl⟩
        · intro hi
          rw [if_neg hi]
    · rw [if_neg hq] at h
      cases h

/-- C24 with three servers and one backup that replies `Success = true`. -/
theorem issuePrepares_quorum_witness :
    issuePrepares 3 [some ⟨0, true⟩] = some PrepareOutcome.commit ∧
    3 / 2 ≤ successCount [some ⟨0, true⟩] :=
  ⟨by decide, (issuePrepares_quorum 3 [some ⟨0, true⟩] (by decide)).1⟩

/-- C24 fails as stated for an odd number of servers: with three servers the
goroutine goes on to commit when one backup has replied `Success = true`, and
`⌈3/2⌉ = 2`. -/
theorem issuePrepares_quorum_counterexample :
    issuePrepares 3 [some ⟨0, true⟩] = some PrepareOutcome.commit ∧
    successCount [some ⟨0, true⟩] = 1 ∧ ceilHalf 3 = 2 ∧
    ¬ (ceilHalf 3 ≤ successCount [some ⟨0, true⟩]) := by
  decide

/-! ## View change and recovery -/

/-- The loop of `determineNewViewLog` from `lastView` and `newViewLog`: either no
reply replaces `newViewLog`, or the log that it leaves is the log of a reply of
largest `LastNormalView`, not below `lastView`, and longest among the replies of
that `LastNormalView`. -/
theorem determineLoop_spec :
    ∀ (rs : List ViewChangeReply) (lastView : Int) (log : List Cmd),
      (determineLoop rs lastView log = log ∧
        ∀ r ∈ rs, r.LastNormalView < lastView ∨
          (r.LastNormalView = lastView ∧ r.Log.length ≤ log.length)) ∨
      (∃ r ∈ rs, determineLoop rs lastView log = r.Log ∧ lastView ≤ r.LastNormalView ∧
        (r.LastNormalView = lastView → log.length < r.Log.length) ∧
        (∀ q ∈ rs, q.LastNormalView ≤ r.LastNormalView) ∧
        (∀ q ∈ rs, q.LastNormalView = r.LastNormalView → q.Log.length ≤ r.Log.length)) := by
  intro rs
  induction rs with
  | nil =>
    intro lastView log
    left
    exact ⟨rfl, fun r hr => by cases hr⟩
  | cons r rs ih =>
    intro lastView log
    unfold determineLoop
    by_cases h1 : r.LastNormalView > lastView
    · rw [if_pos h1]
      right
      rcases ih r.LastNormalView r.Log with ⟨hout, hall⟩ | ⟨r2, hr2, hout, hge, htie, hmax, hlen⟩
      · refine ⟨r, List.mem_cons_self _ _, hout, by omega, ?_, ?_, ?_⟩
        · intro hc; omega
        · intro q hq
          rcases List.mem_cons.mp hq with rfl | hq
          · exact le_refl _
          · rcases hall q hq with hc | ⟨hc, -⟩ <;> omega
        · intro q hq heq
          rcases List.mem_cons.mp hq with rfl | hq
          · exact le_refl _
          · rcases hall q hq with hc | ⟨-, hc⟩
            · omega
            · exact hc
      · refine ⟨r2, List.mem_cons_of_mem _ hr2, hout, by omega, ?_, ?_, ?_⟩
        · intro hc; omega
        · intro q hq
          rcases List.mem_cons.mp hq with rfl | hq
          · exact hge
          · exact hmax q hq
        · intro q hq heq
          rcases List.mem_cons.mp hq with rfl | hq
          · exact le_of_lt (htie heq.symm)
          · exact hlen q hq heq
    · rw [if_neg h1]
      by_cases h2 : r.LastNormalView = lastView
      · rw [if_pos h2]
        by_cases h3 : r.Log.length > log.length
        · rw [if_pos h3]
          right
          rcases ih lastView r.Log with ⟨hout, hall⟩ | ⟨r2, hr2, hout, hge, htie, hmax, hlen⟩
          · refine ⟨r, List.mem_cons_self _ _, hout, by omega, fun _ => h3, ?_, ?_⟩
            · intro q hq
              rcases List.mem_cons.mp hq with rfl | hq
              · exact le_refl _
              · rcases hall q hq with hc | ⟨hc, -⟩ <;> omega
            · intro q hq heq
              rcases List.mem_cons.mp hq with rfl | hq
              · exact le_refl _
              · rcases hall q hq with hc | ⟨-, hc⟩
                · omega
                · exact hc
          · refine ⟨r2, List.mem_cons_of_mem _ hr2, hout, hge, ?_, ?_, ?_⟩
            · intro hc
              have := htie hc
              omega
            · intro q hq
              rcases List.mem_cons.mp hq with rfl | hq
              · omega
              · exact hmax q hq
            · intro q hq heq
              rcases List.mem_cons.mp hq with rfl | hq
              · exact le_of_lt (htie (by omega))
              · exact hlen q hq heq
        · rw [if_neg h3]
          rcases ih lastView log with ⟨hout, hall⟩ | ⟨r2, hr2, hout, hge, htie, hmax, hlen⟩
          · left
            refine ⟨hout, ?_⟩
            intro q hq
            rcases List.mem_cons.mp hq with rfl | hq
            · right; exact ⟨h2, by omega⟩
            · exact hall q hq
          · right
            refine ⟨r2, List.mem_cons_of_mem _ hr2, hout, hge, htie, ?_, ?_⟩
            · intro q hq
              rcases List.mem_cons.mp hq with rfl | hq
              · omega
              · exact hmax q hq
            · intro q hq heq
              rcases List.mem_cons.mp hq with rfl | hq
              · have := htie (by omega)
                omega
              · exact hlen q hq heq
      · rw [if_neg h2]
        rcases ih lastView log with ⟨hout, hall⟩ | ⟨r2, hr2, hout, hge, htie, hmax, hlen⟩
        · left
          refine ⟨hout, ?_⟩
          intro q hq
          rcases List.mem_cons.mp hq with rfl | hq
          · left; omega
          · exact hall q hq
        · right
          refine ⟨r2, List.mem_cons_of_mem _ hr2, hout, hge, htie, ?_, ?_⟩
          · intro q hq
            rcases List.mem_cons.mp hq with rfl | hq
            · omega
            · exact hmax q hq
          · intro q hq heq
            rcases List.mem_cons.mp hq with rfl | hq
            · omega
            · exact hlen q hq heq

/-- C25: on replies whose `LastNormalView` is not negative, `determineNewViewLog`
returns `ok = true` exactly when there are more than `len(peers)/2` replies, and
then the log that it returns is the `Log` of a reply whose `LastNormalView` is
the largest of all replies and whose log is a longest one among the replies with
that `LastNormalView`. -/
theorem determineNewViewLog_spec (srv : PBServer) (successReplies : List ViewChangeReply)
    (hnn : ∀ r ∈ successReplies, 0 ≤ r.LastNormalView) :
    ((determineNewViewLog srv successReplies).1 = true ↔
      successReplies.length > srv.nPeers / 2) ∧
    ((determineNewViewLog srv successReplies).1 = true →
      ∃ r ∈ successReplies, (determineNewViewLog srv successReplies).2 = r.Log ∧
        (∀ q ∈ successReplies, q.LastNormalView ≤ r.LastNormalView) ∧
        (∀ q ∈ successReplies, q.LastNormalView = r.LastNormalView →
          q.Log.length ≤ r.Log.length)) := by
  unfold determineNewViewLog
  by_cases h : successReplies.length ≤ srv.nPeers / 2
  · rw [if_pos h]
    refine ⟨?_, ?_⟩
    · constructor
      · intro hc
        cases hc
      · intro hc
        omega
    · intro hc
      cases hc
  · rw [if_neg h]
    refine ⟨?_, ?_⟩
    · constructor
      · intro _
        omega
      · intro _
        rfl
    intro _
    rcases determineLoop_spec successReplies (-1) [] with
      ⟨-, hall⟩ | ⟨r, hr, hout, -, -, hmax, hlen⟩
    · exfalso
      cases hs : successReplies with
      | nil => rw [hs] at h; simp at h
      | cons q qs =>
        have hq : q ∈ successReplies := by rw [hs]; exact List.mem_cons_self _ _
        have h0 := hnn q hq
        rcases hall q hq with hc | ⟨hc, -⟩ <;> omega
    · exact ⟨r, hr, hout, hmax, hlen⟩

/-- C25 on three replies of three servers: the second and the third have the
largest `LastNormalView`, and the third has the longer log. -/
theorem determineNewViewLog_spec_witness :
    (∀ r ∈ ([⟨0, [none, some 1, some 2, some 3], true⟩, ⟨1, [none, some 1], true⟩,
        ⟨1, [none, some 1, some 4], true⟩] : List ViewChangeReply), 0 ≤ r.LastNormalView) ∧
    determineNewViewLog (Make 3 1 0)
      [⟨0, [none, some 1, some 2, some 3], true⟩, ⟨1, [none, some 1], true⟩,
        ⟨1, [none, some 1, some 4], true⟩] = (true, [none, some 1, some 4]) ∧
    ((determineNewViewLog (Make 3 1 0)
      [⟨0, [none, some 1, some 2, some 3], true⟩, ⟨1, [none, some 1], true⟩,
        ⟨1, [none, some 1, some 4], true⟩]).1 = true ↔
      ([⟨0, [none, some 1, some 2, some 3], true⟩, ⟨1, [none, some 1], true⟩,
        ⟨1, [none, some 1, some 4], true⟩] : List ViewChangeReply).length >
        (Make 3 1 0).nPeers / 2) :=
  ⟨by decide, by decide,
    (determineNewViewLog_spec (Make 3 1 0)
      [⟨0, [none, some 1, some 2, some 3], true⟩, ⟨1, [none, some 1], true⟩,
        ⟨1, [none, some 1, some 4], true⟩] (by decide)).1⟩

/-- C26: `StartView` with `args.View ≥ currentView` leaves `currentView =
args.View`, `log = args.Log`, `lastNormalView = args.View`, `status = NORMAL` and
`commitIndex = len(args.Log) - 1`; with `args.View < currentView` it leaves the
replica as it was.  The `args` that the counting goroutine of `PromptViewChange`
sends carry the view of the view change and the log that `determineNewViewLog`
chose. -/
theorem StartView_spec (srv : PBServer) (args : StartViewArgs) :
    (args.View ≥ srv.currentView →
      (StartView srv args).currentView = args.View ∧
      (StartView srv args).log = args.Log ∧
      (StartView srv args).lastNormalView = args.View ∧
      (StartView srv args).status = Status.NORMAL ∧
      (StartView srv args).commitIndex = (args.Log.length : Int) - 1) ∧
    (args.View < srv.currentView → StartView srv args = srv) ∧
    (∀ (primary : PBServer) (vcArgs : ViewChangeArgs) (msgs : List (Option ViewChangeReply)),
      promptStartView primary vcArgs msgs = some (some args) →
      args.View = vcArgs.View ∧
      ∃ successReplies, viewChangeCount primary.nPeers msgs [] 0 = some successReplies ∧
        determineNewViewLog primary successReplies = (true, args.Log)) := by
  refine ⟨?_, ?_, ?_⟩
  · intro h
    unfold StartView
    rw [if_pos (by omega)]
    exact ⟨rfl, rfl, rfl, rfl, rfl⟩
  · intro h
    unfold StartView
    rw [if_neg (by omega)]
  · intro primary vcArgs msgs h
    unfold promptStartView at h
    cases hc : viewChangeCount primary.nPeers msgs [] 0 with
    | none => rw [hc] at h; cases h
    | some successReplies =>
      rw [hc] at h
      dsimp only at h
      by_cases hok : (determineNewViewLog primary successReplies).1 = false
      · rw [if_pos hok] at h
        cases h
      · rw [if_neg hok] at h
        cases h
        refine ⟨rfl, successReplies, rfl, ?_⟩
        have hb : (determineNewViewLog primary successReplies).1 = true := by
          cases hd : (determineNewViewLog primary successReplies).1
          · exact absurd hd hok
          · rfl
        exact Prod.ext hb rfl

/-- C26 in scenario S5: three replicas in view 0 with the log `[_, a, b]` and
`commitIndex = 2`; `PromptViewChange(1)` on replica 1, the new primary, sends
`ViewChange`, and on the replies its counting goroutine sends `StartView` with
the log that `determineNewViewLog` chose; afterwards every replica has view 1,
the log `[_, a, b]`, `lastNormalView = 1`, status `NORMAL` and `commitIndex =
2`. -/
theorem StartView_spec_witness :
    PromptViewChange (s5Replica 1) 1 = some (some ⟨1⟩) ∧
    promptStartView (s5Replica 1) ⟨1⟩
      [some (ViewChange (s5Replica 0) ⟨1⟩).2, some (ViewChange (s5Replica 1) ⟨1⟩).2,
        some (ViewChange (s5Replica 2) ⟨1⟩).2] = some (some ⟨1, [none, some 1, some 2]⟩) ∧
    ∀ me ∈ ([0, 1, 2] : List Int),
      (StartView (ViewChange (s5Replica me) ⟨1⟩).1 ⟨1, [none, some 1, some 2]⟩).currentView = 1 ∧
      (StartView (ViewChange (s5Replica me) ⟨1⟩).1 ⟨1, [none, some 1, some 2]⟩).log =
        [none, some 1, some 2] ∧
      (StartView (ViewChange (s5Replica me) ⟨1⟩).1 ⟨1, [none, some 1, some 2]⟩).lastNormalView
        = 1 ∧
      (StartView (ViewChange (s5Replica me) ⟨1⟩).1 ⟨1, [none, some 1, some 2]⟩).status =
        Status.NORMAL ∧
      (StartView (ViewChange (s5Replica me) ⟨1⟩).1 ⟨1, [none, some 1, some 2]⟩).commitIndex
        = 2 := by
  refine ⟨by decide, by decide, ?_⟩
  intro me hme
  have hview : (ViewChange (s5Replica me) ⟨1⟩).1.currentView = 0 := by
    unfold ViewChange
    split <;> rfl
  exact (StartView_spec (ViewChange (s5Replica me) ⟨1⟩).1 ⟨1, [none, some 1, some 2]⟩).1
    (by rw [hview]; decide)

/-- C27: `Prepare`, `ViewChange`, `StartView` and `Start` leave `currentView` at
least what it was, but the recovery goroutine of `Prepare` installs the view of
the `Recovery` reply without comparing it with `currentView`.  Replica 0, primary
of view 0 of three, takes `Start(a)` and `Start(b)`; the `Prepare` of index 2
reaches replica 1 while its log has length 1, and after 100 calls on itself
replica 1 starts the recovery goroutine for view 0; replica 0 answers `Recovery`
with its view 0; before that reply is installed, `PromptViewChange(1)` on
replica 1 brings replica 1 through `ViewChange` and `StartView` to view 1; then
the recovery goroutine installs the reply and `currentView` goes from 1 back
to 0. -/
theorem recovery_lowers_currentView :
    (∀ (srv : PBServer) (args : PrepareArgs),
      srv.currentView ≤ (Prepare srv args).1.currentView) ∧
    (∀ (srv : PBServer) (args : ViewChangeArgs),
      srv.currentView ≤ (ViewChange srv args).1.currentView) ∧
    (∀ (srv : PBServer) (args : StartViewArgs),
      srv.currentView ≤ (StartView srv args).currentView) ∧
    (∀ (srv : PBServer) (command : Cmd) r, Start srv command = some r →
      srv.currentView ≤ r.1.currentView) ∧
    ∃ (p1 p2 p3 b1 b2 b3 b4 : PBServer) (t1 t2 : PrepareTask) (pr : PrepareReply)
      (rcArgs : RecoveryArgs) (rcReply : RecoveryReply) (vcArgs : ViewChangeArgs)
      (vr0 vr1 : ViewChangeReply) (svArgs : StartViewArgs),
      Start (Make 3 0 0) (some 1) = some (p1, some t1, (1, 0, true)) ∧
      Start p1 (some 2) = some (p2, some t2, (2, 0, true)) ∧
      prepareNested 100 (Make 3 1 0) (prepareArgs t2) = (b1, pr, PrepareNext.recover 0) ∧
      recoveryCall b1 0 = some (0, rcArgs) ∧
      Recovery p2 rcArgs = rcReply ∧ rcReply.Success = true ∧
      PromptViewChange b1 1 = some (some vcArgs) ∧
      ViewChange p2 vcArgs = (p3, vr0) ∧ ViewChange b1 vcArgs = (b2, vr1) ∧
      promptStartView b1 vcArgs [some vr0, some vr1] = some (some svArgs) ∧
      StartView b2 svArgs = b3 ∧ b3.currentView = 1 ∧
      recoveryReply b3 true rcReply = b4 ∧ b4.currentView = 0 ∧
      b4.currentView < b3.currentView := by
  refine ⟨?_, ?_, ?_, ?_, ?_⟩
  · intro srv args
    unfold Prepare
    split
    · exact le_refl _
    · split
      · exact le_refl _
      · split
        · exact le_refl _
        · split
          · exact le_refl _
          · exact le_refl _
  · intro srv args
    unfold ViewChange
    split
    · exact le_refl _
    · exact le_refl _
  · intro srv args
    unfold StartView
    split
    · rename_i h
      exact h
    · exact le_refl _
  · intro srv command r h
    unfold Start at h
    split at h
    · cases h
      exact le_refl _
    · split at h
      · cases h
      · split at h
        · cases h
          exact le_refl _
        · cases h
          exact le_refl _
  · refine ⟨{ Make 3 0 0 with log := [none, some 1] },
      { Make 3 0 0 with log := [none, some 1, some 2] },
      { Make 3 0 0 with log := [none, some 1, some 2], status := Status.VIEWCHANGE },
      { Make 3 1 0 with status := Status.RECOVERING },
      { Make 3 1 0 with status := Status.VIEWCHANGE },
      { nPeers := 3, me := 1, currentView := 1, status := Status.NORMAL, lastNormalView := 1,
        log := [none, some 1, some 2], commitIndex := 2, prepareRetry := 0 },
      { nPeers := 3, me := 1, currentView := 0, status := Status.NORMAL, lastNormalView := 0,
        log := [none, some 1, some 2], commitIndex := 0, prepareRetry := 0 },
      ⟨0, some 1, 1, 0⟩, ⟨0, some 2, 2, 0⟩, ⟨0, false⟩, ⟨0, 1⟩,
      ⟨0, [none, some 1, some 2], 0, true⟩, ⟨1⟩, ⟨0, [none, some 1, some 2], true⟩,
      ⟨0, [none], true⟩, ⟨1, [none, some 1, some 2]⟩, ?_⟩
    and_intros
    all_goals decide

/-! ## Start and GetEntryAtIndex -/

/-- `GetPrimary` on a view that is not negative and at least one server is the
remainder `view mod nservers`. -/
theorem GetPrimary_mod (view : Int) (nservers : Nat) (hv : 0 ≤ view) (hn : 0 < nservers) :
    GetPrimary view (nservers : Int) = some (view % (nservers : Int)) := by
  unfold GetPrimary
  rw [if_neg (by omega), Int.tmod_eq_emod hv (by omega)]

/-- C28: with `status = NORMAL` and `GetPrimary(currentView, len(peers)) = me`,
`Start(command)` returns `(old len(log), currentView, true)`, the log becomes the
old log followed by `command`, and `currentView`, `status` and `commitIndex` are
left; otherwise, with another status or another primary, it returns `(-1,
currentView, false)` and leaves the replica as it was.  `GetPrimary` is Go's
`currentView % len(peers)`, which is `currentView mod len(peers)` for a view
that is not negative, and `Start` returns unless the status is `NORMAL` and
there are no peers. -/
theorem Start_primary (srv : PBServer) (command : Cmd) :
    (srv.status = Status.NORMAL →
      GetPrimary srv.currentView (srv.nPeers : Int) = some srv.me →
      ∃ srv2 task, Start srv command =
          some (srv2, task, ((srv.log.length : Int), srv.currentView, true)) ∧
        srv2.log = srv.log ++ [command] ∧ srv2.currentView = srv.currentView ∧
        srv2.status = srv.status ∧ srv2.commitIndex = srv.commitIndex ∧
        task = some ⟨srv.currentView, command, (srv.log.length : Int), srv.commitIndex⟩) ∧
    ((srv.status ≠ Status.NORMAL ∨
        ∃ p, GetPrimary srv.currentView (srv.nPeers : Int) = some p ∧ p ≠ srv.me) →
      Start srv command = some (srv, none, (-1, srv.currentView, false))) ∧
    (Start srv command = none ↔ srv.status = Status.NORMAL ∧ srv.nPeers = 0) ∧
    (0 ≤ srv.currentView → 0 < srv.nPeers →
      GetPrimary srv.currentView (srv.nPeers : Int) =
        some (srv.currentView % (srv.nPeers : Int))) := by
  refine ⟨?_, ?_, ?_, ?_⟩
  · intro hs hp
    unfold Start
    rw [if_neg (fun hc => hc hs), hp]
    dsimp only
    rw [if_neg (fun hc => hc rfl)]
    refine ⟨{ srv with lastNormalView := srv.currentView, log := srv.log ++ [command] },
      some ⟨srv.currentView, command, (srv.log.length : Int), srv.commitIndex⟩,
      ?_, rfl, rfl, rfl, rfl, rfl⟩
    simp only [List.length_append, List.length_singleton, Nat.cast_add, Nat.cast_one,
      add_sub_cancel_right]
  · intro h
    unfold Start
    by_cases hs : srv.status ≠ Status.NORMAL
    · rw [if_pos hs]
    · rw [if_neg hs]
      rcases h with hc | ⟨p, hp, hne⟩
      · exact absurd hc hs
      · rw [hp]
        dsimp only
        rw [if_pos hne]
  · unfold Start GetPrimary
    constructor
    · intro h
      by_cases hs : srv.status ≠ Status.NORMAL
      · rw [if_pos hs] at h
        cases h
      · rw [if_neg hs] at h
        by_cases hn : (srv.nPeers : Int) = 0
        · refine ⟨?_, by omega⟩
          by_contra hc
          exact hs hc
        · rw [if_neg hn] at h
          dsimp only at h
          split at h
          · cases h
          · cases h
    · rintro ⟨hs, hn⟩
      rw [if_neg (fun hc => hc hs), if_pos (by omega)]
  · intro hv hn
    exact GetPrimary_mod srv.currentView srv.nPeers hv hn

/-- What the code of `GetEntryAtIndex` does for `index ≥ 0`: it returns `ok =
false` and the nil command when `len(log) ≤ index`, and `ok = true` with the
command `log[index]` when `index < len(log)`. -/
theorem GetEntryAtIndex_spec (srv : PBServer) (index : Int) (h0 : 0 ≤ index) :
    ((srv.log.length : Int) ≤ index → GetEntryAtIndex srv index = some (false, none)) ∧
    (index < (srv.log.length : Int) →
      ∃ command, srv.log[index.toNat]? = some command ∧
        GetEntryAtIndex srv index = some (true, command)) := by
  refine ⟨?_, ?_⟩
  · intro h
    unfold GetEntryAtIndex
    rw [if_neg (by omega)]
  · intro h
    obtain ⟨command, hc, hget⟩ := raft.index_some_of_lt srv.log index h0 h
    refine ⟨command, hget, ?_⟩
    unfold GetEntryAtIndex
    rw [if_pos (by omega), hc]

/-- On the replica that `Make` builds and one `Start` the log is `[nil, 7]`;
index 1 holds the command 7, index 2 is beyond the log. -/
theorem GetEntryAtIndex_spec_witness :
    (0 : Int) ≤ 1 ∧
    GetEntryAtIndex { Make 3 0 0 with log := [none, some 7] } 2 = some (false, none) ∧
    GetEntryAtIndex { Make 3 0 0 with log := [none, some 7] } 1 = some (true, some 7) := by
  refine ⟨by decide, ?_, ?_⟩
  · exact (GetEntryAtIndex_spec { Make 3 0 0 with log := [none, some 7] } 2 (by decide)).1
      (by decide)
  · decide

/-- C29 (the code at the failing input): at `index = len(log)` the log is not
shorter than `index`, for which the comment above `GetEntryAtIndex` and the claim
say `ok = true`, and the code, whose guard is `len(srv.log) > index`, returns `ok
= false` with the nil command; so on the replica that `Make` builds, whose log
is `[nil]`, at index 1. -/
theorem GetEntryAtIndex_at_length :
    (∀ srv : PBServer, (0 : Int) ≤ (srv.log.length : Int) ∧
      ¬ ((srv.log.length : Int) < (srv.log.length : Int)) ∧
      GetEntryAtIndex srv (srv.log.length : Int) = some (false, none)) ∧
    ((Make 3 0 0).log = [none] ∧ (0 : Int) ≤ 1 ∧ ¬ (((Make 3 0 0).log.length : Int) < 1) ∧
      GetEntryAtIndex (Make 3 0 0) 1 = some (false, none)) := by
  refine ⟨?_, by decide⟩
  intro srv
  refine ⟨by omega, by omega, ?_⟩
  unfold GetEntryAtIndex
  rw [if_neg (by omega)]

/-- C28 on the replicas that `Make` builds in view 0: replica 0 is the primary
and appends, replica 1 is not and refuses. -/
theorem Start_primary_witness :
    (∃ srv2 task, Start (Make 3 0 0) (some 7) = some (srv2, task, (1, 0, true)) ∧
      srv2.log = [none, some 7]) ∧
    Start (Make 3 1 0) (some 7) = some (Make 3 1 0, none, (-1, 0, false)) := by
  obtain ⟨srv2, task, h1, h2, -⟩ :=
    (Start_primary (Make 3 0 0) (some 7)).1 (by decide) (by decide)
  exact ⟨⟨srv2, task, h1, h2⟩,
    (Start_primary (Make 3 1 0) (some 7)).2.1 (Or.inr ⟨0, by decide, by decide⟩)⟩

end simplepb
